import Mathlib

/-!
NexusCache: a verification development.

A shallow embedding of the core of NexusCache (Go) and theorems about it.

* `lru`            : `lru/lru.go`, the byte-capped LRU list with expiry
* `consistenthash` : `consistenthash/consistenthash.go`, the hash ring
* `nexuscache`     : `nexuscache/byteview.go`, `cache.go`, `group.go`, `server.go`

Conventions of the embedding.

* A run of a Go function that does not complete normally (a runtime panic, or a
  loop that never exits) is the result `none`; a completed run is `some _`.
* Instants of `time.Time` are integers (nanoseconds on one time line, the wall
  clock and the monotonic clock taken to agree) inside the range of `time.Time`,
  where `Time.Add` is exact.  A `time.Duration` is a 64-bit count of
  nanoseconds: `Time.Sub` saturates at its bounds.
* Every reading of `time.Now()` is an argument of the definition that makes it,
  in source order (`now`, `now2`, the fields of `lru.Readings`).  The readings
  taken for the metrics are left out with the metrics.
* The random draw of `rand.Int63n` is the argument `rnd`, reduced into range.
* Go maps are association lists with at most one pair per key in use.
* Mutexes are not modelled in `lru`, `consistenthash` and `nexuscache`: the
  definitions there describe one call running alone.
* `singleflight.State` runs `singleflight/singleflight.go` with several
  goroutines: each region between `g.mu.Lock()` and `g.mu.Unlock()` and each
  statement between two such regions is one atomic step, and a schedule names
  the goroutine that takes each step.  A goroutine at `Pc.entry` has called
  `DoOnce` and not yet acquired the lock.  `singleflight.PanicState` adds
  goroutines whose `fn` panics.
* Byte counts are mathematical integers (a 64-bit counter cannot overflow on
  byte lengths that fit in memory).
-/

/-! ## Go maps as association lists -/

/-- Map read `m[k]`, with `none` for an absent key. -/
def mapGet {α β : Type} [DecidableEq α] : List (α × β) → α → Option β
  | [], _ => none
  | (k', v) :: m, k => if k' = k then some v else mapGet m k

/-- Map deletion `delete(m, k)`. -/
def mapDelete {α β : Type} [DecidableEq α] (m : List (α × β)) (k : α) : List (α × β) :=
  m.filter (fun p => decide (p.1 ≠ k))

/-- Map write `m[k] = v`. -/
def mapSet {α β : Type} [DecidableEq α] (m : List (α × β)) (k : α) (v : β) : List (α × β) :=
  (k, v) :: mapDelete m k

namespace lru

/-- Instants of `time.Time`, as nanoseconds. -/
abbrev Time := Int

/-- Lengths of time of `time.Duration`, as nanoseconds. -/
abbrev Duration := Int

/-- The largest `time.Duration`: `1<<63 - 1` nanoseconds, about 292 years. -/
def maxDuration : Duration := 2 ^ 63 - 1

/-- The smallest `time.Duration`: `-1 << 63` nanoseconds. -/
def minDuration : Duration := -(2 ^ 63)

/-- Method `Time.Sub`: the duration `t - u`, or the largest (smallest) duration when
the difference is above (below) what a `time.Duration` can hold. -/
def Time.Sub (t u : Time) : Duration :=
  if maxDuration < t - u then maxDuration
  else if t - u < minDuration then minDuration
  else t - u

/-- The readings of `time.Now()` that one call of `Get` makes on an entry it finds,
in source order. -/
structure Readings where
  /-- Line 66: `kv.expire.Before(time.Now())`. -/
  test : Time
  /-- Line 72: `kv.expire = time.Now().Add(expireTime)`. -/
  slide : Time
  /-- Line 73: `kv.addTime = time.Now()`. -/
  stamp : Time
deriving DecidableEq, Repr

/-- The readings of a call of `Get` during which the clock does not advance. -/
def Readings.once (now : Time) : Readings := { test := now, slide := now, stamp := now }

/-- Package variable `DefaultMaxBytes`. -/
def DefaultMaxBytes : Int := 10

/-- Package variable `DefaultExpireRandom`, three minutes. -/
def DefaultExpireRandom : Duration := 3 * 60 * 1000000000

/-- Interface `Value`: a cached value reports how many bytes it takes. -/
class Value (V : Type) where
  /-- Method `Len()`. -/
  Len : V → Nat

/-- Struct `entry`, the payload of one list element. -/
structure entry (V : Type) where
  key : String
  value : V
  expire : Time
  addTime : Time
deriving DecidableEq, Repr

/-- Struct `Cache`.

A `*list.Element` is a handle: an index into `elems`, the arena holding the
`*entry` of every element ever pushed.  `ll` is the recency list, front first.
`cache` is the key index.  `OnEvicted` says whether a callback is installed and
`evictions` records, in order, the arguments it has been called with.  The field
`Now` of the source is never read by the code and is left out. -/
structure Cache (V : Type) where
  maxBytes : Int
  nbytes : Int
  elems : List (entry V)
  ll : List Nat
  cache : List (String × Nat)
  OnEvicted : Bool
  evictions : List (String × V)
  ExpireRandom : Duration
deriving DecidableEq, Repr

variable {V : Type} [Value V]

/-- The bytes one entry is charged: `int64(len(kv.key)) + int64(kv.value.Len())`. -/
def entry.size (kv : entry V) : Int :=
  (kv.key.utf8ByteSize : Int) + (Value.Len kv.value : Int)

/-- Function `New`. -/
def New (maxBytes : Int) (onEvicted : Bool) : Cache V :=
  { maxBytes := maxBytes
    nbytes := 0
    elems := []
    ll := []
    cache := []
    OnEvicted := onEvicted
    evictions := []
    ExpireRandom := DefaultExpireRandom }

/-- Method `Len`. -/
def Cache.Len (c : Cache V) : Nat := c.ll.length

/-- Library call `ll.MoveToFront(ele)`: nothing happens when `ele` is not in the list. -/
def moveToFront (ll : List Nat) (ele : Nat) : List Nat :=
  if ele ∈ ll then ele :: ll.erase ele else ll

/-- The call `c.OnEvicted(key, value)` guarded by `c.OnEvicted != nil`. -/
def Cache.callOnEvicted (c : Cache V) (kv : entry V) : List (String × V) :=
  if c.OnEvicted then c.evictions ++ [(kv.key, kv.value)] else c.evictions

/-- Method `removeElement`: the element leaves the key index and the byte count;
the source does not unlink it from the list. -/
def Cache.removeElement (c : Cache V) (ele : Nat) : Option (Cache V) :=
  match c.elems[ele]? with
  | none => none
  | some kv =>
    some { c with
      cache := mapDelete c.cache kv.key
      nbytes := c.nbytes - kv.size
      evictions := c.callOnEvicted kv }

/-- Method `Get`; the result value is `none` for `(nil, false)`.  The clock is read
three times on an entry that has not expired. -/
def Cache.Get (c : Cache V) (key : String) (t : Readings) : Option (Option V × Cache V) :=
  match mapGet c.cache key with
  | some ele =>
    match c.elems[ele]? with
    | none => none
    | some kv =>
      if kv.expire < t.test then
        (c.removeElement ele).map (fun c' => (none, c'))
      else
        let expireTime : Duration := Time.Sub kv.expire kv.addTime
        let kv' : entry V := { kv with expire := t.slide + expireTime, addTime := t.stamp }
        some (some kv.value,
          { c with elems := c.elems.set ele kv', ll := moveToFront c.ll ele })
  | none => some (none, c)

/-- Method `RemoveOldest`. -/
def Cache.RemoveOldest (c : Cache V) : Option (Cache V) :=
  match c.ll.getLast? with
  | none => some c
  | some ele =>
    match c.elems[ele]? with
    | none => none
    | some kv =>
      some { c with
        ll := c.ll.dropLast
        cache := mapDelete c.cache kv.key
        nbytes := c.nbytes - kv.size
        evictions := c.callOnEvicted kv }

/-- Method `Remove`. -/
def Cache.Remove (c : Cache V) (key : String) : Option (Cache V) :=
  match mapGet c.cache key with
  | some ele => c.removeElement ele
  | none => some c

/-- The loop `for c.maxBytes != 0 && c.maxBytes < c.nbytes { c.RemoveOldest() }`.
It is run with as much fuel as the list has elements: every round on a
non-empty list shortens the list by one, and a round on an empty list changes
nothing, so a loop still wanting to evict when the fuel is gone never exits. -/
def Cache.evict : Nat → Cache V → Option (Cache V)
  | 0, c => if c.maxBytes ≠ 0 ∧ c.maxBytes < c.nbytes then none else some c
  | fuel + 1, c =>
    if c.maxBytes ≠ 0 ∧ c.maxBytes < c.nbytes then
      c.RemoveOldest.bind (Cache.evict fuel)
    else some c

/-- The two branches of `Add` before the eviction loop. -/
def Cache.put (c : Cache V) (key : String) (value : V) (expire : Time)
    (randDuration : Duration) (now : Time) : Option (Cache V) :=
  match mapGet c.cache key with
  | some ele =>
    match c.elems[ele]? with
    | none => none
    | some kv =>
      some { c with
        ll := moveToFront c.ll ele
        nbytes := c.nbytes + ((Value.Len value : Int) - (Value.Len kv.value : Int))
        elems := c.elems.set ele { kv with value := value, expire := expire + randDuration } }
  | none =>
    let newEle := c.elems.length
    some { c with
      elems := c.elems ++ [{ key := key, value := value, expire := expire + randDuration,
                             addTime := now }]
      ll := newEle :: c.ll
      cache := mapSet c.cache key newEle
      nbytes := c.nbytes + ((key.utf8ByteSize : Int) + (Value.Len value : Int)) }

/-- Method `Add`.  `rand.Int63n(n)` panics unless `0 < n`; otherwise it yields
some number in `[0, n)`, here `rnd % n`.  `now` is the reading of `time.Now()`
stored as `addTime` of a new element. -/
def Cache.Add (c : Cache V) (key : String) (value : V) (expire : Time)
    (now : Time) (rnd : Nat) : Option (Cache V) :=
  if c.ExpireRandom ≤ 0 then none
  else
    let randDuration : Duration := (rnd : Int) % c.ExpireRandom
    (c.put key value expire randDuration now).bind (fun c1 => Cache.evict c1.ll.length c1)

/-- The sum of `len(key) + value.Len()` over the entries held in the key index. -/
def Cache.indexBytes (c : Cache V) : Int :=
  (c.cache.map (fun p => match c.elems[p.2]? with
    | some kv => kv.size
    | none => 0)).sum

end lru

namespace lru

/-- One call on a cache, with the clock readings and random draw it runs under. -/
inductive Op (V : Type) where
  | Add (key : String) (value : V) (expire : Time) (now : Time) (rnd : Nat)
  | Get (key : String) (t : Readings)
  | Remove (key : String)
  | RemoveOldest

variable {V : Type} [Value V]

/-- The cache after one call. -/
def Cache.step (c : Cache V) : Op V → Option (Cache V)
  | .Add key value expire now rnd => c.Add key value expire now rnd
  | .Get key t => (c.Get key t).map (fun r => r.2)
  | .Remove key => c.Remove key
  | .RemoveOldest => c.RemoveOldest

/-- The cache after a sequence of calls, first call first. -/
def Cache.run (c : Cache V) : List (Op V) → Option (Cache V)
  | [] => some c
  | op :: ops => (c.step op).bind (fun c' => c'.run ops)

end lru

namespace consistenthash

/-- Type `Hash`: the 64-bit unsigned result is the value of the function modulo `2^64`.
The argument is the byte string `[]byte(s)` of a Go string. -/
abbrev Hash := String → Nat

/-- Conversion `int(x)` of a `uint64` on a 64-bit platform (two's complement). -/
def toInt (x : Nat) : Int :=
  if x % 2 ^ 64 < 2 ^ 63 then ((x % 2 ^ 64 : Nat) : Int) else ((x % 2 ^ 64 : Nat) : Int) - 2 ^ 64

/-- Struct `Map`.  `md5hex` stands for the library expression
`fmt.Sprintf("%x", md5.Sum([]byte(s)))`, which the ring takes as given. -/
structure Map where
  md5hex : String → String
  hash : Hash
  replicas : Int
  keys : List Int
  hashMap : List (Int × String)

/-- Function `New`, for a hash function that is not nil. -/
def New (md5hex : String → String) (replicas : Int) (fn : Hash) : Map :=
  { md5hex := md5hex, hash := fn, replicas := replicas, keys := [], hashMap := [] }

/-- The point of virtual node `i` of peer `key`:
`int(m.hash([]byte(fmt.Sprintf("%x", md5.Sum([]byte(strconv.Itoa(i)+key))))))`. -/
def Map.point (m : Map) (i : Nat) (key : String) : Int :=
  toInt (m.hash (m.md5hex (toString i ++ key)))

/-- The points of all virtual nodes of a peer, in loop order `i = 0, 1, ..`. -/
def Map.points (m : Map) (key : String) : List Int :=
  (List.range m.replicas.toNat).map (fun i => m.point i key)

/-- Library function `sort.Ints`. -/
def sortInts (l : List Int) : List Int := l.insertionSort (fun a b => a ≤ b)

/-- The inner loop body of `AddNodes`. -/
def Map.addPoint (m : Map) (key : String) (i : Nat) : Map :=
  let hash := m.point i key
  { m with keys := m.keys ++ [hash], hashMap := mapSet m.hashMap hash key }

/-- The loops of `AddNodes`, before the final sort. -/
def Map.addAll (m : Map) (keys : List String) : Map :=
  keys.foldl (fun m key => (List.range m.replicas.toNat).foldl (fun m i => m.addPoint key i) m) m

/-- Method `AddNodes`. -/
def Map.AddNodes (m : Map) (keys : List String) : Map :=
  let m1 := m.addAll keys
  { m1 with keys := sortInts m1.keys }

/-- The binary search loop of `Get` (and of the library function `sort.Search`):
`for i < j { mid := (i+j)>>1; if keys[mid] >= hash { j = mid } else if keys[mid] < hash { i = mid+1 } }`,
giving the final `i`.  An index outside the array panics; running out of fuel
stands for a loop that does not exit. -/
def search (keys : List Int) (hash : Int) : Nat → Nat → Nat → Option Nat
  | 0, i, j => if i < j then none else some i
  | fuel + 1, i, j =>
    if i < j then
      let mid := (i + j) / 2
      match keys[mid]? with
      | none => none
      | some x =>
        if x ≥ hash then search keys hash fuel i mid
        else if x < hash then search keys hash fuel (mid + 1) j
        else search keys hash fuel i j
    else some i

/-- Method `Get`. -/
def Map.Get (m : Map) (key : String) : Option String :=
  if m.keys.length = 0 then some ""
  else
    let hash := toInt (m.hash key)
    (search m.keys hash m.keys.length 0 m.keys.length).bind (fun idx =>
      (m.keys[idx % m.keys.length]?).map (fun p => (mapGet m.hashMap p).getD ""))

/-- Library function `sort.SearchInts`: the same binary search, started on the whole array. -/
def SearchInts (a : List Int) (x : Int) : Option Nat :=
  search a x a.length 0 a.length

/-- One round of the loop of `Remove`: `m.keys = append(m.keys[:idx], m.keys[idx+1:]...)`;
slicing from `idx+1` panics when `idx` is the length of the array. -/
def Map.removePoint (m : Map) (hash : Int) : Option Map :=
  (SearchInts m.keys hash).bind (fun idx =>
    if idx + 1 ≤ m.keys.length then
      some { m with keys := m.keys.take idx ++ m.keys.drop (idx + 1) }
    else none)

/-- The loop of `Remove` over the given points. -/
def Map.removePoints (m : Map) : List Int → Option Map
  | [] => some m
  | p :: ps => (m.removePoint p).bind (fun m' => m'.removePoints ps)

/-- Method `Remove`. -/
def Map.Remove (m : Map) (key : String) : Option Map :=
  m.removePoints (m.points key)

/-- The standard lower bound: the least index whose element is `≥ h`, or the
length of the array when there is none. -/
def lowerBound (keys : List Int) (h : Int) : Nat :=
  keys.findIdx (fun x => decide (h ≤ x))

/-- The peer mapped to `points[i]`: `m.hashMap[m.keys[i]]`, with the empty string of
a Go map for a point that has no entry. -/
def Map.peerAt (m : Map) (i : Nat) : String :=
  match m.keys[i]? with
  | some p => (mapGet m.hashMap p).getD ""
  | none => ""

/-- Rings built from `New` by calls of `AddNodes` and `Remove` that completed. -/
inductive Reachable (md5hex : String → String) (replicas : Int) (fn : Hash) : Map → Prop where
  | new : Reachable md5hex replicas fn (New md5hex replicas fn)
  | addNodes (m : Map) (keys : List String) :
      Reachable md5hex replicas fn m → Reachable md5hex replicas fn (m.AddNodes keys)
  | remove (m m' : Map) (key : String) :
      Reachable md5hex replicas fn m → m.Remove key = some m' → Reachable md5hex replicas fn m'

end consistenthash

namespace singleflight

/-- Struct `Group`: the registry `g.m`, kept as the list of keys that have a
call registered.  The call records (`wg`, `val`, `err`) are only read by other
goroutines waiting on them. -/
structure Group where
  m : List String
deriving DecidableEq, Repr

/-- The test `if c, ok := g.m[key]; ok` of `DoOnce`. -/
def Group.inFlight (g : Group) (key : String) : Bool := decide (key ∈ g.m)

/-- The registration `g.m[key] = c` of `DoOnce`. -/
def Group.register (g : Group) (key : String) : Group :=
  { m := key :: g.m.filter (fun k => decide (k ≠ key)) }

/-- The removal `delete(g.m, key)` of `DoOnce`. -/
def Group.deregister (g : Group) (key : String) : Group :=
  { m := g.m.filter (fun k => decide (k ≠ key)) }

end singleflight

namespace nexuscache

open lru (Time Duration)

/-- Go errors, by their message. -/
abbrev Error := String

/-- The zero `time.Time` (1 January of year 1), in nanoseconds from the Unix epoch. -/
def zeroTime : Time := -62135596800 * 1000000000

/-- Package variable `DefaultExpireTime`, thirty seconds. -/
def DefaultExpireTime : Duration := 30 * 1000000000

/-- Struct `ByteView`. -/
structure ByteView where
  b : List UInt8
  e : Time
deriving DecidableEq, Repr

/-- Method `ByteView.Len`. -/
def ByteView.Len (v : ByteView) : Nat := v.b.length

instance : lru.Value ByteView := ⟨ByteView.Len⟩

/-- Method `ByteView.Expire`. -/
def ByteView.Expire (v : ByteView) : Time := v.e

/-- Function `cloneBytes`. -/
def cloneBytes (b : List UInt8) : List UInt8 := b

/-- Method `ByteView.ByteSlice`. -/
def ByteView.ByteSlice (v : ByteView) : List UInt8 := cloneBytes v.b

/-- The composite literal `&ByteView{}`. -/
def ByteView.zero : ByteView := { b := [], e := zeroTime }

/-- Struct `cache`: `lru` is `none` while the pointer is nil. -/
structure cache where
  lru : Option (lru.Cache ByteView)
  cacheBytes : Int
deriving DecidableEq, Repr

/-- Method `cache.add`; `now` is the reading of the clock in `lru.Add`. -/
def cache.add (c : cache) (key : String) (value : ByteView) (now : Time) (rnd : Nat) :
    Option cache :=
  let l : lru.Cache ByteView :=
    match c.lru with
    | none =>
      if lru.DefaultMaxBytes > c.cacheBytes then lru.New lru.DefaultMaxBytes false
      else lru.New c.cacheBytes false
    | some l => l
  (l.Add key value value.Expire now rnd).map (fun l' => { c with lru := some l' })

/-- Method `cache.get`; the value is `none` for `(nil, false)`. -/
def cache.get (c : cache) (key : String) (t : lru.Readings) :
    Option (Option ByteView × cache) :=
  match c.lru with
  | none => some (none, c)
  | some l => (l.Get key t).map (fun r => (r.1, { c with lru := some r.2 }))

/-- Interface `connect.PeerGetter`: a client for one remote node.  A remote call
returns what the other node and the network make it return. -/
structure PeerGetter where
  id : String
  Get : String → String → Except Error (List UInt8)
  Set : String → String → List UInt8 → Time → Bool → Option Error

/-- Interface `connect.PeerPicker`: `PickPeer key` is `some client` for
`(client, true)` and `none` for `(nil, false)`. -/
structure PeerPicker where
  PickPeer : String → Option PeerGetter

/-- The calls a Group makes to its collaborators. -/
inductive Call where
  | DoOnce (key : String)
  | PickPeer (key : String)
  | PeerGet (peer : String) (group : String) (key : String)
  | PeerSet (peer : String) (group : String) (key : String) (value : List UInt8)
      (expire : Time) (ishot : Bool)
  | GetterGet (key : String)
deriving DecidableEq, Repr

/-- Struct `Group`.  `getter` is the backend loader, `peers` is `none` until
`RegisterPeers`.  `calls` is not a field of the source: it records, in order,
every call made to the single-flight loader, the peer picker, a peer client or
the backend getter. -/
structure Group where
  name : String
  getter : String → Except Error (List UInt8)
  mainCache : cache
  hotCache : cache
  peers : Option PeerPicker
  loader : singleflight.Group
  calls : List Call

/-- A pair `(*ByteView, error)` as returned by `Get` and `Load`. -/
abbrev Result := Option ByteView × Option Error

/-- Appends one call to the record. -/
def Group.note (g : Group) (c : Call) : Group := { g with calls := g.calls ++ [c] }

/-- Function `NewGroup` (the registry of groups is not modelled). -/
def NewGroup (name : String) (cacheBytes hotcacheBytes : Int)
    (getter : String → Except Error (List UInt8)) : Group :=
  { name := name
    getter := getter
    mainCache := { lru := none, cacheBytes := cacheBytes }
    hotCache := { lru := none, cacheBytes := hotcacheBytes }
    peers := none
    loader := { m := [] }
    calls := [] }

/-- Method `RegisterPeers`; a second registration panics. -/
def Group.RegisterPeers (g : Group) (peers : PeerPicker) : Option Group :=
  match g.peers with
  | some _ => none
  | none => some { g with peers := some peers }

/-- Method `singleflight.Group.DoOnce` on the loader of a Group, for one call
running alone: a key that is already registered makes the call wait for a
completion that nobody delivers; otherwise the key is registered, `fn` runs,
and the key is removed. -/
def Group.DoOnce {R : Type} (g : Group) (key : String)
    (fn : Group → Option (R × Group)) : Option (R × Group) :=
  if g.loader.inFlight key then none
  else
    let g1 := { (g.note (.DoOnce key)) with loader := g.loader.register key }
    (fn g1).map (fun r => (r.1, { r.2 with loader := r.2.loader.deregister key }))

/-- Method `getFromPeer`. -/
def Group.getFromPeer (g : Group) (peer : PeerGetter) (key : String) : Result × Group :=
  let g1 := g.note (.PeerGet peer.id g.name key)
  match peer.Get g.name key with
  | .error err => ((none, some err), g1)
  | .ok bytes => ((some { b := bytes, e := zeroTime }, none), g1)

/-- Method `populateCache`. -/
def Group.populateCache (g : Group) (key : String) (value : ByteView) (now : Time)
    (rnd : Nat) : Option Group :=
  (g.mainCache.add key value now rnd).map (fun mc => { g with mainCache := mc })

/-- Method `getLocally`.  `now` is the reading the expiry of the value is counted
from, `now2` the later reading of `lru.Add`. -/
def Group.getLocally (g : Group) (key : String) (now now2 : Time) (rnd : Nat) :
    Option (Result × Group) :=
  let g1 := g.note (.GetterGet key)
  match g.getter key with
  | .error err => some ((some ByteView.zero, some err), g1)
  | .ok bytes =>
    let value : ByteView := { b := cloneBytes bytes, e := now + DefaultExpireTime }
    (g1.populateCache key value now2 rnd).map (fun g2 => ((some value, none), g2))

/-- The function literal passed to `DoOnce` in `Load`. -/
def Group.loadFn (key : String) (now now2 : Time) (rnd : Nat) (g : Group) :
    Option (Result × Group) :=
  match g.peers with
  | some peers =>
    let g1 := g.note (.PickPeer key)
    match peers.PickPeer key with
    | some peer =>
      match g1.getFromPeer peer key with
      | ((_, some err), g2) => some ((none, some err), g2)
      | ((value, none), g2) => some ((value, none), g2)
    | none => g1.getLocally key now now2 rnd
  | none => g.getLocally key now now2 rnd

/-- Method `Load`: on an error the named result `value` is returned, which is
nil on every failing path. -/
def Group.Load (g : Group) (key : String) (now now2 : Time) (rnd : Nat) :
    Option (Result × Group) :=
  (g.DoOnce key (Group.loadFn key now now2 rnd)).map (fun r =>
    match r.1 with
    | (view, none) => ((view, none), r.2)
    | (_, some err) => ((none, some err), r.2))

/-- Method `lookupCache`.  `tm` are the readings of `mainCache.get`, `th` those of
`hotCache.get`. -/
def Group.lookupCache (g : Group) (key : String) (tm th : lru.Readings) :
    Option (Option ByteView × Group) :=
  (g.mainCache.get key tm).bind (fun r =>
    let g1 := { g with mainCache := r.2 }
    match r.1 with
    | some value => some (some value, g1)
    | none => (g1.hotCache.get key th).map (fun r2 => (r2.1, { g1 with hotCache := r2.2 })))

/-- Method `Get` (metrics and logging left out).  `tm` and `th` are the readings of
`lookupCache`, `now` and `now2` those of `Load`. -/
def Group.Get (g : Group) (key : String) (tm th : lru.Readings) (now now2 : Time) (rnd : Nat) :
    Option (Result × Group) :=
  if key = "" then some ((some ByteView.zero, some "nexuscache: key is empty"), g)
  else
    (g.lookupCache key tm th).bind (fun r =>
      match r.1 with
      | some v => some ((some v, none), r.2)
      | none => r.2.Load key now now2 rnd)

/-- Method `setFromPeer`. -/
def Group.setFromPeer (g : Group) (peer : PeerGetter) (key : String) (value : ByteView)
    (ishot : Bool) : Option Error × Group :=
  (peer.Set g.name key value.ByteSlice value.Expire ishot,
   g.note (.PeerSet peer.id g.name key value.ByteSlice value.Expire ishot))

/-- Method `setHotCache`. -/
def Group.setHotCache (g : Group) (key : String) (value : ByteView) (now : Time)
    (rnd : Nat) : Option (Option Error × Group) :=
  if key = "" then some (some "key is empty", g)
  else
    (g.DoOnce key (fun g1 =>
      (g1.hotCache.add key value now rnd).map (fun hc =>
        ((), { g1 with hotCache := hc })))).map (fun r => (none, r.2))

/-- The function literal passed to `DoOnce` in `Set`; calling `PickPeer` on a
nil `g.peers` panics. -/
def Group.setFn (key : String) (value : ByteView) (ishot : Bool) (now : Time) (rnd : Nat)
    (g : Group) : Option (Result × Group) :=
  match g.peers with
  | none => none
  | some peers =>
    let g1 := g.note (.PickPeer key)
    match peers.PickPeer key with
    | some peer =>
      match g1.setFromPeer peer key value ishot with
      | (some err, g2) => some ((none, some err), g2)
      | (none, g2) => some ((some value, none), g2)
    | none =>
      (g1.mainCache.add key value now rnd).map (fun mc =>
        ((some value, none), { g1 with mainCache := mc }))

/-- Method `Set` (metrics and logging left out); `now` is the reading of the clock in
`lru.Add`. -/
def Group.Set (g : Group) (key : String) (value : ByteView) (ishot : Bool) (now : Time)
    (rnd : Nat) : Option (Option Error × Group) :=
  if key = "" then some (some "key is empty", g)
  else if ishot then g.setHotCache key value now rnd
  else (g.DoOnce key (Group.setFn key value ishot now rnd)).map (fun r => (r.1.2, r.2))

/-- Struct `Server`, reduced to the fields the ring operations read. -/
structure Server where
  self : String
  peers : consistenthash.Map

/-- Method `RemovePeerByKey`. -/
def Server.RemovePeerByKey (s : Server) (key : String) : Option Server :=
  (s.peers.Get key).bind (fun peer =>
    (s.peers.Remove peer).map (fun ring => { s with peers := ring }))

end nexuscache

/-! ## Predicates on states used by the theorems -/

namespace lru

variable {V : Type} [Value V]

/-- The bytes charged to the element behind a handle (nothing for a handle outside the arena). -/
def Cache.sizeAt (c : Cache V) (ele : Nat) : Int :=
  match c.elems[ele]? with
  | some kv => kv.size
  | none => 0

/-- The sum of `len(key) + value.Len()` over the elements of the recency list. -/
def Cache.listBytes (c : Cache V) : Int := (c.ll.map c.sizeAt).sum

/-- Well-formed caches: the properties that the pointer structure of the source
keeps on every cache made by `New` with a non-negative capacity.  Handles in the
list are distinct and point into the arena, every indexed handle is in the list
and carries the key it is indexed under, and the byte count never exceeds the
bytes of the list. -/
structure Cache.WF (c : Cache V) : Prop where
  rnd_pos : 0 < c.ExpireRandom
  cap_nonneg : 0 ≤ c.maxBytes
  nodup : c.ll.Nodup
  valid : ∀ h ∈ c.ll, h < c.elems.length
  index : ∀ k h, mapGet c.cache k = some h →
    h ∈ c.ll ∧ ∃ kv, c.elems[h]? = some kv ∧ kv.key = k
  bytes : c.nbytes ≤ c.listBytes

/-- No stale element for `key`: every element of the recency list that carries
`key` is the one the index holds for `key`. -/
def Cache.NoStale (c : Cache V) (key : String) : Prop :=
  ∀ h ∈ c.ll, ∀ kv, c.elems[h]? = some kv → kv.key = key → mapGet c.cache key = some h

/-- The entry `kv` for `key` is at the front of the list and indexed, and no other
element of the list carries `key`. -/
def Cache.AtFront (c : Cache V) (key : String) (kv : entry V) : Prop :=
  ∃ h rest, c.ll = h :: rest ∧ mapGet c.cache key = some h ∧ c.elems[h]? = some kv ∧
    ∀ x ∈ rest, ∀ kv', c.elems[x]? = some kv' → kv'.key ≠ key

/-- The value of the entry indexed under `key`, when there is one and it has not
expired at `now`. -/
def Cache.fresh (c : Cache V) (key : String) (now : Time) : Option V :=
  match mapGet c.cache key with
  | some ele =>
    match c.elems[ele]? with
    | some kv => if kv.expire < now then none else some kv.value
    | none => none
  | none => none

end lru

namespace nexuscache

open lru (Time Duration)

/-- The LRU behind a `cache`, as `cache.add` would see it: the one it holds, or
the one it would create. -/
def cache.theLru (c : cache) : lru.Cache ByteView :=
  match c.lru with
  | none =>
    if lru.DefaultMaxBytes > c.cacheBytes then lru.New lru.DefaultMaxBytes false
    else lru.New c.cacheBytes false
  | some l => l

/-- A `cache` is well-formed when its LRU is. -/
def cache.WF (c : cache) : Prop := c.theLru.WF

/-- No stale element for `key` in the LRU of a `cache`. -/
def cache.NoStale (c : cache) (key : String) : Prop := c.theLru.NoStale key

/-- A `cache` fits an entry: the capacity is disabled or covers `len(key) + value.Len()`. -/
def cache.fits (c : cache) (key : String) (value : ByteView) : Prop :=
  c.theLru.maxBytes = 0 ∨ (key.utf8ByteSize : Int) + (value.Len : Int) ≤ c.theLru.maxBytes

/-- The unexpired value a `cache` holds for `key`, if any. -/
def cache.fresh (c : cache) (key : String) (now : Time) : Option ByteView :=
  match c.lru with
  | none => none
  | some l => l.fresh key now

/-- The expiry `cache.add` stores for a new entry: the requested one plus the jitter. -/
def cache.storedExpire (c : cache) (value : ByteView) (rnd : Nat) : Time :=
  value.Expire + (rnd : Int) % c.theLru.ExpireRandom

/-- The new calls of `g'` over `g`. -/
def Group.newCalls (g g' : Group) : List Call := g'.calls.drop g.calls.length

end nexuscache

/-! ## Concrete states used to evaluate the definitions -/

namespace nexuscache

open lru (Time Duration)

/-- A picker that reports self for every key. -/
def selfPicker : PeerPicker := { PickPeer := fun _ => none }

/-- A remote node that answers every Get with one byte and accepts every Set. -/
def remoteNode : PeerGetter :=
  { id := "10.0.0.2", Get := fun _ _ => .ok [7], Set := fun _ _ _ _ _ => none }

/-- A picker that names `remoteNode` as the owner of every key. -/
def remotePicker : PeerPicker := { PickPeer := fun _ => some remoteNode }

/-- A backend that knows the key "Tom" only. -/
def scoreBackend : String → Except Error (List UInt8) :=
  fun key => if key = "Tom" then .ok [54, 51, 48] else .error "no such key"

/-- A new Group (capacity `DefaultMaxBytes`, ten bytes) on a node that owns every key. -/
def ownerGroup : Group := { NewGroup "scores" 0 0 scoreBackend with peers := some selfPicker }

/-- A backend that answers every key with eight bytes. -/
def wideBackend : String → Except Error (List UInt8) :=
  fun _ => .ok [0, 1, 2, 3, 4, 5, 6, 7]

/-- A new Group (capacity ten bytes) over `wideBackend`, on a node that owns every key. -/
def wideGroup : Group := { NewGroup "scores" 0 0 wideBackend with peers := some selfPicker }

/-- A new Group on a node that owns no key. -/
def remoteGroup : Group := { NewGroup "scores" 0 0 scoreBackend with peers := some remotePicker }

/-- A one-byte value expiring at instant 9000. -/
def smallView : ByteView := { b := [1], e := 9000 }

/-- Another one-byte value expiring at instant 9000. -/
def otherView : ByteView := { b := [2], e := 9000 }

/-- An eight-byte value expiring at instant 9000. -/
def eightByteView : ByteView := { b := [0, 1, 2, 3, 4, 5, 6, 7], e := 9000 }

/-- A ten-byte value expiring at instant 9000. -/
def tenByteView : ByteView := { b := [0, 1, 2, 3, 4, 5, 6, 7, 8, 9], e := 9000 }

/-- An LRU holding the single key "k" with the given value, stored at instant 0. -/
def oneEntry (v : ByteView) : lru.Cache ByteView :=
  { maxBytes := 10, nbytes := 2,
    elems := [{ key := "k", value := v, expire := 9000, addTime := 0 }],
    ll := [0], cache := [("k", 0)], OnEvicted := false, evictions := [],
    ExpireRandom := lru.DefaultExpireRandom }

/-- A Group whose mainCache holds "k" with `smallView` and whose hotCache holds
"k" with `otherView`. -/
def warmGroup : Group :=
  { ownerGroup with
    mainCache := { lru := some (oneEntry smallView), cacheBytes := 0 }
    hotCache := { lru := some (oneEntry otherView), cacheBytes := 0 } }

/-- The Group `ownerGroup` after `Set("k", smallView, false)` at instant 0 with jitter 0. -/
def ownerGroupAfterSet : Group :=
  { ownerGroup with
    mainCache := { lru := some (oneEntry smallView), cacheBytes := 0 }
    calls := [.DoOnce "k", .PickPeer "k"] }

end nexuscache

namespace lru

open nexuscache (ByteView)

/-- Calls that leave a stale element behind and then evict it: an entry for "a"
that has expired is read, then two eight-byte values are added to a cache of
ten bytes. -/
def staleOps : List (Op ByteView) :=
  [ .Add "a" { b := [1], e := 0 } 0 0 0,
    .Get "a" (.once 5),
    .Add "b" { b := [0, 1, 2, 3, 4, 5, 6, 7], e := 9000 } 9000 5 0,
    .Add "c" { b := [0, 1, 2, 3, 4, 5, 6, 7], e := 9000 } 9000 5 0 ]

/-- Calls that remove a key and then evict the oldest element. -/
def removeOps : List (Op ByteView) :=
  [ .Add "a" { b := [1], e := 9000 } 9000 0 0, .Remove "a", .RemoveOldest ]

end lru

namespace consistenthash

/-- A ring with one replica per peer and a hash that sends every input to 7. -/
def flatRing : Map := New id 1 (fun _ => 7)

/-- A ring with three replicas per peer whose hash is the byte length of its input. -/
def lengthRing : Map := New id 3 String.length

end consistenthash


namespace consistenthash

/-- The ring made by `New` followed by one `AddNodes` call per list of peer IDs in `calls`. -/
def build (md5hex : String → String) (replicas : Int) (fn : Hash) (calls : List (List String)) :
    Map :=
  calls.foldl (fun m keys => m.AddNodes keys) (New md5hex replicas fn)

/-- No point is shared by two different peers of the list. -/
def Map.NoSharedPoint (m : Map) (peers : List String) : Prop :=
  ∀ p ∈ peers, ∀ q ∈ peers, ∀ x, x ∈ m.points p → x ∈ m.points q → p = q

/-- No point is shared by two different virtual nodes of the peers of the list. -/
def Map.DistinctPoints (m : Map) (peers : List String) : Prop :=
  ∀ p ∈ peers, ∀ q ∈ peers, ∀ i < m.replicas.toNat, ∀ j < m.replicas.toNat,
    m.point i p = m.point j q → p = q ∧ i = j

/-- Rings built from `New` by calls of `AddNodes` and `Remove` that completed,
together with the peer IDs passed to `AddNodes` so far. -/
inductive ReachableAdding (md5hex : String → String) (replicas : Int) (fn : Hash) :
    List String → Map → Prop where
  | new : ReachableAdding md5hex replicas fn [] (New md5hex replicas fn)
  | addNodes (added : List String) (m : Map) (keys : List String) :
      ReachableAdding md5hex replicas fn added m →
      ReachableAdding md5hex replicas fn (added ++ keys) (m.AddNodes keys)
  | remove (added : List String) (m m' : Map) (key : String) :
      ReachableAdding md5hex replicas fn added m → m.Remove key = some m' →
      ReachableAdding md5hex replicas fn added m'

/-- The number of entries of the point→peer map, `len(m.hashMap)`. -/
def Map.entries (m : Map) : Nat := m.hashMap.length

/-- A hash reading its input as a number in base 256. -/
def wordHash : Hash := fun s => s.data.foldl (fun a c => 256 * a + c.toNat) 0

/-- A ring with two replicas per peer over `wordHash`. -/
def wordRing : Map := New id 2 wordHash

end consistenthash

namespace consistenthash

/-- The ring holds the peers of the list: its point array is sorted and made of
their points, and the map sends each of these points to a peer it belongs to. -/
def Map.Holds (m : Map) (peers : List String) : Prop :=
  m.keys.Sorted (fun a b => a ≤ b) ∧
  (∀ x, x ∈ m.keys ↔ ∃ p ∈ peers, x ∈ m.points p) ∧
  ∀ x, (∃ p ∈ peers, x ∈ m.points p) →
    ∃ q ∈ peers, x ∈ m.points q ∧ mapGet m.hashMap x = some q

end consistenthash


/-! ## Single-flight calls run by several goroutines -/

namespace singleflight

/-- Struct `call`.  `done` says that `c.wg.Done()` has been called, so that the
counter set by `c.wg.Add(1)` is back at zero; `val` is the pair `(c.val, c.err)`
once it has been assigned, and `none` while both fields are still nil. -/
structure call (R : Type) where
  done : Bool
  val : Option R
deriving DecidableEq, Repr

/-- Where a goroutine stands in `DoOnce(key, fn)`.  A `*call` is an index into the
list of the call records allocated so far. -/
inductive Pc (R : Type) where
  /-- Before the first `g.mu.Lock()`. -/
  | entry
  /-- Found `c` registered and released the lock: in `c.wg.Wait()`. -/
  | waiting (c : Nat)
  /-- Registered `c` and released the lock: `fn` is running. -/
  | calling (c : Nat)
  /-- After `c.val, c.err = fn()`, before `c.wg.Done()`. -/
  | filled (c : Nat)
  /-- After `c.wg.Done()`, before the second `g.mu.Lock()`. -/
  | released (c : Nat)
  /-- After `delete(g.m, key)` and `g.mu.Unlock()`, before `return c.val, c.err`. -/
  | deleted (c : Nat)
  /-- Returned with the given pair; `none` is the pair of two nil values. -/
  | returned (r : Option R)
deriving DecidableEq, Repr

/-- One goroutine running `DoOnce(key, fn)`.  `fn` is the pair the function literal
returns when this goroutine runs it.  `joined` and `runs` are not in the source:
the call record the goroutine registered or found, and the number of times it
has invoked `fn`. -/
structure Goroutine (R : Type) where
  key : String
  fn : R
  pc : Pc R
  joined : Option Nat
  runs : Nat
deriving DecidableEq, Repr

/-- A single-flight `Group` (`m` is the registry `g.m`), the call records allocated
so far, and the goroutines that are inside `DoOnce`. -/
structure State (R : Type) where
  m : List (String × Nat)
  calls : List (call R)
  gs : List (Goroutine R)
deriving DecidableEq, Repr

variable {R : Type}

/-- The call record a goroutine is attached to at this point of `DoOnce`, if any. -/
def Pc.handle : Pc R → Option Nat
  | .waiting c => some c
  | .calling c => some c
  | .filled c => some c
  | .released c => some c
  | .deleted c => some c
  | _ => none

/-- The call record a goroutine has created, from registration to its return. -/
def Pc.owns : Pc R → Option Nat
  | .calling c => some c
  | .filled c => some c
  | .released c => some c
  | .deleted c => some c
  | _ => none

/-- The call record a goroutine has registered and not yet deleted from the registry. -/
def Pc.holds : Pc R → Option Nat
  | .calling c => some c
  | .filled c => some c
  | .released c => some c
  | _ => none

/-- One atomic step of goroutine `i` in `DoOnce`; `none` when it has no step to take
(it has returned, or `c.wg.Wait()` still blocks).  The regions between
`g.mu.Lock()` and `g.mu.Unlock()` are single steps. -/
def State.step (s : State R) (i : Nat) : Option (State R) :=
  match s.gs[i]? with
  | none => none
  | some g =>
    match g.pc with
    | .entry =>
      match mapGet s.m g.key with
      | some c =>
        some { s with gs := s.gs.set i { g with pc := .waiting c, joined := some c } }
      | none =>
        some { m := mapSet s.m g.key s.calls.length
               calls := s.calls ++ [{ done := false, val := none }]
               gs := s.gs.set i { g with pc := .calling s.calls.length,
                                         joined := some s.calls.length,
                                         runs := g.runs + 1 } }
    | .waiting c =>
      match s.calls[c]? with
      | some cl =>
        if cl.done then some { s with gs := s.gs.set i { g with pc := .returned cl.val } }
        else none
      | none => none
    | .calling c =>
      match s.calls[c]? with
      | some cl =>
        some { s with calls := s.calls.set c { cl with val := some g.fn }
                      gs := s.gs.set i { g with pc := .filled c } }
      | none => none
    | .filled c =>
      match s.calls[c]? with
      | some cl =>
        some { s with calls := s.calls.set c { cl with done := true }
                      gs := s.gs.set i { g with pc := .released c } }
      | none => none
    | .released c =>
      some { s with m := mapDelete s.m g.key
                    gs := s.gs.set i { g with pc := .deleted c } }
    | .deleted c =>
      match s.calls[c]? with
      | some cl => some { s with gs := s.gs.set i { g with pc := .returned cl.val } }
      | none => none
    | .returned _ => none

/-- The state after the goroutines of a schedule have taken one step each, in order;
`none` when a scheduled goroutine has no step to take. -/
def State.run (s : State R) : List Nat → Option (State R)
  | [] => some s
  | i :: is => (s.step i).bind (fun s' => s'.run is)

/-- An empty registry and goroutines that are all about to enter `DoOnce`, one for
each pair of a key and a result of `fn`. -/
def State.init (calls : List (String × R)) : State R :=
  { m := []
    calls := []
    gs := calls.map (fun p => { key := p.1, fn := p.2, pc := .entry, joined := none, runs := 0 }) }

/-- The number of invocations of `fn` so far, over all goroutines. -/
def State.invocations (s : State R) : Nat := (s.gs.map (fun g => g.runs)).sum

/-- What holds in every state reached from `State.init` (`State.init_Inv`, `State.Inv.run_keeps`). -/
structure State.Inv (s : State R) : Prop where
  joined : ∀ (i : Nat) (g : Goroutine R) (c : Nat),
    s.gs[i]? = some g → g.pc.handle = some c → g.joined = some c
  valid : ∀ (i : Nat) (g : Goroutine R) (c : Nat),
    s.gs[i]? = some g → g.joined = some c → c < s.calls.length
  owner : ∀ (i j : Nat) (gi gj : Goroutine R) (c : Nat),
    s.gs[i]? = some gi → s.gs[j]? = some gj →
    gi.pc.owns = some c → gj.pc.owns = some c → i = j
  registered : ∀ (i : Nat) (g : Goroutine R) (c : Nat),
    s.gs[i]? = some g → g.pc.holds = some c → mapGet s.m g.key = some c
  held : ∀ (k : String) (c : Nat), mapGet s.m k = some c →
    ∃ (i : Nat) (g : Goroutine R), s.gs[i]? = some g ∧ g.key = k ∧ g.pc.holds = some c
  calling : ∀ (i : Nat) (g : Goroutine R) (c : Nat),
    s.gs[i]? = some g → g.pc = Pc.calling c →
    s.calls[c]? = some { done := false, val := none }
  filled : ∀ (i : Nat) (g : Goroutine R) (c : Nat),
    s.gs[i]? = some g → g.pc = Pc.filled c →
    s.calls[c]? = some { done := false, val := some g.fn }
  finished : ∀ (i : Nat) (g : Goroutine R) (c : Nat),
    s.gs[i]? = some g → (g.pc = Pc.released c ∨ g.pc = Pc.deleted c) →
    s.calls[c]? = some { done := true, val := some g.fn }
  returned : ∀ (i : Nat) (g : Goroutine R) (r : Option R),
    s.gs[i]? = some g → g.pc = Pc.returned r →
    ∃ c, g.joined = some c ∧ s.calls[c]? = some { done := true, val := r }
  counted : s.invocations = s.calls.length

end singleflight


/-! ## More concrete states -/

namespace lru

open nexuscache (ByteView)

/-- A five-byte value expiring at instant 9000. -/
def fiveBytes (x : UInt8) : ByteView := { b := [x, x, x, x, x], e := 9000 }

/-- Scenario S1, first part: `Add` of "a", "b", "c", "d" at instants 0 to 3, each
with a five-byte value that expires at instant 9000. -/
def scenarioAdds : List (Op ByteView) :=
  [ .Add "a" (fiveBytes 1) 9000 0 0, .Add "b" (fiveBytes 2) 9000 1 0,
    .Add "c" (fiveBytes 3) 9000 2 0, .Add "d" (fiveBytes 4) 9000 3 0 ]

/-- Scenario S1, second part: `Get("a")` at instant 4, then `Add` of "e" at instant 5. -/
def scenarioRest : List (Op ByteView) :=
  [ .Get "a" (.once 4), .Add "e" (fiveBytes 5) 9000 5 0 ]

/-- Calls that leave a stale element for "a" at the tail of the list, under an
eight-byte entry "b": "a" is added with an expiry that has passed when it is
read at instant 5. -/
def staleTailOps : List (Op ByteView) :=
  [ .Add "a" { b := [1], e := 0 } 0 0 0,
    .Get "a" (.once 5),
    .Add "b" { b := [0, 1, 2, 3, 4, 5, 6, 7], e := 9000 } 9000 5 0 ]

/-- A cache made by `New(100, nil)` whose field `ExpireRandom` has been set to 0. -/
def zeroJitterCache : Cache ByteView := { (New 100 false : Cache ByteView) with ExpireRandom := 0 }

end lru

namespace singleflight

/-- Three goroutines entering `DoOnce("k", fn)` together, whose `fn` would return
"r0", "r1" and "r2". -/
def threeCalls : State String := State.init [("k", "r0"), ("k", "r1"), ("k", "r2")]

/-- The state of `threeCalls` after the schedule 0, 1, 0, 0, 1: the first goroutine
has called `c.wg.Done()` and not yet deleted the key, the second (a waiter) has
returned, the third has not entered yet. -/
def windowState : State String :=
  { m := [("k", 0)]
    calls := [{ done := true, val := some "r0" }]
    gs := [ { key := "k", fn := "r0", pc := .released 0, joined := some 0, runs := 1 },
            { key := "k", fn := "r1", pc := .returned (some "r0"), joined := some 0, runs := 0 },
            { key := "k", fn := "r2", pc := .entry, joined := none, runs := 0 } ] }

end singleflight

/-! ## Single-flight calls whose `fn` may panic -/

namespace singleflight

variable {R : Type}

/-- Whether the goroutine stands at the line `c.val, c.err = fn()`. -/
def Pc.isCalling : Pc R → Bool
  | .calling _ => true
  | _ => false

/-- A `State` together with the goroutines that have left `DoOnce` by a panic of
`fn`.  `DoOnce` has no deferred call and no `recover`: a panic raised by `fn` at
the line `c.val, c.err = fn()` unwinds through `DoOnce`, which runs none of its
later lines, so the `pc` of such a goroutine stays `calling c`.  The states
describe a program that goes on after the panic (a caller of `DoOnce` recovers
it); a program that does not recover stops as a whole. -/
structure PanicState (R : Type) where
  st : State R
  gone : List Nat
deriving DecidableEq, Repr

/-- One atomic step of goroutine `i`, where `panics j` says that `fn` of goroutine
`j` panics when it is run: a goroutine that has left by a panic takes no step, a
goroutine running a panicking `fn` leaves, and every other step is the step of
`State.step`. -/
def PanicState.step (panics : Nat → Bool) (p : PanicState R) (i : Nat) :
    Option (PanicState R) :=
  if i ∈ p.gone then none
  else
    match p.st.gs[i]? with
    | none => none
    | some g =>
      if g.pc.isCalling && panics i then some { p with gone := i :: p.gone }
      else (p.st.step i).map (fun s => { p with st := s })

/-- The state after the goroutines of a schedule have taken one step each, in order;
`none` when a scheduled goroutine has no step to take. -/
def PanicState.run (panics : Nat → Bool) (p : PanicState R) : List Nat → Option (PanicState R)
  | [] => some p
  | i :: is => (p.step panics i).bind (fun p' => p'.run panics is)

/-- An empty registry and goroutines that are all about to enter `DoOnce`. -/
def PanicState.init (calls : List (String × R)) : PanicState R :=
  { st := State.init calls, gone := [] }

/-- What holds in every state reached from `PanicState.init`: the invariant of
`State`, and every goroutine that left by a panic stands at the call of `fn`. -/
structure PanicState.Inv (p : PanicState R) : Prop where
  st : p.st.Inv
  gone : ∀ (i : Nat), i ∈ p.gone →
    ∃ (g : Goroutine R) (c : Nat), p.st.gs[i]? = some g ∧ g.pc = Pc.calling c

/-- The first goroutine is the one whose `fn` panics. -/
def firstPanics : Nat → Bool := fun i => decide (i = 0)

/-- The state of `threeCalls` after the schedule 0, 1, 0 when `fn` of the first
goroutine panics: the first goroutine registered the call and left `DoOnce` by
the panic, the second waits for the call, the third has not entered yet. -/
def deadCall : PanicState String :=
  { st :=
      { m := [("k", 0)]
        calls := [{ done := false, val := none }]
        gs := [ { key := "k", fn := "r0", pc := .calling 0, joined := some 0, runs := 1 },
                { key := "k", fn := "r1", pc := .waiting 0, joined := some 0, runs := 0 },
                { key := "k", fn := "r2", pc := .entry, joined := none, runs := 0 } ] }
    gone := [0] }

/-- The state `deadCall` after the third goroutine has entered `DoOnce("k", fn)`. -/
def deadCallJoined : PanicState String :=
  { st :=
      { m := [("k", 0)]
        calls := [{ done := false, val := none }]
        gs := [ { key := "k", fn := "r0", pc := .calling 0, joined := some 0, runs := 1 },
                { key := "k", fn := "r1", pc := .waiting 0, joined := some 0, runs := 0 },
                { key := "k", fn := "r2", pc := .waiting 0, joined := some 0, runs := 0 } ] }
    gone := [0] }

end singleflight

/-! ## Concrete states for calls on unprepared receivers -/

namespace nexuscache

/-- A new Group on which `RegisterPeers` has not been called. -/
def bareGroup : Group := NewGroup "scores" 0 0 scoreBackend

/-- A server whose ring holds no peer. -/
def emptyServer : Server := { self := "10.0.0.1", peers := consistenthash.lengthRing }

end nexuscache

namespace lru

open nexuscache (ByteView tenByteView)

/-- The call `Add("k", v, e)` at instant 6 with a ten-byte value: eleven bytes with the key. -/
def oversizedAdd : Op ByteView := .Add "k" tenByteView 9000 6 0

end lru

namespace lru

variable {V : Type} [Value V]

/-- The keys and values of the elements of the recency list, tail first: the order
in which `RemoveOldest` evicts them. -/
def Cache.fromTail (c : Cache V) : List (String × V) :=
  c.ll.reverse.filterMap (fun h => (c.elems[h]?).map (fun kv => (kv.key, kv.value)))

end lru

namespace consistenthash

/-- The peer added last among the peers of the list, taken in the order they were
added, that have `x` among their points. -/
def Map.lastOwner (m : Map) (peers : List String) (x : Int) : Option String :=
  peers.reverse.find? (fun p => decide (x ∈ m.points p))

/-- The ring holds the peers of the list, added in that order: its point array is the
sorted array of all their points, each as often as it was added, and the map
sends every point to the peer added last among those it belongs to. -/
def Map.Built (m : Map) (peers : List String) : Prop :=
  m.keys.Sorted (fun a b => a ≤ b) ∧ m.keys.Perm (peers.flatMap m.points) ∧
  ∀ x, mapGet m.hashMap x = m.lastOwner peers x

end consistenthash

/-! # Theorems -/

theorem mapGet_mapDelete {α β : Type} [DecidableEq α] (m : List (α × β)) (k k' : α) :
    mapGet (mapDelete m k) k' = if k' = k then none else mapGet m k' := by
  induction m with
  | nil => simp [mapDelete, mapGet]
  | cons p m ih =>
    obtain ⟨a, b⟩ := p
    unfold mapDelete at ih ⊢
    by_cases ha : a = k
    · subst ha
      by_cases hk : k' = a
      · subst hk; simpa [List.filter_cons, mapGet] using ih
      · have : a ≠ k' := fun h => hk h.symm
        simpa [List.filter_cons, mapGet, hk, this] using ih
    · by_cases hk : k' = k
      · subst hk
        simp only [List.filter_cons, ne_eq, ha, not_false_eq_true, decide_True, if_true, mapGet]
        simpa [ha] using ih
      · simp only [List.filter_cons, ne_eq, ha, not_false_eq_true, decide_True, if_true, mapGet]
        rw [ih]; simp [hk]

theorem mapGet_mapSet {α β : Type} [DecidableEq α] (m : List (α × β)) (k : α) (v : β) (k' : α) :
    mapGet (mapSet m k v) k' = if k' = k then some v else mapGet m k' := by
  unfold mapSet
  by_cases hk : k' = k
  · subst hk; simp [mapGet]
  · have : k ≠ k' := fun h => hk h.symm
    simp [mapGet, this, hk, mapGet_mapDelete]

namespace lru

variable {V : Type} [Value V]

theorem entry.size_nonneg (kv : entry V) : 0 ≤ kv.size := by
  unfold entry.size; omega

theorem Cache.sizeAt_nonneg (c : Cache V) (h : Nat) : 0 ≤ c.sizeAt h := by
  unfold Cache.sizeAt
  split
  · exact entry.size_nonneg _
  · exact le_refl _

theorem Cache.sizeAt_of_get {c : Cache V} {h : Nat} {kv : entry V}
    (hkv : c.elems[h]? = some kv) : c.sizeAt h = kv.size := by
  unfold Cache.sizeAt; rw [hkv]

/-- The bytes of a list depend only on what the arena holds at the handles of the list. -/
theorem Cache.listBytes_congr {c c' : Cache V} (hll : c'.ll = c.ll)
    (h : ∀ x ∈ c.ll, c'.elems[x]? = c.elems[x]?) : c'.listBytes = c.listBytes := by
  unfold Cache.listBytes
  rw [hll]
  congr 1
  apply List.map_congr_left
  intro x hx
  unfold Cache.sizeAt
  rw [h x hx]

theorem Cache.WF.get_valid {c : Cache V} (hwf : c.WF) {h : Nat} (hm : h ∈ c.ll) :
    ∃ kv, c.elems[h]? = some kv := by
  have := hwf.valid h hm
  exact ⟨c.elems[h], List.getElem?_eq_getElem this⟩

theorem Cache.WF.removeElement {c c' : Cache V} (hwf : c.WF) {ele : Nat}
    (h : c.removeElement ele = some c') : c'.WF := by
  unfold Cache.removeElement at h
  split at h
  · cases h
  · rename_i kv hkv
    cases h
    refine ⟨hwf.rnd_pos, hwf.cap_nonneg, hwf.nodup, hwf.valid, ?_, ?_⟩
    · intro k h hm
      simp only [mapGet_mapDelete] at hm
      split at hm
      · cases hm
      · exact hwf.index k h hm
    · have h1 := hwf.bytes
      have h2 := kv.size_nonneg
      show c.nbytes - kv.size ≤ c.listBytes
      omega

theorem Cache.removeElement_some (c : Cache V) {ele : Nat} (h : ele < c.elems.length) :
    ∃ c', c.removeElement ele = some c' := by
  unfold Cache.removeElement
  rw [List.getElem?_eq_getElem h]
  exact ⟨_, rfl⟩

theorem Cache.WF.Remove {c c' : Cache V} (hwf : c.WF) {key : String}
    (h : c.Remove key = some c') : c'.WF := by
  unfold Cache.Remove at h
  split at h
  · exact hwf.removeElement h
  · cases h; exact hwf

theorem Cache.WF.Remove_some {c : Cache V} (hwf : c.WF) (key : String) :
    ∃ c', c.Remove key = some c' := by
  unfold Cache.Remove
  split
  · rename_i ele hm
    exact Cache.removeElement_some c (hwf.valid ele (hwf.index key ele hm).1)
  · exact ⟨c, rfl⟩

theorem Cache.WF.RemoveOldest_some {c : Cache V} (hwf : c.WF) :
    ∃ c', c.RemoveOldest = some c' := by
  unfold Cache.RemoveOldest
  split
  · exact ⟨c, rfl⟩
  · rename_i ele hl
    obtain ⟨kv, hkv⟩ := hwf.get_valid (List.mem_of_getLast?_eq_some hl)
    rw [hkv]
    exact ⟨_, rfl⟩

theorem Cache.WF.RemoveOldest {c c' : Cache V} (hwf : c.WF)
    (h : c.RemoveOldest = some c') : c'.WF := by
  unfold Cache.RemoveOldest at h
  split at h
  · cases h; exact hwf
  · rename_i ele hl
    split at h
    · cases h
    · rename_i kv hkv
      cases h
      have hsplit : c.ll.dropLast ++ [ele] = c.ll := List.dropLast_append_getLast? ele hl
      have hnd : (c.ll.dropLast ++ [ele]).Nodup := by rw [hsplit]; exact hwf.nodup
      have hnot : ele ∉ c.ll.dropLast := by
        intro hmem
        have := List.nodup_append.mp hnd
        exact this.2.2 hmem (List.mem_singleton_self ele)
      refine ⟨hwf.rnd_pos, hwf.cap_nonneg, hwf.nodup.sublist (List.dropLast_sublist _),
        fun h hm => hwf.valid h ((List.dropLast_sublist _).subset hm), ?_, ?_⟩
      · intro k h hm
        simp only [mapGet_mapDelete] at hm
        split at hm
        · cases hm
        · rename_i hne
          obtain ⟨hin, kv', hkv', hkey⟩ := hwf.index k h hm
          refine ⟨?_, kv', hkv', hkey⟩
          have hin' : h ∈ c.ll.dropLast ++ [ele] := by rw [hsplit]; exact hin
          rcases List.mem_append.mp hin' with h1 | h1
          · exact h1
          · exfalso
            have : h = ele := List.mem_singleton.mp h1
            subst this
            rw [hkv] at hkv'
            cases hkv'
            exact hne hkey.symm
      · have h1 := hwf.bytes
        have h2 : c.listBytes = (c.ll.dropLast.map c.sizeAt).sum + kv.size := by
          unfold Cache.listBytes
          conv_lhs => rw [← hsplit]
          simp [Cache.sizeAt_of_get hkv]
        show c.nbytes - kv.size ≤ (c.ll.dropLast.map _).sum
        have h3 : (c.ll.dropLast.map (Cache.sizeAt { c with
            ll := c.ll.dropLast, cache := mapDelete c.cache kv.key,
            nbytes := c.nbytes - kv.size, evictions := c.callOnEvicted kv })).sum
            = (c.ll.dropLast.map c.sizeAt).sum := rfl
        rw [h3]; omega

end lru

namespace lru

variable {V : Type} [Value V]

theorem moveToFront_perm (ll : List Nat) (ele : Nat) : (moveToFront ll ele).Perm ll := by
  unfold moveToFront
  split
  · rename_i h; exact (List.perm_cons_erase h).symm
  · exact List.Perm.refl _

theorem moveToFront_of_mem {ll : List Nat} {ele : Nat} (h : ele ∈ ll) :
    moveToFront ll ele = ele :: ll.erase ele := by
  unfold moveToFront; rw [if_pos h]

theorem Cache.listBytes_perm {c c' : Cache V} (hll : c'.ll.Perm c.ll)
    (h : ∀ x ∈ c.ll, c'.elems[x]? = c.elems[x]?) : c'.listBytes = c.listBytes := by
  unfold Cache.listBytes
  have h1 : c'.ll.map c'.sizeAt = c'.ll.map c.sizeAt := by
    apply List.map_congr_left
    intro x hx
    unfold Cache.sizeAt
    rw [h x (hll.subset hx)]
  rw [h1]
  exact (hll.map _).sum_eq

/-- Rewriting the entry behind a listed handle changes the bytes of the list by the
difference of the two sizes. -/
theorem Cache.listBytes_update {c c' : Cache V} (hnd : c.ll.Nodup) {ele : Nat}
    {kv kv' : entry V} (hin : ele ∈ c.ll) (hkv : c.elems[ele]? = some kv)
    (hll : c'.ll = moveToFront c.ll ele) (hel : c'.elems = c.elems.set ele kv') :
    c'.listBytes = c.listBytes + (kv'.size - kv.size) := by
  have hlt : ele < c.elems.length := (List.getElem?_eq_some_iff.mp hkv).1
  have hp : c.ll.Perm (ele :: c.ll.erase ele) := List.perm_cons_erase hin
  have hc : c.listBytes = kv.size + ((c.ll.erase ele).map c.sizeAt).sum := by
    unfold Cache.listBytes
    rw [(hp.map _).sum_eq]
    simp [Cache.sizeAt_of_get hkv]
  have hc' : c'.listBytes = kv'.size + ((c.ll.erase ele).map c.sizeAt).sum := by
    unfold Cache.listBytes
    rw [hll, moveToFront_of_mem hin]
    have h1 : (c.ll.erase ele).map c'.sizeAt = (c.ll.erase ele).map c.sizeAt := by
      apply List.map_congr_left
      intro x hx
      have hne : ele ≠ x := by
        intro he; subst he
        exact (hnd.mem_erase_iff.mp hx).1 rfl
      unfold Cache.sizeAt
      rw [hel, List.getElem?_set_ne hne]
    have h2 : c'.sizeAt ele = kv'.size := by
      unfold Cache.sizeAt
      rw [hel, List.getElem?_set_self hlt]
    simp [h1, h2]
  rw [hc, hc']; ring

/-- Rewriting the entry behind an indexed handle, keeping its key, and moving it to
the front keeps a cache well-formed when the byte count follows the sizes. -/
theorem Cache.WF.update {c c' : Cache V} (hwf : c.WF) {key : String} {ele : Nat}
    {kv : entry V} (kv' : entry V) (hm : mapGet c.cache key = some ele) (hkv : c.elems[ele]? = some kv)
    (hkey : kv'.key = kv.key)
    (hll : c'.ll = moveToFront c.ll ele) (hel : c'.elems = c.elems.set ele kv')
    (hca : c'.cache = c.cache) (hnb : c'.nbytes = c.nbytes + (kv'.size - kv.size))
    (hmax : c'.maxBytes = c.maxBytes) (hex : c'.ExpireRandom = c.ExpireRandom) : c'.WF := by
  have hin : ele ∈ c.ll := (hwf.index key ele hm).1
  have hperm := moveToFront_perm c.ll ele
  refine ⟨hex ▸ hwf.rnd_pos, hmax ▸ hwf.cap_nonneg, ?_, ?_, ?_, ?_⟩
  · rw [hll]; exact hperm.nodup_iff.mpr hwf.nodup
  · intro h hh
    rw [hll] at hh
    rw [hel, List.length_set]
    exact hwf.valid h (hperm.subset hh)
  · intro k h hk
    rw [hca] at hk
    obtain ⟨h1, kv1, h2, h3⟩ := hwf.index k h hk
    refine ⟨by rw [hll]; exact hperm.symm.subset h1, ?_⟩
    by_cases he : ele = h
    · subst he
      have hlt : ele < c.elems.length := (List.getElem?_eq_some_iff.mp hkv).1
      refine ⟨kv', by rw [hel, List.getElem?_set_self hlt], ?_⟩
      rw [hkv] at h2; cases h2
      rw [hkey, h3]
    · exact ⟨kv1, by rw [hel, List.getElem?_set_ne he]; exact h2, h3⟩
  · rw [hnb, Cache.listBytes_update hwf.nodup hin hkv hll hel]
    have := hwf.bytes
    omega

theorem Cache.WF.Get_some {c : Cache V} (hwf : c.WF) (key : String) (t : Readings) :
    ∃ r, c.Get key t = some r := by
  unfold Cache.Get
  split
  · rename_i ele hm
    obtain ⟨kv, hkv⟩ := hwf.get_valid (hwf.index key ele hm).1
    rw [hkv]
    dsimp only
    split
    · obtain ⟨c', hc'⟩ := Cache.removeElement_some c (hwf.valid ele (hwf.index key ele hm).1)
      rw [hc']; exact ⟨_, rfl⟩
    · exact ⟨_, rfl⟩
  · exact ⟨_, rfl⟩

theorem Cache.WF.Get {c : Cache V} (hwf : c.WF) {key : String} {t : Readings}
    {r : Option V × Cache V} (h : c.Get key t = some r) : r.2.WF := by
  unfold Cache.Get at h
  split at h
  · rename_i ele hm
    split at h
    · cases h
    · rename_i kv hkv
      dsimp only at h
      split at h
      · cases hre : c.removeElement ele with
        | none => rw [hre] at h; cases h
        | some c' =>
          rw [hre] at h
          cases h
          exact hwf.removeElement hre
      · cases h
        exact hwf.update
          { kv with expire := t.slide + Time.Sub kv.expire kv.addTime, addTime := t.stamp }
          hm hkv rfl rfl rfl rfl (by simp [entry.size]) rfl rfl
  · cases h; exact hwf

theorem Cache.WF.put_some {c : Cache V} (hwf : c.WF) (key : String) (value : V)
    (expire : Time) (rd : Duration) (now : Time) :
    ∃ c1, c.put key value expire rd now = some c1 := by
  unfold Cache.put
  split
  · rename_i ele hm
    obtain ⟨kv, hkv⟩ := hwf.get_valid (hwf.index key ele hm).1
    rw [hkv]
    exact ⟨_, rfl⟩
  · exact ⟨_, rfl⟩

theorem Cache.WF.put {c c1 : Cache V} (hwf : c.WF) {key : String} {value : V}
    {expire : Time} {rd : Duration} {now : Time}
    (h : c.put key value expire rd now = some c1) : c1.WF := by
  unfold Cache.put at h
  split at h
  · rename_i ele hm
    split at h
    · cases h
    · rename_i kv hkv
      cases h
      exact hwf.update { kv with value := value, expire := expire + rd }
        hm hkv rfl rfl rfl rfl (by simp [entry.size]) rfl rfl
  · rename_i hm
    cases h
    have hfresh : c.elems.length ∉ c.ll := fun hx => Nat.lt_irrefl _ (hwf.valid _ hx)
    refine ⟨hwf.rnd_pos, hwf.cap_nonneg, List.nodup_cons.mpr ⟨hfresh, hwf.nodup⟩, ?_, ?_, ?_⟩
    · intro h hh
      simp only [List.length_append, List.length_singleton]
      rcases List.mem_cons.mp hh with h1 | h1
      · omega
      · have := hwf.valid h h1; omega
    · intro k h hk
      simp only [mapGet_mapSet] at hk
      split at hk
      · rename_i hkk
        cases hk
        exact ⟨List.mem_cons_self _ _, _, List.getElem?_concat_length _ _, hkk.symm⟩
      · obtain ⟨h1, kv1, h2, h3⟩ := hwf.index k h hk
        refine ⟨List.mem_cons_of_mem _ h1, kv1, ?_, h3⟩
        show (c.elems ++ _)[h]? = some kv1
        rw [List.getElem?_append_left (hwf.valid h h1)]; exact h2
    · show c.nbytes + _ ≤ Cache.listBytes _
      unfold Cache.listBytes
      simp only [List.map_cons, List.sum_cons]
      have h1 : ∀ x ∈ c.ll, Cache.sizeAt { c with
          elems := c.elems ++ [{ key := key, value := value, expire := expire + rd, addTime := now }]
          ll := c.elems.length :: c.ll
          cache := mapSet c.cache key c.elems.length
          nbytes := c.nbytes + ((key.utf8ByteSize : Int) + (Value.Len value : Int)) } x
          = c.sizeAt x := by
        intro x hx
        unfold Cache.sizeAt
        show (match (c.elems ++ _)[x]? with | some kv => kv.size | none => 0) = _
        rw [List.getElem?_append_left (hwf.valid x hx)]
      rw [List.map_congr_left h1]
      have h2 : Cache.sizeAt { c with
          elems := c.elems ++ [{ key := key, value := value, expire := expire + rd, addTime := now }]
          ll := c.elems.length :: c.ll
          cache := mapSet c.cache key c.elems.length
          nbytes := c.nbytes + ((key.utf8ByteSize : Int) + (Value.Len value : Int)) } c.elems.length
          = (key.utf8ByteSize : Int) + (Value.Len value : Int) := by
        unfold Cache.sizeAt
        show (match (c.elems ++ _)[c.elems.length]? with | some kv => kv.size | none => 0) = _
        rw [List.getElem?_concat_length]
        rfl
      rw [h2]
      have := hwf.bytes
      unfold Cache.listBytes at this
      omega

end lru

namespace lru

variable {V : Type} [Value V]

theorem Cache.RemoveOldest_length {c c' : Cache V} (h : c.RemoveOldest = some c') :
    c'.ll.length = c.ll.length - 1 := by
  unfold Cache.RemoveOldest at h
  split at h
  · rename_i hl
    cases h
    rw [List.getLast?_eq_none_iff.mp hl]; rfl
  · split at h
    · cases h
    · cases h
      simp

theorem Cache.WF.evict_some : ∀ (fuel : Nat) (c : Cache V), c.WF → c.ll.length ≤ fuel →
    ∃ c', Cache.evict fuel c = some c' ∧ c'.WF := by
  intro fuel
  induction fuel with
  | zero =>
    intro c hwf hlen
    have hnil : c.ll = [] := List.length_eq_zero.mp (Nat.le_zero.mp hlen)
    have hb := hwf.bytes
    have hc := hwf.cap_nonneg
    unfold Cache.listBytes at hb
    rw [hnil] at hb
    simp only [List.map_nil, List.sum_nil] at hb
    refine ⟨c, ?_, hwf⟩
    unfold Cache.evict
    rw [if_neg]
    intro hcond
    omega
  | succ n ih =>
    intro c hwf hlen
    unfold Cache.evict
    split
    · obtain ⟨c1, hc1⟩ := hwf.RemoveOldest_some
      have hl := Cache.RemoveOldest_length hc1
      obtain ⟨c', h1, h2⟩ := ih c1 (hwf.RemoveOldest hc1) (by omega)
      exact ⟨c', by rw [hc1]; exact h1, h2⟩
    · exact ⟨c, rfl, hwf⟩

theorem Cache.WF.Add_some {c : Cache V} (hwf : c.WF) (key : String) (value : V)
    (expire now : Time) (rnd : Nat) :
    ∃ c', c.Add key value expire now rnd = some c' ∧ c'.WF := by
  unfold Cache.Add
  rw [if_neg (not_le.mpr hwf.rnd_pos)]
  obtain ⟨c1, hc1⟩ := hwf.put_some key value expire ((rnd : Int) % c.ExpireRandom) now
  obtain ⟨c', h1, h2⟩ := Cache.WF.evict_some c1.ll.length c1 (hwf.put hc1) (le_refl _)
  refine ⟨c', ?_, h2⟩
  dsimp only
  rw [hc1]
  exact h1

theorem Cache.WF.Add {c c' : Cache V} (hwf : c.WF) {key : String} {value : V}
    {expire now : Time} {rnd : Nat} (h : c.Add key value expire now rnd = some c') : c'.WF := by
  obtain ⟨c2, h1, h2⟩ := hwf.Add_some key value expire now rnd
  rw [h1] at h
  cases h
  exact h2

theorem Cache.WF.New (maxBytes : Int) (onEvicted : Bool) (h : 0 ≤ maxBytes) :
    (New maxBytes onEvicted : Cache V).WF := by
  refine ⟨?_, h, List.nodup_nil, ?_, ?_, ?_⟩
  · show (0 : Int) < DefaultExpireRandom
    decide
  · intro x hx; cases hx
  · intro k x hx; cases hx
  · exact le_refl _

/-- Every call keeps a well-formed cache well-formed, and completes on it. -/
theorem Cache.WF.step {c : Cache V} (hwf : c.WF) (op : Op V) :
    ∃ c', c.step op = some c' ∧ c'.WF := by
  cases op with
  | Add key value expire now rnd => exact hwf.Add_some key value expire now rnd
  | Get key t =>
    obtain ⟨r, hr⟩ := hwf.Get_some key t
    exact ⟨r.2, by simp [Cache.step, hr], hwf.Get hr⟩
  | Remove key =>
    obtain ⟨c', hc'⟩ := hwf.Remove_some key
    exact ⟨c', hc', hwf.Remove hc'⟩
  | RemoveOldest =>
    obtain ⟨c', hc'⟩ := hwf.RemoveOldest_some
    exact ⟨c', hc', hwf.RemoveOldest hc'⟩

/-- Every sequence of calls completes on a well-formed cache and leaves it well-formed. -/
theorem Cache.WF.run {c : Cache V} (hwf : c.WF) (ops : List (Op V)) :
    ∃ c', c.run ops = some c' ∧ c'.WF := by
  induction ops generalizing c with
  | nil => exact ⟨c, rfl, hwf⟩
  | cons op ops ih =>
    obtain ⟨c1, h1, h2⟩ := hwf.step op
    obtain ⟨c', h3, h4⟩ := ih h2
    exact ⟨c', by simp [Cache.run, h1, h3], h4⟩

theorem Cache.WF.put_front {c c1 : Cache V} (hwf : c.WF) {key : String} {value : V}
    {expire : Time} {rd : Duration} {now : Time} (hns : c.NoStale key)
    (h : c.put key value expire rd now = some c1) :
    ∃ kv, c1.AtFront key kv ∧ kv.key = key ∧ kv.value = value ∧ kv.expire = expire + rd := by
  unfold Cache.put at h
  split at h
  · rename_i ele hm
    split at h
    · cases h
    · rename_i kv hkv
      cases h
      obtain ⟨hin, kv0, hkv0, hkey⟩ := hwf.index key ele hm
      rw [hkv] at hkv0; cases hkv0
      have hlt : ele < c.elems.length := hwf.valid ele hin
      refine ⟨{ kv with value := value, expire := expire + rd }, ?_, hkey, rfl, rfl⟩
      refine ⟨ele, c.ll.erase ele, moveToFront_of_mem hin, hm, ?_, ?_⟩
      · show (c.elems.set ele _)[ele]? = _
        rw [List.getElem?_set_self hlt]
      · intro x hx kv' hkv' hk
        have hx' := hwf.nodup.mem_erase_iff.mp hx
        have hne : ele ≠ x := fun he => hx'.1 he.symm
        have hkv2 : c.elems[x]? = some kv' := by
          have : (c.elems.set ele { kv with value := value, expire := expire + rd })[x]?
              = some kv' := hkv'
          rwa [List.getElem?_set_ne hne] at this
        have := hns x hx'.2 kv' hkv2 hk
        rw [hm] at this
        cases this
        exact hne rfl
  · rename_i hm
    cases h
    refine ⟨_, ⟨c.elems.length, c.ll, rfl, ?_, List.getElem?_concat_length _ _, ?_⟩, rfl, rfl, rfl⟩
    · show mapGet (mapSet c.cache key c.elems.length) key = _
      rw [mapGet_mapSet, if_pos rfl]
    · intro x hx kv' hkv' hk
      have hkv2 : c.elems[x]? = some kv' :=
        (List.getElem?_append_left (hwf.valid x hx)).symm.trans hkv'
      have := hns x hx kv' hkv2 hk
      rw [hm] at this
      cases this

/-- The eviction loop never evicts a front entry that fits the capacity by itself. -/
theorem Cache.WF.evict_front {key : String} {kv : entry V} :
    ∀ (fuel : Nat) (c : Cache V), c.WF → c.AtFront key kv →
      (c.maxBytes = 0 ∨ kv.size ≤ c.maxBytes) → c.ll.length ≤ fuel →
      ∃ c', Cache.evict fuel c = some c' ∧ c'.WF ∧ c'.AtFront key kv := by
  intro fuel
  induction fuel with
  | zero =>
    intro c hwf hf _ hlen
    obtain ⟨h, rest, hll, _⟩ := hf
    rw [hll] at hlen
    simp at hlen
  | succ n ih =>
    intro c hwf hf hfit hlen
    unfold Cache.evict
    split
    · rename_i hcond
      obtain ⟨c1, hc1⟩ := hwf.RemoveOldest_some
      have hl := Cache.RemoveOldest_length hc1
      have hwf1 := hwf.RemoveOldest hc1
      rw [hc1]
      obtain ⟨h, rest, hll, hm, hkv, hrest⟩ := hf
      have hfit' : kv.size ≤ c.maxBytes := by
        rcases hfit with h0 | h0
        · exact absurd h0 hcond.1
        · exact h0
      have hne : rest ≠ [] := by
        intro hnil
        have hb := hwf.bytes
        unfold Cache.listBytes at hb
        rw [hll, hnil] at hb
        simp [Cache.sizeAt_of_get hkv] at hb
        omega
      unfold Cache.RemoveOldest at hc1
      split at hc1
      · rename_i hnone
        rw [hll] at hnone
        simp at hnone
      · rename_i ele hlast
        split at hc1
        · cases hc1
        · rename_i kvb hkvb
          cases hc1
          have hlast' : rest.getLast? = some ele := by
            rw [hll] at hlast
            cases rest with
            | nil => exact absurd rfl hne
            | cons r rs => simpa [List.getLast?_cons_cons] using hlast
          have hmem : ele ∈ rest := List.mem_of_getLast?_eq_some hlast'
          have hkb : kvb.key ≠ key := hrest ele hmem kvb hkvb
          have hdrop : c.ll.dropLast = h :: rest.dropLast := by
            rw [hll]
            cases rest with
            | nil => exact absurd rfl hne
            | cons r rs => simp
          apply ih _ hwf1
          · refine ⟨h, rest.dropLast, hdrop, ?_, hkv, ?_⟩
            · show mapGet (mapDelete c.cache kvb.key) key = some h
              rw [mapGet_mapDelete, if_neg (fun he => hkb he.symm)]
              exact hm
            · intro x hx
              exact hrest x ((List.dropLast_sublist _).subset hx)
          · exact hfit
          · show c.ll.dropLast.length ≤ n
            simp; omega
    · exact ⟨c, rfl, hwf, hf⟩

omit [Value V] in
theorem Cache.AtFront.fresh {c : Cache V} {key : String} {kv : entry V}
    (h : c.AtFront key kv) {now : Time} (hx : ¬ kv.expire < now) :
    c.fresh key now = some kv.value := by
  obtain ⟨e, rest, _, hm, hkv, _⟩ := h
  unfold Cache.fresh
  rw [hm]
  dsimp only
  rw [hkv]
  dsimp only
  rw [if_neg hx]

/-- Adding an entry that fits the capacity by itself, to a cache with no stale
element for its key, leaves the entry indexed with the given value and the
requested expiry plus the jitter. -/
theorem Cache.WF.Add_front {c : Cache V} (hwf : c.WF) {key : String} (value : V)
    (expire now : Time) (rnd : Nat) (hns : c.NoStale key)
    (hfit : c.maxBytes = 0 ∨ (key.utf8ByteSize : Int) + (Value.Len value : Int) ≤ c.maxBytes) :
    ∃ c' kv, c.Add key value expire now rnd = some c' ∧ c'.WF ∧ c'.AtFront key kv ∧
      kv.value = value ∧ kv.expire = expire + (rnd : Int) % c.ExpireRandom := by
  unfold Cache.Add
  rw [if_neg (not_le.mpr hwf.rnd_pos)]
  obtain ⟨c1, hc1⟩ := hwf.put_some key value expire ((rnd : Int) % c.ExpireRandom) now
  obtain ⟨kv, hf, hk, hv, he⟩ := hwf.put_front hns hc1
  have hmax : c1.maxBytes = c.maxBytes := by
    unfold Cache.put at hc1
    split at hc1
    · split at hc1
      · cases hc1
      · cases hc1; rfl
    · cases hc1; rfl
  have hsize : kv.size = (key.utf8ByteSize : Int) + (Value.Len value : Int) := by
    unfold entry.size; rw [hk, hv]
  obtain ⟨c', h1, h2, h3⟩ := Cache.WF.evict_front c1.ll.length c1 (hwf.put hc1) hf
    (by rw [hmax, hsize]; exact hfit) (le_refl _)
  refine ⟨c', kv, ?_, h2, h3, hv, he⟩
  dsimp only
  rw [hc1]
  exact h1

theorem Cache.Get_of_fresh {c : Cache V} {key : String} {t : Readings} {v : V}
    (h : c.fresh key t.test = some v) : ∃ c', c.Get key t = some (some v, c') := by
  unfold Cache.fresh at h
  unfold Cache.Get
  cases hm : mapGet c.cache key with
  | none => simp only [hm] at h; cases h
  | some ele =>
    simp only [hm] at h ⊢
    cases hkv : c.elems[ele]? with
    | none => simp only [hkv] at h; cases h
    | some kv =>
      simp only [hkv] at h ⊢
      by_cases hx : kv.expire < t.test
      · rw [if_pos hx] at h; cases h
      · rw [if_neg hx] at h
        cases h
        rw [if_neg hx]
        exact ⟨_, rfl⟩

theorem Cache.WF.Get_of_not_fresh {c : Cache V} (hwf : c.WF) {key : String} {t : Readings}
    (h : c.fresh key t.test = none) : ∃ c', c.Get key t = some (none, c') ∧ c'.WF := by
  obtain ⟨r, hr⟩ := hwf.Get_some key t
  have hwf' := hwf.Get hr
  refine ⟨r.2, ?_, hwf'⟩
  rw [hr]
  obtain ⟨v, c'⟩ := r
  cases v with
  | none => rfl
  | some v =>
    exfalso
    unfold Cache.Get at hr
    unfold Cache.fresh at h
    cases hm : mapGet c.cache key with
    | none => simp only [hm] at hr; cases hr
    | some ele =>
      simp only [hm] at h hr
      cases hkv : c.elems[ele]? with
      | none => simp only [hkv] at hr; cases hr
      | some kv =>
        simp only [hkv] at h hr
        by_cases hx : kv.expire < t.test
        · rw [if_pos hx] at hr
          cases hre : c.removeElement ele with
          | none => rw [hre] at hr; cases hr
          | some c2 => rw [hre] at hr; cases hr
        · rw [if_neg hx] at h
          cases h

end lru

namespace nexuscache

open lru (Time Duration)

theorem cache.WF_of_nil (c : cache) (h : c.lru = none) : c.WF := by
  unfold cache.WF cache.theLru
  rw [h]
  dsimp only
  split
  · exact lru.Cache.WF.New _ _ (by decide)
  · rename_i hc
    apply lru.Cache.WF.New
    have : (0 : Int) ≤ lru.DefaultMaxBytes := by decide
    omega

theorem cache.add_eq (c : cache) (key : String) (value : ByteView) (now : Time) (rnd : Nat) :
    c.add key value now rnd =
      (c.theLru.Add key value value.Expire now rnd).map (fun l' => { c with lru := some l' }) :=
  rfl

theorem cache.WF.add_some {c : cache} (hwf : c.WF) (key : String) (value : ByteView)
    (now : Time) (rnd : Nat) : ∃ c', c.add key value now rnd = some c' ∧ c'.WF := by
  obtain ⟨l', h1, h2⟩ := lru.Cache.WF.Add_some hwf key value value.Expire now rnd
  refine ⟨{ c with lru := some l' }, ?_, h2⟩
  rw [cache.add_eq, h1]
  rfl

theorem cache.WF.add_fresh {c : cache} (hwf : c.WF) {key : String} (value : ByteView)
    (now : Time) (rnd : Nat) (hns : c.NoStale key) (hfit : c.fits key value) :
    ∃ c', c.add key value now rnd = some c' ∧ c'.WF ∧
      ∀ now', ¬ c.storedExpire value rnd < now' → c'.fresh key now' = some value := by
  obtain ⟨l', kv, h1, h2, h3, h4, h5⟩ :=
    lru.Cache.WF.Add_front hwf value value.Expire now rnd hns hfit
  refine ⟨{ c with lru := some l' }, ?_, h2, ?_⟩
  · rw [cache.add_eq, h1]
    rfl
  · intro now' hx
    show l'.fresh key now' = some value
    rw [← h4]
    apply h3.fresh
    rw [h5]
    exact hx

/-- Adding an entry that fits the capacity by itself, to a `cache` with no stale
element for its key, leaves the entry at the front of the list of the LRU,
indexed under its key, with the given value and the requested expiry plus the
jitter. -/
theorem cache.WF.add_front {c : cache} (hwf : c.WF) {key : String} (value : ByteView)
    (now : Time) (rnd : Nat) (hns : c.NoStale key) (hfit : c.fits key value) :
    ∃ c' l' kv, c.add key value now rnd = some c' ∧ c'.WF ∧ c'.lru = some l' ∧
      l'.AtFront key kv ∧ kv.key = key ∧ kv.value = value ∧
      kv.expire = c.storedExpire value rnd := by
  obtain ⟨l', kv, h1, h2, h3, h4, h5⟩ :=
    lru.Cache.WF.Add_front hwf value value.Expire now rnd hns hfit
  refine ⟨{ c with lru := some l' }, l', kv, ?_, h2, rfl, h3, ?_, h4, h5⟩
  · rw [cache.add_eq, h1]
    rfl
  · obtain ⟨e, rest, _, hm, hkv, _⟩ := h3
    obtain ⟨_, kv', hkv', hkey⟩ := h2.index key e hm
    rw [hkv] at hkv'
    cases hkv'
    exact hkey

theorem cache.get_of_fresh {c : cache} {key : String} {t : lru.Readings} {v : ByteView}
    (h : c.fresh key t.test = some v) : ∃ c', c.get key t = some (some v, c') := by
  unfold cache.fresh at h
  unfold cache.get
  cases hl : c.lru with
  | none => rw [hl] at h; cases h
  | some l =>
    rw [hl] at h
    dsimp only at h ⊢
    obtain ⟨l', hl'⟩ := lru.Cache.Get_of_fresh h
    rw [hl']
    exact ⟨_, rfl⟩

theorem cache.WF.get_of_not_fresh {c : cache} (hwf : c.WF) {key : String} {t : lru.Readings}
    (h : c.fresh key t.test = none) : ∃ c', c.get key t = some (none, c') ∧ c'.WF := by
  unfold cache.fresh at h
  unfold cache.get
  cases hl : c.lru with
  | none => exact ⟨c, rfl, hwf⟩
  | some l =>
    rw [hl] at h
    dsimp only at h ⊢
    have hwf' : l.WF := by
      unfold cache.WF cache.theLru at hwf
      rw [hl] at hwf
      exact hwf
    obtain ⟨l', hl', hw⟩ := hwf'.Get_of_not_fresh h
    rw [hl']
    exact ⟨_, rfl, hw⟩

end nexuscache

namespace nexuscache

open lru (Time Duration)

theorem Group.DoOnce_idle {R : Type} (g : Group) (key : String)
    (fn : Group → Option (R × Group)) (h : g.loader.inFlight key = false) :
    g.DoOnce key fn =
      (fn { (g.note (.DoOnce key)) with loader := g.loader.register key }).map
        (fun r => (r.1, { r.2 with loader := r.2.loader.deregister key })) := by
  unfold Group.DoOnce
  rw [h]
  rfl

theorem Group.DoOnce_some_idle {R : Type} {g : Group} {key : String}
    {fn : Group → Option (R × Group)} {r : R × Group} (h : g.DoOnce key fn = some r) :
    g.loader.inFlight key = false := by
  unfold Group.DoOnce at h
  cases hf : g.loader.inFlight key with
  | false => rfl
  | true => rw [hf] at h; simp at h

/-- C8. `Get("")` and `Set("", v, isHot)` return a non-nil error and leave the whole
Group as it was: both caches are unchanged and no call to the loader, the peer
picker, a peer client or the backend getter is recorded. -/
theorem Group.empty_key_rejected (g : Group) (v : ByteView) (ishot : Bool)
    (tm th : lru.Readings) (now now2 : Time) (rnd : Nat) :
    (∃ view err, g.Get "" tm th now now2 rnd = some ((view, some err), g)) ∧
    (∃ err, g.Set "" v ishot now rnd = some (some err, g)) := by
  constructor
  · exact ⟨some ByteView.zero, "nexuscache: key is empty", by simp [Group.Get]⟩
  · exact ⟨"key is empty", by simp [Group.Set]⟩

/-- A hit in mainCache, or a miss there followed by a hit in hotCache, is what `Get`
returns, with no call recorded. -/
theorem Group.Get_hit_of_fresh (g : Group) (k : String) (tm th : lru.Readings)
    (now now2 : Time) (rnd : Nat) (v : ByteView) (hk : k ≠ "")
    (hit : g.mainCache.fresh k tm.test = some v ∨
      (g.mainCache.WF ∧ g.mainCache.fresh k tm.test = none ∧
        g.hotCache.fresh k th.test = some v)) :
    ∃ g', g.Get k tm th now now2 rnd = some ((some v, none), g') ∧ g'.calls = g.calls ∧
      g'.loader = g.loader ∧
      (g.mainCache.fresh k tm.test = some v → g'.hotCache = g.hotCache) := by
  unfold Group.Get
  rw [if_neg hk]
  unfold Group.lookupCache
  rcases hit with hm | ⟨hwf, hm, hh⟩
  · obtain ⟨mc, hmc⟩ := cache.get_of_fresh hm
    rw [hmc]
    exact ⟨_, rfl, rfl, rfl, fun _ => rfl⟩
  · obtain ⟨mc, hmc, _⟩ := hwf.get_of_not_fresh hm
    obtain ⟨hc, hhc⟩ := cache.get_of_fresh hh
    rw [hmc]
    dsimp only [Option.bind]
    rw [hhc]
    refine ⟨_, rfl, rfl, rfl, ?_⟩
    intro h
    rw [hm] at h
    cases h

/-- C7. For a non-empty key, `Get` answers from mainCache when mainCache holds an
unexpired entry (whatever hotCache holds, and without touching hotCache), and
otherwise from hotCache when hotCache holds an unexpired entry; in both cases the
error is nil and no call to the loader, the peer picker, a peer client or the
backend getter is made. -/
theorem Group.Get_local_hit (g : Group) (k : String) (tm th : lru.Readings)
    (now now2 : Time) (rnd : Nat) (v : ByteView) (hk : k ≠ "")
    (hit : g.mainCache.fresh k tm.test = some v ∨
      (g.mainCache.WF ∧ g.mainCache.fresh k tm.test = none ∧
        g.hotCache.fresh k th.test = some v)) :
    ∃ g', g.Get k tm th now now2 rnd = some ((some v, none), g') ∧ g'.calls = g.calls ∧
      g'.loader = g.loader ∧
      (g.mainCache.fresh k tm.test = some v → g'.hotCache = g.hotCache) :=
  Group.Get_hit_of_fresh g k tm th now now2 rnd v hk hit

/-- C4. When a peer picker is registered and picks a remote client for `k`, `Load(k)`
(no call for `k` being in flight) enters the loader, asks the picker, and
issues one remote `Get(group name, k)`: these are all the calls it makes, so the
backend getter is not invoked.  Bytes from the peer come back as a ByteView with
that payload, an error from the peer comes back as that very error, and in both
cases mainCache and hotCache are unchanged. -/
theorem Group.Load_remote (g : Group) (k : String) (now now2 : Time) (rnd : Nat)
    (pk : PeerPicker) (peer : PeerGetter) (hp : g.peers = some pk)
    (hpick : pk.PickPeer k = some peer) (hfl : g.loader.inFlight k = false) :
    ∃ g', g.Load k now now2 rnd = some
        ((match peer.Get g.name k with
          | .ok bytes => (some { b := bytes, e := zeroTime }, none)
          | .error err => (none, some err)), g') ∧
      g'.mainCache = g.mainCache ∧ g'.hotCache = g.hotCache ∧
      g'.calls = g.calls ++ [.DoOnce k, .PickPeer k, .PeerGet peer.id g.name k] := by
  unfold Group.Load
  rw [Group.DoOnce_idle g k _ hfl]
  unfold Group.loadFn
  simp only [Group.note, hp, hpick, Group.getFromPeer]
  cases hget : peer.Get g.name k with
  | error err => exact ⟨_, rfl, rfl, rfl, by simp⟩
  | ok bytes => exact ⟨_, rfl, rfl, rfl, by simp⟩

end nexuscache

namespace nexuscache

open lru (Time Duration)

/-- C3 (amended). On a Group with no peer picker, or whose picker reports self for
`k`, `Load(k)` (no call for `k` being in flight, mainCache well-formed) invokes
the backend getter exactly once.  Bytes `b` from the getter come back as the
ByteView with payload `b` and expiry `now + DefaultExpireTime`, and mainCache
becomes what `mainCache.add` makes of it with that ByteView under `k`: when the
entry fits the capacity of mainCache, which had no stale element for `k`,
mainCache then holds it at the front of its list, indexed under `k`, with the
expiry `now + DefaultExpireTime` plus the jitter, and answers `k` with it until
that expiry.  An error from the getter comes back as that error with mainCache
unchanged.  hotCache is unchanged in both cases. -/
theorem Group.Load_local (g : Group) (k : String) (now now2 : Time) (rnd : Nat)
    (hown : g.peers = none ∨ ∃ pk, g.peers = some pk ∧ pk.PickPeer k = none)
    (hfl : g.loader.inFlight k = false) (hwf : g.mainCache.WF) :
    ∃ res g', g.Load k now now2 rnd = some (res, g') ∧
      g'.hotCache = g.hotCache ∧
      (g.newCalls g').count (.GetterGet k) = 1 ∧
      (∀ c ∈ g.newCalls g', c = .DoOnce k ∨ c = .PickPeer k ∨ c = .GetterGet k) ∧
      (∀ b, g.getter k = .ok b →
        res = (some { b := b, e := now + DefaultExpireTime }, none) ∧
        g.mainCache.add k { b := b, e := now + DefaultExpireTime } now2 rnd
          = some g'.mainCache ∧
        (g.mainCache.NoStale k → g.mainCache.fits k { b := b, e := now + DefaultExpireTime } →
          (∃ l' kv, g'.mainCache.lru = some l' ∧ l'.AtFront k kv ∧ kv.key = k ∧
            kv.value = { b := b, e := now + DefaultExpireTime } ∧
            kv.expire = now + DefaultExpireTime + (rnd : Int) % g.mainCache.theLru.ExpireRandom) ∧
          ∀ t, ¬ now + DefaultExpireTime + (rnd : Int) % g.mainCache.theLru.ExpireRandom < t →
            g'.mainCache.fresh k t = some { b := b, e := now + DefaultExpireTime })) ∧
      (∀ err, g.getter k = .error err →
        res = (none, some err) ∧ g'.mainCache = g.mainCache) := by
  have hadd : ∀ (bytes : List UInt8) (mc : cache),
      g.mainCache.add k { b := bytes, e := now + DefaultExpireTime } now2 rnd = some mc →
      g.mainCache.NoStale k → g.mainCache.fits k { b := bytes, e := now + DefaultExpireTime } →
      (∃ l' kv, mc.lru = some l' ∧ l'.AtFront k kv ∧ kv.key = k ∧
        kv.value = { b := bytes, e := now + DefaultExpireTime } ∧
        kv.expire = now + DefaultExpireTime + (rnd : Int) % g.mainCache.theLru.ExpireRandom) ∧
      ∀ t, ¬ now + DefaultExpireTime + (rnd : Int) % g.mainCache.theLru.ExpireRandom < t →
        mc.fresh k t = some { b := bytes, e := now + DefaultExpireTime } := by
    intro bytes mc hmc hns hfit
    obtain ⟨c', l', kv, h1, _, h3, h4, h5, h6, h7⟩ :=
      hwf.add_front { b := bytes, e := now + DefaultExpireTime } now2 rnd hns hfit
    rw [hmc] at h1
    cases h1
    refine ⟨⟨l', kv, h3, h4, h5, h6, h7⟩, ?_⟩
    intro t ht
    unfold cache.fresh
    rw [h3]
    dsimp only
    rw [← h6]
    exact h4.fresh (by rw [h7]; exact ht)
  unfold Group.Load
  rw [Group.DoOnce_idle g k _ hfl]
  unfold Group.loadFn Group.newCalls
  rcases hown with hp | ⟨pk, hp, hpick⟩
  · simp only [Group.note, hp, Group.getLocally, Group.populateCache]
    cases hget : g.getter k with
    | error err =>
      refine ⟨_, _, rfl, rfl, ?_, ?_, ?_, ?_⟩
      · simp
      · simp
      · intro b hb; cases hb
      · intro e he; cases he; exact ⟨rfl, rfl⟩
    | ok bytes =>
      obtain ⟨mc, hmc, _⟩ := hwf.add_some k { b := bytes, e := now + DefaultExpireTime } now2 rnd
      simp only [cloneBytes, hmc, Option.map_some']
      refine ⟨_, _, rfl, rfl, ?_, ?_, ?_, ?_⟩
      · simp
      · simp
      · intro b hb; cases hb; exact ⟨rfl, hmc, hadd bytes mc hmc⟩
      · intro e he; cases he
  · simp only [Group.note, hp, hpick, Group.getLocally, Group.populateCache]
    cases hget : g.getter k with
    | error err =>
      refine ⟨_, _, rfl, rfl, ?_, ?_, ?_, ?_⟩
      · simp
      · simp
      · intro b hb; cases hb
      · intro e he; cases he; exact ⟨rfl, rfl⟩
    | ok bytes =>
      obtain ⟨mc, hmc, _⟩ := hwf.add_some k { b := bytes, e := now + DefaultExpireTime } now2 rnd
      simp only [cloneBytes, hmc, Option.map_some']
      refine ⟨_, _, rfl, rfl, ?_, ?_, ?_, ?_⟩
      · simp
      · simp
      · intro b hb; cases hb; exact ⟨rfl, hmc, hadd bytes mc hmc⟩
      · intro e he; cases he

/-- C5 (amended). On a Group with a registered peer picker, `Set(k, v, false)` for a
non-empty `k` (no call for `k` being in flight, mainCache well-formed): when the
picker returns a remote client it issues exactly one remote
`Set(group name, k, v's bytes, v's expiry, false)`, leaves both caches unchanged
and returns the result of that call; when the picker reports self it makes no
remote call, leaves hotCache unchanged, returns nil, and mainCache becomes what
`mainCache.add` makes of it with `v` under `k`: when the entry fits the capacity
of mainCache, which had no stale element for `k`, mainCache then holds it at the
front of its list, indexed under `k`, with the expiry of `v` plus the jitter,
and answers `k` with `v` until that expiry. -/
theorem Group.Set_normal (g : Group) (k : String) (v : ByteView) (now : Time) (rnd : Nat)
    (pk : PeerPicker) (hk : k ≠ "") (hp : g.peers = some pk)
    (hfl : g.loader.inFlight k = false) (hwf : g.mainCache.WF) :
    ∃ err g', g.Set k v false now rnd = some (err, g') ∧ g'.hotCache = g.hotCache ∧
      (∀ peer, pk.PickPeer k = some peer →
        err = peer.Set g.name k v.b v.e false ∧
        g'.mainCache = g.mainCache ∧
        g.newCalls g' = [.DoOnce k, .PickPeer k, .PeerSet peer.id g.name k v.b v.e false]) ∧
      (pk.PickPeer k = none →
        err = none ∧
        g.mainCache.add k v now rnd = some g'.mainCache ∧
        g.newCalls g' = [.DoOnce k, .PickPeer k] ∧
        (g.mainCache.NoStale k → g.mainCache.fits k v →
          (∃ l' kv, g'.mainCache.lru = some l' ∧ l'.AtFront k kv ∧ kv.key = k ∧
            kv.value = v ∧ kv.expire = g.mainCache.storedExpire v rnd) ∧
          ∀ t, ¬ g.mainCache.storedExpire v rnd < t → g'.mainCache.fresh k t = some v)) := by
  unfold Group.Set
  rw [if_neg hk]
  simp only [Bool.false_eq_true, if_false]
  rw [Group.DoOnce_idle g k _ hfl]
  unfold Group.setFn Group.newCalls
  cases hpick : pk.PickPeer k with
  | some peer =>
    simp only [Group.note, hp, hpick, Group.setFromPeer, ByteView.ByteSlice, ByteView.Expire,
      cloneBytes]
    cases hset : peer.Set g.name k v.b v.e false with
    | none =>
      refine ⟨_, _, rfl, rfl, ?_, ?_⟩
      · intro p hp'; cases hp'
        refine ⟨hset.symm, rfl, ?_⟩
        simp
      · intro h; cases h
    | some err =>
      refine ⟨_, _, rfl, rfl, ?_, ?_⟩
      · intro p hp'; cases hp'
        refine ⟨hset.symm, rfl, ?_⟩
        simp
      · intro h; cases h
  | none =>
    obtain ⟨mc, hmc, _⟩ := hwf.add_some k v now rnd
    simp only [Group.note, hp, hpick, hmc, Option.map_some']
    refine ⟨_, _, rfl, rfl, ?_, ?_⟩
    · intro p hp'; cases hp'
    · intro _
      refine ⟨rfl, rfl, ?_, ?_⟩
      · simp
      · intro hns hfit
        obtain ⟨c', l', kv, h1, _, h3, h4, h5, h6, h7⟩ := hwf.add_front v now rnd hns hfit
        rw [hmc] at h1
        cases h1
        refine ⟨⟨l', kv, h3, h4, h5, h6, h7⟩, ?_⟩
        intro t ht
        show cache.fresh mc k t = some v
        unfold cache.fresh
        rw [h3]
        dsimp only
        rw [← h6]
        exact h4.fresh (by rw [h7]; exact ht)

end nexuscache

namespace nexuscache

open lru (Time Duration)

theorem cache.NoStale_of_nil (c : cache) (key : String) (h : c.lru = none) :
    c.NoStale key := by
  unfold cache.NoStale cache.theLru
  rw [h]
  intro x hx
  dsimp only at hx
  split at hx <;> cases hx

/-- C6 (amended). For a non-empty key, `Set(k, v, true)` (no call for `k` being in
flight, hotCache well-formed) changes hotCache only, into what `hotCache.add`
makes of it with `v` under `k`: mainCache is unchanged, the only call recorded
is the entry into the loader (the peer picker is not consulted and no remote
Set is issued), and the result is nil, whoever owns `k`.  When the entry fits
the capacity of hotCache, which had no stale element for `k`, hotCache then
holds it at the front of its list, indexed under `k`, with the expiry of `v`
plus the jitter, and the `Get(k)` that follows the `Set` returns `v` with a nil
error and no further call provided mainCache holds no unexpired entry for `k`
and the expiry stored for `v` has not passed. -/
theorem Group.Set_hot (g : Group) (k : String) (v : ByteView) (now : Time) (rnd : Nat)
    (hk : k ≠ "") (hfl : g.loader.inFlight k = false) (hwf : g.hotCache.WF) :
    ∃ g', g.Set k v true now rnd = some (none, g') ∧
      g.hotCache.add k v now rnd = some g'.hotCache ∧
      g'.mainCache = g.mainCache ∧
      g.newCalls g' = [.DoOnce k] ∧
      (g.hotCache.NoStale k → g.hotCache.fits k v →
        (∃ l' kv, g'.hotCache.lru = some l' ∧ l'.AtFront k kv ∧ kv.key = k ∧
          kv.value = v ∧ kv.expire = g.hotCache.storedExpire v rnd) ∧
        ∀ (tm th : lru.Readings) (now' now2' : Time) (rnd' : Nat),
          ¬ g.hotCache.storedExpire v rnd < th.test →
          g.mainCache.WF → g.mainCache.fresh k tm.test = none →
          ∃ g'', g'.Get k tm th now' now2' rnd' = some ((some v, none), g'') ∧
            g''.calls = g'.calls) := by
  unfold Group.Set
  rw [if_neg hk]
  simp only [if_true]
  unfold Group.setHotCache
  rw [if_neg hk, Group.DoOnce_idle g k _ hfl]
  obtain ⟨hc, hhc, _⟩ := hwf.add_some k v now rnd
  simp only [Group.note, hhc, Option.map_some']
  refine ⟨_, rfl, rfl, rfl, ?_, ?_⟩
  · simp [Group.newCalls]
  · intro hns hfit
    obtain ⟨c', l', kv, h1, _, h3, h4, h5, h6, h7⟩ := hwf.add_front v now rnd hns hfit
    rw [hhc] at h1
    cases h1
    refine ⟨⟨l', kv, h3, h4, h5, h6, h7⟩, ?_⟩
    intro tm th now' now2' rnd' hx hmwf hmf
    have hfresh : cache.fresh hc k th.test = some v := by
      unfold cache.fresh
      rw [h3]
      dsimp only
      rw [← h6]
      exact h4.fresh (by rw [h7]; exact hx)
    obtain ⟨g'', g1, g2, _⟩ := Group.Get_hit_of_fresh
      { name := g.name, getter := g.getter, mainCache := g.mainCache, hotCache := hc,
        peers := g.peers, loader := (g.loader.register k).deregister k,
        calls := g.calls ++ [Call.DoOnce k] } k tm th now' now2' rnd' v hk
      (Or.inr ⟨hmwf, hmf, hfresh⟩)
    exact ⟨g'', g1, g2⟩

/-- C2 (amended). Under a fixed ring, for a non-empty key `k`: if `Set(k, v, false)`
returns nil on the node that owns `k` (its picker reports self), whose
mainCache is well-formed, has no stale element for `k` and fits the entry, then
the `Get(k)` that follows on the Group as `Set` left it, reading the clock in
mainCache no later than the expiry stored for `v`, returns `v` with a nil error
and records no call: the backend getter is not invoked. -/
theorem Group.Get_after_Set (g g1 : Group) (k : String) (v : ByteView) (now : Time)
    (tm th : lru.Readings) (now' now2' : Time) (rnd rnd' : Nat) (pk : PeerPicker) (hk : k ≠ "")
    (hp : g.peers = some pk) (hown : pk.PickPeer k = none)
    (hset : g.Set k v false now rnd = some (none, g1))
    (hwf : g.mainCache.WF) (hns : g.mainCache.NoStale k) (hfit : g.mainCache.fits k v)
    (hx : ¬ g.mainCache.storedExpire v rnd < tm.test) :
    ∃ g2, g1.Get k tm th now' now2' rnd' = some ((some v, none), g2) ∧
      g2.calls = g1.calls := by
  unfold Group.Set at hset
  rw [if_neg hk] at hset
  simp only [Bool.false_eq_true, if_false] at hset
  have hfl : g.loader.inFlight k = false := by
    cases hd : g.DoOnce k (Group.setFn k v false now rnd) with
    | none => rw [hd] at hset; cases hset
    | some r => exact Group.DoOnce_some_idle hd
  rw [Group.DoOnce_idle g k _ hfl] at hset
  unfold Group.setFn at hset
  obtain ⟨mc, hmc, hwf', hfresh⟩ := hwf.add_fresh v now rnd hns hfit
  simp only [Group.note, hp, hown, hmc, Option.map_some', Option.some.injEq,
    Prod.mk.injEq, true_and] at hset
  subst hset
  obtain ⟨g2, h1, h2, _⟩ := Group.Get_hit_of_fresh
    { name := g.name, getter := g.getter, mainCache := mc, hotCache := g.hotCache,
      peers := some pk, loader := (g.loader.register k).deregister k,
      calls := g.calls ++ [Call.DoOnce k] ++ [Call.PickPeer k] } k tm th now' now2' rnd' v hk
    (Or.inl (hfresh tm.test hx))
  exact ⟨g2, h1, h2⟩

end nexuscache

namespace consistenthash

theorem search_terminates (keys : List Int) (h : Int) :
    ∀ (fuel i j : Nat), i ≤ j → j ≤ keys.length → j - i ≤ fuel →
      ∃ r, search keys h fuel i j = some r ∧ i ≤ r ∧ r ≤ j := by
  intro fuel
  induction fuel with
  | zero =>
    intro i j hij _ hf
    refine ⟨i, ?_, le_refl _, hij⟩
    unfold search
    rw [if_neg (by omega)]
  | succ n ih =>
    intro i j hij hj hf
    unfold search
    by_cases hlt : i < j
    · rw [if_pos hlt]
      have hmid : (i + j) / 2 < keys.length := by omega
      dsimp only
      rw [List.getElem?_eq_getElem hmid]
      dsimp only
      by_cases hx : keys[(i + j) / 2] ≥ h
      · rw [if_pos hx]
        obtain ⟨r, h1, h2, h3⟩ := ih i ((i + j) / 2) (by omega) (by omega) (by omega)
        exact ⟨r, h1, h2, by omega⟩
      · rw [if_neg hx, if_pos (by omega)]
        obtain ⟨r, h1, h2, h3⟩ := ih ((i + j) / 2 + 1) j (by omega) hj (by omega)
        exact ⟨r, h1, by omega, h3⟩
    · rw [if_neg hlt]
      exact ⟨i, rfl, le_refl _, hij⟩

theorem lowerBound_eq (keys : List Int) (h : Int) (i : Nat) (hi : i ≤ keys.length)
    (hA : ∀ n (hn : n < keys.length), n < i → keys[n] < h)
    (hB : ∀ n (hn : n < keys.length), i ≤ n → h ≤ keys[n]) :
    lowerBound keys h = i := by
  unfold lowerBound
  by_cases hlt : i < keys.length
  · rw [List.findIdx_eq hlt]
    refine ⟨by simpa using hB i hlt (le_refl _), ?_⟩
    intro j hji
    have := hA j (by omega) hji
    simpa using this
  · have hi' : i = keys.length := by omega
    rw [hi', List.findIdx_eq_length]
    intro x hx
    obtain ⟨n, hn, rfl⟩ := List.mem_iff_getElem.mp hx
    have := hA n hn (by omega)
    simpa using this

theorem search_sorted (keys : List Int) (h : Int) (hs : keys.Sorted (fun a b => a ≤ b)) :
    ∀ (fuel i j : Nat), i ≤ j → j ≤ keys.length → j - i ≤ fuel →
      (∀ n (hn : n < keys.length), n < i → keys[n] < h) →
      (∀ n (hn : n < keys.length), j ≤ n → h ≤ keys[n]) →
      search keys h fuel i j = some (lowerBound keys h) := by
  have hmono : ∀ (a b : Nat) (ha : a < keys.length) (hb : b < keys.length), a ≤ b →
      keys[a] ≤ keys[b] := by
    intro a b ha hb hab
    rcases Nat.lt_or_ge a b with h1 | h1
    · exact List.pairwise_iff_getElem.mp hs a b ha hb h1
    · have : a = b := by omega
      subst this
      exact le_refl _
  intro fuel
  induction fuel with
  | zero =>
    intro i j hij hj hf hA hB
    have hij' : i = j := by omega
    subst hij'
    unfold search
    rw [if_neg (by omega), lowerBound_eq keys h i hj hA hB]
  | succ n ih =>
    intro i j hij hj hf hA hB
    unfold search
    by_cases hlt : i < j
    · rw [if_pos hlt]
      have hmid : (i + j) / 2 < keys.length := by omega
      dsimp only
      rw [List.getElem?_eq_getElem hmid]
      dsimp only
      by_cases hx : keys[(i + j) / 2] ≥ h
      · rw [if_pos hx]
        apply ih i ((i + j) / 2) (by omega) (by omega) (by omega) hA
        intro m hm hle
        exact le_trans hx (hmono _ _ hmid hm hle)
      · rw [if_neg hx, if_pos (by omega)]
        apply ih ((i + j) / 2 + 1) j (by omega) hj (by omega) _ hB
        intro m hm hle
        have := hmono m _ hm hmid (by omega)
        omega
    · rw [if_neg hlt]
      have hij' : i = j := by omega
      subst hij'
      rw [lowerBound_eq keys h i hj hA hB]

/-- On a sorted array the binary search, started on the whole array, returns the lower bound. -/
theorem search_eq_lowerBound (keys : List Int) (h : Int) (hs : keys.Sorted (fun a b => a ≤ b)) :
    search keys h keys.length 0 keys.length = some (lowerBound keys h) :=
  search_sorted keys h hs keys.length 0 keys.length (Nat.zero_le _) (le_refl _) (by omega)
    (fun n _ hn => absurd hn (Nat.not_lt_zero n)) (fun n hn hle => absurd hn (by omega))

theorem sorted_sortInts (l : List Int) : (sortInts l).Sorted (fun a b => a ≤ b) :=
  List.sorted_insertionSort _ l

theorem perm_sortInts (l : List Int) : (sortInts l).Perm l :=
  List.perm_insertionSort _ l

theorem Map.removePoint_keys {m m' : Map} {x : Int} (h : m.removePoint x = some m') :
    ∃ idx, m'.keys = m.keys.take idx ++ m.keys.drop (idx + 1) ∧
      m'.hashMap = m.hashMap ∧ m'.hash = m.hash ∧ m'.md5hex = m.md5hex ∧
      m'.replicas = m.replicas := by
  unfold Map.removePoint at h
  cases hs : SearchInts m.keys x with
  | none => rw [hs] at h; cases h
  | some idx =>
    rw [hs] at h
    dsimp only [Option.bind] at h
    split at h
    · cases h; exact ⟨idx, rfl, rfl, rfl, rfl, rfl⟩
    · cases h

theorem sorted_take_drop (l : List Int) (idx : Nat) (hs : l.Sorted (fun a b => a ≤ b)) :
    (l.take idx ++ l.drop (idx + 1)).Sorted (fun a b => a ≤ b) := by
  have hsub : (l.take idx ++ l.drop (idx + 1)).Sublist l := by
    conv_rhs => rw [← List.take_append_drop idx l]
    exact (List.Sublist.refl _).append (List.drop_sublist_drop_left l (Nat.le_succ idx))
  exact List.Pairwise.sublist hsub hs

theorem Map.removePoints_sorted : ∀ (ps : List Int) (m m' : Map),
    m.keys.Sorted (fun a b => a ≤ b) → m.removePoints ps = some m' →
    m'.keys.Sorted (fun a b => a ≤ b) := by
  intro ps
  induction ps with
  | nil => intro m m' hs h; cases h; exact hs
  | cons p ps ih =>
    intro m m' hs h
    unfold Map.removePoints at h
    cases h1 : m.removePoint p with
    | none => rw [h1] at h; cases h
    | some m1 =>
      rw [h1] at h
      obtain ⟨idx, hk, _⟩ := Map.removePoint_keys h1
      exact ih m1 m' (by rw [hk]; exact sorted_take_drop _ _ hs) h

/-- The point array of every reachable ring is sorted ascending. -/
theorem Reachable.sorted {md5hex : String → String} {replicas : Int} {fn : Hash} {m : Map}
    (h : Reachable md5hex replicas fn m) : m.keys.Sorted (fun a b => a ≤ b) := by
  induction h with
  | new => exact List.sorted_nil
  | addNodes m keys _ _ => exact sorted_sortInts _
  | remove m m' key _ hrem ih => exact Map.removePoints_sorted _ m m' ih hrem

theorem Map.Get_eq_peerAt (m : Map) (key : String) (hs : m.keys.Sorted (fun a b => a ≤ b))
    (hne : m.keys ≠ []) :
    m.Get key = some (m.peerAt (lowerBound m.keys (toInt (m.hash key)) % m.keys.length)) := by
  have hlen : 0 < m.keys.length := List.length_pos.mpr hne
  unfold Map.Get
  rw [if_neg (by omega)]
  dsimp only
  rw [search_eq_lowerBound _ _ hs]
  dsimp only [Option.bind]
  have hlt : lowerBound m.keys (toInt (m.hash key)) % m.keys.length < m.keys.length :=
    Nat.mod_lt _ hlen
  unfold Map.peerAt
  rw [List.getElem?_eq_getElem hlt]
  rfl

end consistenthash

namespace consistenthash

/-- C9. On every ring reached from `New` by `AddNodes` and `Remove`, `Get(key)` is
the empty string when the point array is empty.  Otherwise the hand-written
binary search terminates with the standard lower bound of `H(key)`, and `Get`
returns the peer mapped to the point at that index taken modulo the length:
the peer of `points[i]` for the least `i` with `points[i] ≥ H(key)` (ties go to
the lowest index), and the peer of `points[0]` when every point is below
`H(key)`. -/
theorem Map.Get_lower_bound (md5hex : String → String) (replicas : Int) (fn : Hash) (m : Map)
    (hr : Reachable md5hex replicas fn m) (key : String) :
    (m.keys = [] → m.Get key = some "") ∧
    (m.keys ≠ [] →
      search m.keys (toInt (m.hash key)) m.keys.length 0 m.keys.length
        = some (lowerBound m.keys (toInt (m.hash key))) ∧
      m.Get key
        = some (m.peerAt (lowerBound m.keys (toInt (m.hash key)) % m.keys.length)) ∧
      (∀ (i : Nat) (hi : i < m.keys.length), toInt (m.hash key) ≤ m.keys[i] →
        (∀ (j : Nat) (hj : j < i), m.keys[j] < toInt (m.hash key)) →
        m.Get key = some (m.peerAt i)) ∧
      ((∀ p ∈ m.keys, p < toInt (m.hash key)) → m.Get key = some (m.peerAt 0))) := by
  have hs := hr.sorted
  constructor
  · intro hnil
    unfold Map.Get
    rw [hnil]
    rfl
  · intro hne
    have hget := Map.Get_eq_peerAt m key hs hne
    refine ⟨search_eq_lowerBound _ _ hs, hget, ?_, ?_⟩
    · intro i hi hge hlt
      have hlb : lowerBound m.keys (toInt (m.hash key)) = i := by
        apply lowerBound_eq _ _ i (le_of_lt hi)
        · intro n hn hni; exact hlt n hni
        · intro n hn hin
          rcases Nat.lt_or_ge i n with h1 | h1
          · exact le_trans hge (List.pairwise_iff_getElem.mp hs i n hi hn h1)
          · have : i = n := by omega
            subst this
            exact hge
      rw [hget, hlb, Nat.mod_eq_of_lt hi]
    · intro hall
      have hlb : lowerBound m.keys (toInt (m.hash key)) = m.keys.length := by
        unfold lowerBound
        rw [List.findIdx_eq_length]
        intro x hx
        have := hall x hx
        simpa using this
      rw [hget, hlb, Nat.mod_self]

theorem lowerBound_erase : ∀ (l : List Int) (x : Int), l.Sorted (fun a b => a ≤ b) → x ∈ l →
    lowerBound l x < l.length ∧
      l.take (lowerBound l x) ++ l.drop (lowerBound l x + 1) = l.erase x := by
  intro l
  induction l with
  | nil => intro x _ hx; cases hx
  | cons a t ih =>
    intro x hs hx
    have hs' := List.sorted_cons.mp hs
    unfold lowerBound
    rw [List.findIdx_cons]
    by_cases hxa : x ≤ a
    · have hax : a = x := by
        rcases List.mem_cons.mp hx with h1 | h1
        · exact h1.symm
        · exact le_antisymm (hs'.1 x h1) hxa
      subst hax
      simp
    · have hne : x ≠ a := fun h => hxa (le_of_eq h)
      have hxt : x ∈ t := by
        rcases List.mem_cons.mp hx with h1 | h1
        · exact absurd h1 hne
        · exact h1
      obtain ⟨h1, h2⟩ := ih x hs'.2 hxt
      unfold lowerBound at h1 h2
      have hd : decide (x ≤ a) = false := by simpa using hxa
      rw [hd]
      simp only [cond_false, List.length_cons, List.take_succ_cons, List.drop_succ_cons,
        List.cons_append]
      refine ⟨by omega, ?_⟩
      rw [h2, List.erase_cons_tail (by simpa using fun h => hne h.symm)]

theorem Map.removePoint_mem (m : Map) (x : Int) (hs : m.keys.Sorted (fun a b => a ≤ b))
    (hx : x ∈ m.keys) : m.removePoint x = some { m with keys := m.keys.erase x } := by
  obtain ⟨h1, h2⟩ := lowerBound_erase m.keys x hs hx
  unfold Map.removePoint SearchInts
  rw [search_eq_lowerBound _ _ hs]
  dsimp only [Option.bind]
  rw [if_pos (by omega), h2]

theorem sorted_erase (l : List Int) (x : Int) (hs : l.Sorted (fun a b => a ≤ b)) :
    (l.erase x).Sorted (fun a b => a ≤ b) :=
  List.Pairwise.sublist (List.erase_sublist x l) hs

/-- Removing points that are all on a sorted ring deletes one occurrence of each. -/
theorem Map.removePoints_perm (R : List Int) : ∀ (ps : List Int) (m : Map),
    m.keys.Sorted (fun a b => a ≤ b) → m.keys.Perm (R ++ ps) →
    ∃ m', m.removePoints ps = some m' ∧ m'.keys.Perm R ∧
      m'.keys.Sorted (fun a b => a ≤ b) ∧ m'.hashMap = m.hashMap ∧ m'.hash = m.hash ∧
      m'.md5hex = m.md5hex ∧ m'.replicas = m.replicas := by
  intro ps
  induction ps with
  | nil =>
    intro m hs hp
    exact ⟨m, rfl, by simpa using hp, hs, rfl, rfl, rfl, rfl⟩
  | cons p ps ih =>
    intro m hs hp
    have hmem : p ∈ m.keys := hp.symm.subset (List.mem_append_right _ (List.mem_cons_self _ _))
    have hp' : (m.keys.erase p).Perm (R ++ ps) := by
      have h1 := hp.erase p
      have h2 : (R ++ p :: ps).Perm (p :: (R ++ ps)) := List.perm_middle
      have h3 := h2.erase p
      rw [List.erase_cons_head] at h3
      exact h1.trans h3
    obtain ⟨m', h1, h2, h3, h4, h5, h6, h7⟩ :=
      ih { m with keys := m.keys.erase p } (sorted_erase _ _ hs) hp'
    refine ⟨m', ?_, h2, h3, h4, h5, h6, h7⟩
    unfold Map.removePoints
    rw [Map.removePoint_mem m p hs hmem]
    exact h1

theorem Map.foldl_addPoint (key : String) : ∀ (is : List Nat) (m : Map),
    (is.foldl (fun m i => m.addPoint key i) m).keys
        = m.keys ++ is.map (fun i => m.point i key) ∧
      (is.foldl (fun m i => m.addPoint key i) m).hash = m.hash ∧
      (is.foldl (fun m i => m.addPoint key i) m).md5hex = m.md5hex ∧
      (is.foldl (fun m i => m.addPoint key i) m).replicas = m.replicas ∧
      ∀ x, mapGet (is.foldl (fun m i => m.addPoint key i) m).hashMap x
        = if x ∈ is.map (fun i => m.point i key) then some key else mapGet m.hashMap x := by
  intro is
  induction is with
  | nil => intro m; simp
  | cons i is ih =>
    intro m
    obtain ⟨h1, h2, h3, h4, h5⟩ := ih (m.addPoint key i)
    have hpt : ∀ j, (m.addPoint key i).point j key = m.point j key := fun j => rfl
    simp only [List.foldl_cons]
    refine ⟨?_, h2, h3, h4, ?_⟩
    · rw [h1]
      simp only [hpt, List.map_cons]
      show (m.keys ++ [m.point i key]) ++ _ = _
      simp
    · intro x
      rw [h5]
      simp only [hpt, List.map_cons, List.mem_cons]
      by_cases hx : x ∈ is.map (fun i => m.point i key)
      · simp [hx]
      · simp only [hx, if_false, or_false]
        show mapGet (mapSet m.hashMap (m.point i key) key) x = _
        rw [mapGet_mapSet]

theorem Map.AddNodes_one (m : Map) (p : String) :
    (m.AddNodes [p]).keys = sortInts (m.keys ++ m.points p) ∧
      (m.AddNodes [p]).hash = m.hash ∧ (m.AddNodes [p]).md5hex = m.md5hex ∧
      (m.AddNodes [p]).replicas = m.replicas ∧
      ∀ x, mapGet (m.AddNodes [p]).hashMap x
        = if x ∈ m.points p then some p else mapGet m.hashMap x := by
  obtain ⟨h1, h2, h3, h4, h5⟩ := Map.foldl_addPoint p (List.range m.replicas.toNat) m
  unfold Map.AddNodes Map.addAll Map.points
  simp only [List.foldl_cons, List.foldl_nil]
  exact ⟨by rw [h1], h2, h3, h4, h5⟩

theorem Map.Get_congr (m m' : Map) (key : String) (hk : m'.keys = m.keys)
    (hh : m'.hash = m.hash) (hm : ∀ x ∈ m.keys, mapGet m'.hashMap x = mapGet m.hashMap x) :
    m'.Get key = m.Get key := by
  unfold Map.Get
  rw [hk, hh]
  split
  · rfl
  · dsimp only
    cases search m.keys (toInt (m.hash key)) m.keys.length 0 m.keys.length with
    | none => rfl
    | some idx =>
      dsimp only [Option.bind]
      cases hx : m.keys[idx % m.keys.length]? with
      | none => rfl
      | some x =>
        have hmem : x ∈ m.keys := List.getElem?_mem hx
        simp only [Option.map_some', hm x hmem]

/-- `Get` always returns; its answer is the empty string or the peer mapped to a point on the ring. -/
theorem Map.Get_cases (m : Map) (key : String) :
    (m.keys = [] ∧ m.Get key = some "") ∨
      ∃ x ∈ m.keys, m.Get key = some ((mapGet m.hashMap x).getD "") := by
  by_cases hnil : m.keys = []
  · left
    refine ⟨hnil, ?_⟩
    unfold Map.Get
    rw [hnil]
    rfl
  · right
    have hlen : 0 < m.keys.length := List.length_pos.mpr hnil
    obtain ⟨r, hr, _, _⟩ := search_terminates m.keys (toInt (m.hash key)) m.keys.length 0
      m.keys.length (Nat.zero_le _) (le_refl _) (by omega)
    have hlt : r % m.keys.length < m.keys.length := Nat.mod_lt _ hlen
    refine ⟨m.keys[r % m.keys.length], List.getElem_mem _, ?_⟩
    unfold Map.Get
    rw [if_neg (by omega)]
    dsimp only
    rw [hr]
    dsimp only [Option.bind]
    rw [List.getElem?_eq_getElem hlt]
    rfl

end consistenthash

namespace consistenthash

/-- On a sorted ring, `AddNodes(p)` followed by `Remove(p)` completes and gives back the point array. -/
theorem Map.AddNodes_Remove_keys (m : Map) (p : String)
    (hs : m.keys.Sorted (fun a b => a ≤ b)) :
    ∃ m', (m.AddNodes [p]).Remove p = some m' ∧ m'.keys = m.keys ∧ m'.hash = m.hash ∧
      ∀ x, mapGet m'.hashMap x = if x ∈ m.points p then some p else mapGet m.hashMap x := by
  obtain ⟨h1, h2, h3, h4, h5⟩ := Map.AddNodes_one m p
  have hpts : (m.AddNodes [p]).points p = m.points p := by
    unfold Map.points Map.point
    rw [h2, h3, h4]
  obtain ⟨m', g1, g2, g3, g4, g5, _, _⟩ := Map.removePoints_perm m.keys (m.points p)
    (m.AddNodes [p]) (by rw [h1]; exact sorted_sortInts _) (by rw [h1]; exact perm_sortInts _)
  refine ⟨m', ?_, List.eq_of_perm_of_sorted g2 g3 hs, g5.trans h2, ?_⟩
  · unfold Map.Remove
    rw [hpts]
    exact g1
  · intro x
    rw [g4]
    exact h5 x

end consistenthash

namespace lru

open nexuscache (ByteView)

/-- C1 (the code at the failing input). On a cache made by `New` with a capacity of
ten bytes, reading an expired "a" and then adding two eight-byte values ends
with a byte count of 7 while the one entry left in the index takes 9 bytes; and
on a cache of a hundred bytes, `Add`, `Remove`, `RemoveOldest` of one key ends
with a byte count of -2 over an empty index. -/
theorem Cache.nbytes_drifts_from_index :
    ((New 10 false : Cache ByteView).run staleOps).map
        (fun c => (c.nbytes, c.indexBytes, c.cache)) = some (7, 9, [("c", 2)]) ∧
    ((New 100 false : Cache ByteView).run removeOps).map
        (fun c => (c.nbytes, c.indexBytes, c.cache)) = some (-2, 0, []) := by
  decide

end lru

namespace nexuscache

open lru (Time Duration)

/-- C2 (counterexample). On the owner of "k", `Set` returns nil and a `Get` issued
afterwards still goes to the backend getter and returns its error: once for a
value read 200 seconds after its expiry (after every possible jitter), once for
a value that, with its key, is
larger than the capacity of mainCache, and once when a `Set` of another key,
issued in between, has evicted "k" from mainCache. -/
theorem Group.Get_after_Set_misses :
    (ownerGroup.Set "k" smallView false 0 0).map (fun r => r.1) = some none ∧
    ((ownerGroup.Set "k" smallView false 0 0).bind
        (fun r => r.2.Get "k" (.once 200000000000) (.once 200000000000)
          200000000000 200000000000 0)).map
        (fun r => (r.1, r.2.calls))
      = some ((none, some "no such key"),
          [.DoOnce "k", .PickPeer "k", .DoOnce "k", .PickPeer "k", .GetterGet "k"]) ∧
    (ownerGroup.Set "k" tenByteView false 0 0).map (fun r => r.1) = some none ∧
    ((ownerGroup.Set "k" tenByteView false 0 0).bind
        (fun r => r.2.Get "k" (.once 0) (.once 0) 0 0 0)).map
        (fun r => (r.1, r.2.calls))
      = some ((none, some "no such key"),
          [.DoOnce "k", .PickPeer "k", .DoOnce "k", .PickPeer "k", .GetterGet "k"]) ∧
    ((ownerGroup.Set "k" smallView false 0 0).bind
        (fun r => r.2.Set "j" eightByteView false 1 0)).map (fun r => r.1) = some none ∧
    (((ownerGroup.Set "k" smallView false 0 0).bind
        (fun r => r.2.Set "j" eightByteView false 1 0)).bind
        (fun r => r.2.Get "k" (.once 2) (.once 2) 2 2 0)).map
        (fun r => (r.1, r.2.calls))
      = some ((none, some "no such key"),
          [.DoOnce "k", .PickPeer "k", .DoOnce "j", .PickPeer "j",
           .DoOnce "k", .PickPeer "k", .GetterGet "k"]) := by
  refine ⟨?_, ?_, ?_, ?_, ?_, ?_⟩
  · decide
  · decide
  · decide
  · decide
  · decide
  · decide

theorem ownerGroup_Set :
    ownerGroup.Set "k" smallView false 0 0 = some (none, ownerGroupAfterSet) := by
  rfl

/-- C2 (witness). On `ownerGroup`, after `Set("k", smallView, false)` the `Get("k")`
that follows, reading the clock at instants 100 to 102, returns `smallView`. -/
theorem Group.Get_after_Set_witness :
    ∃ g2, ownerGroupAfterSet.Get "k" { test := 100, slide := 101, stamp := 102 } (.once 103)
        104 105 0 = some ((some smallView, none), g2) ∧
      g2.calls = ownerGroupAfterSet.calls :=
  Group.Get_after_Set ownerGroup ownerGroupAfterSet "k" smallView 0
    { test := 100, slide := 101, stamp := 102 } (.once 103) 104 105 0 0 selfPicker
    (by decide) rfl rfl ownerGroup_Set (cache.WF_of_nil _ rfl) (cache.NoStale_of_nil _ _ rfl)
    (Or.inr (by decide)) (by decide)

/-- C3 (counterexample). On `wideGroup`, whose mainCache takes ten bytes, `Load("Tom")`
returns the eight bytes of the backend, and mainCache does not hold "Tom"
afterwards: its list and its index are empty. -/
theorem Group.Load_oversized :
    (wideGroup.Load "Tom" 0 1 0).map (fun r => r.1)
      = some (some { b := [0, 1, 2, 3, 4, 5, 6, 7], e := 0 + DefaultExpireTime }, none) ∧
    (wideGroup.Load "Tom" 0 1 0).map
        (fun r => r.2.mainCache.lru.map (fun l => (l.ll, l.cache, l.nbytes)))
      = some (some ([], [], 0)) ∧
    (wideGroup.Load "Tom" 0 1 0).map (fun r => r.2.mainCache.fresh "Tom" 2) = some none := by
  refine ⟨?_, ?_, ?_⟩
  · decide
  · decide
  · decide

/-- C3 (witness). On `ownerGroup`, `Load("Tom")` with the clock at instant 0 and then
1 returns the three bytes of the backend with expiry `DefaultExpireTime`, and
mainCache answers "Tom" with them afterwards. -/
theorem Group.Load_local_witness :
    ∃ g', ownerGroup.Load "Tom" 0 1 0
        = some ((some { b := [54, 51, 48], e := 0 + DefaultExpireTime }, none), g') ∧
      g'.mainCache.fresh "Tom" 100 = some { b := [54, 51, 48], e := 0 + DefaultExpireTime } := by
  obtain ⟨res, g', h1, _, _, _, h5, _⟩ := Group.Load_local ownerGroup "Tom" 0 1 0
    (Or.inr ⟨selfPicker, rfl, rfl⟩) (by decide) (cache.WF_of_nil _ rfl)
  obtain ⟨h, _, h6⟩ := h5 [54, 51, 48] rfl
  subst h
  exact ⟨g', h1, (h6 (cache.NoStale_of_nil _ _ rfl) (Or.inr (by decide))).2 100 (by decide)⟩

/-- C4 (witness). On `remoteGroup`, `Load("Tom")` returns the byte sent by the remote
node after one remote Get. -/
theorem Group.Load_remote_witness :
    ∃ g', remoteGroup.Load "Tom" 0 1 0
        = some ((some { b := [7], e := zeroTime }, none), g') ∧
      g'.mainCache = remoteGroup.mainCache ∧ g'.hotCache = remoteGroup.hotCache ∧
      g'.calls = [.DoOnce "Tom", .PickPeer "Tom", .PeerGet "10.0.0.2" "scores" "Tom"] :=
  Group.Load_remote remoteGroup "Tom" 0 1 0 remotePicker remoteNode rfl rfl (by decide)

/-- C5 (counterexample). On `ownerGroup`, whose mainCache takes ten bytes,
`Set("k", tenByteView, false)` returns nil after asking the picker, and mainCache
does not hold "k" afterwards: its list and its index are empty. -/
theorem Group.Set_oversized :
    (ownerGroup.Set "k" tenByteView false 0 0).map (fun r => (r.1, r.2.calls))
      = some (none, [.DoOnce "k", .PickPeer "k"]) ∧
    (ownerGroup.Set "k" tenByteView false 0 0).map
        (fun r => r.2.mainCache.lru.map (fun l => (l.ll, l.cache, l.nbytes)))
      = some (some ([], [], 0)) ∧
    (ownerGroup.Set "k" tenByteView false 0 0).map (fun r => r.2.mainCache.fresh "k" 1)
      = some none := by
  refine ⟨?_, ?_, ?_⟩
  · decide
  · decide
  · decide

/-- C5 (witness). On `ownerGroup`, `Set("k", smallView, false)` returns nil with no
remote call and mainCache answers "k" with `smallView` afterwards; on
`remoteGroup` it issues one remote Set and returns its nil result. -/
theorem Group.Set_normal_witness :
    (∃ g', ownerGroup.Set "k" smallView false 0 0 = some (none, g') ∧
      ownerGroup.newCalls g' = [.DoOnce "k", .PickPeer "k"] ∧
      g'.mainCache.fresh "k" 100 = some smallView) ∧
    (∃ g', remoteGroup.Set "k" smallView false 0 0 = some (none, g') ∧
      g'.mainCache = remoteGroup.mainCache ∧
      remoteGroup.newCalls g'
        = [.DoOnce "k", .PickPeer "k", .PeerSet "10.0.0.2" "scores" "k" [1] 9000 false]) := by
  constructor
  · obtain ⟨err, g', h1, _, _, h3⟩ := Group.Set_normal ownerGroup "k" smallView 0 0
      selfPicker (by decide) rfl (by decide) (cache.WF_of_nil _ rfl)
    obtain ⟨h4, _, h5, h6⟩ := h3 rfl
    subst h4
    exact ⟨g', h1, h5,
      (h6 (cache.NoStale_of_nil _ _ rfl) (Or.inr (by decide))).2 100 (by decide)⟩
  · obtain ⟨err, g', h1, _, h3, _⟩ := Group.Set_normal remoteGroup "k" smallView 0 0
      remotePicker (by decide) rfl (by decide) (cache.WF_of_nil _ rfl)
    obtain ⟨h4, h5, h6⟩ := h3 remoteNode rfl
    have h7 : err = none := h4
    subst h7
    exact ⟨g', h1, h5, h6⟩

/-- C6 (counterexample). `Set("k", v, true)` returns nil and a `Get("k")` issued
afterwards does not return `v`: on `ownerGroup`, whose mainCache holds an
unexpired `smallView` for "k", it returns `smallView`; on `remoteGroup`, read
200 seconds after the expiry (after every possible jitter), it asks the remote
owner; and on `remoteGroup`,
when a hot `Set` of another key, issued in between, has evicted "k" from
hotCache, or when the value, with its key, is larger than the capacity of
hotCache, it asks the remote owner as well. -/
theorem Group.Get_after_hot_Set_misses :
    ((ownerGroupAfterSet.Set "k" otherView true 0 0).bind
        (fun r => r.2.Get "k" (.once 0) (.once 0) 0 0 0)).map
        (fun r => r.1) = some (some smallView, none) ∧
    (remoteGroup.Set "k" otherView true 0 0).map (fun r => r.1) = some none ∧
    ((remoteGroup.Set "k" otherView true 0 0).bind
        (fun r => r.2.Get "k" (.once 200000000000) (.once 200000000000)
          200000000000 200000000000 0)).map
        (fun r => (r.1, r.2.calls))
      = some ((some { b := [7], e := zeroTime }, none),
          [.DoOnce "k", .DoOnce "k", .PickPeer "k", .PeerGet "10.0.0.2" "scores" "k"]) ∧
    ((remoteGroup.Set "k" otherView true 0 0).bind
        (fun r => r.2.Set "j" eightByteView true 1 0)).map (fun r => r.1) = some none ∧
    (((remoteGroup.Set "k" otherView true 0 0).bind
        (fun r => r.2.Set "j" eightByteView true 1 0)).bind
        (fun r => r.2.Get "k" (.once 2) (.once 2) 2 2 0)).map
        (fun r => (r.1, r.2.calls))
      = some ((some { b := [7], e := zeroTime }, none),
          [.DoOnce "k", .DoOnce "j", .DoOnce "k", .PickPeer "k",
           .PeerGet "10.0.0.2" "scores" "k"]) ∧
    (remoteGroup.Set "k" tenByteView true 0 0).map (fun r => r.1) = some none ∧
    ((remoteGroup.Set "k" tenByteView true 0 0).bind
        (fun r => r.2.Get "k" (.once 1) (.once 1) 1 1 0)).map
        (fun r => (r.1, r.2.calls))
      = some ((some { b := [7], e := zeroTime }, none),
          [.DoOnce "k", .DoOnce "k", .PickPeer "k", .PeerGet "10.0.0.2" "scores" "k"]) := by
  refine ⟨?_, ?_, ?_, ?_, ?_, ?_, ?_⟩
  · decide
  · decide
  · decide
  · decide
  · decide
  · decide
  · decide

/-- C6 (witness). On `remoteGroup`, which does not own "k", `Set("k", smallView, true)`
followed by `Get("k")`, reading the clock from instant 100 on, returns
`smallView`. -/
theorem Group.Set_hot_witness :
    ∃ g' g'', remoteGroup.Set "k" smallView true 0 0 = some (none, g') ∧
      g'.mainCache = remoteGroup.mainCache ∧ remoteGroup.newCalls g' = [.DoOnce "k"] ∧
      g'.Get "k" (.once 100) { test := 101, slide := 102, stamp := 103 } 104 105 0
        = some ((some smallView, none), g'') ∧ g''.calls = g'.calls := by
  obtain ⟨g', h1, _, h3, h4, h5⟩ := Group.Set_hot remoteGroup "k" smallView 0 0
    (by decide) (by decide) (cache.WF_of_nil _ rfl)
  obtain ⟨g'', h6, h7⟩ := (h5 (cache.NoStale_of_nil _ _ rfl) (Or.inr (by decide))).2
    (.once 100) { test := 101, slide := 102, stamp := 103 } 104 105 0
    (by decide) (cache.WF_of_nil _ rfl) rfl
  exact ⟨g', g'', h1, h3, h4, h6, h7⟩

/-- C7 (witness). On `warmGroup`, whose two caches both hold "k", `Get("k")` returns
the value of mainCache. -/
theorem Group.Get_local_hit_witness :
    ∃ g', warmGroup.Get "k" { test := 100, slide := 101, stamp := 102 } (.once 103) 104 105 0
        = some ((some smallView, none), g') ∧
      g'.calls = warmGroup.calls ∧ g'.loader = warmGroup.loader ∧
      (warmGroup.mainCache.fresh "k" 100 = some smallView → g'.hotCache = warmGroup.hotCache) :=
  Group.Get_local_hit warmGroup "k" { test := 100, slide := 101, stamp := 102 } (.once 103)
    104 105 0 smallView (by decide) (Or.inl (by decide))

end nexuscache

namespace consistenthash

/-- C9 (witness). On the ring of peers "A" and "BB" over `lengthRing`, whose points
are 2, 2, 2, 3, 3, 3, the key "xyz" (hash 3) is answered from index 3. -/
theorem Map.Get_lower_bound_witness :
    (lengthRing.AddNodes ["A", "BB"]).Get "xyz"
      = some ((lengthRing.AddNodes ["A", "BB"]).peerAt (3 % 6)) ∧
    (lengthRing.AddNodes ["A", "BB"]).peerAt 3 = "BB" := by
  have h := (Map.Get_lower_bound id 3 String.length (lengthRing.AddNodes ["A", "BB"])
    (Reachable.addNodes _ _ Reachable.new) "xyz").2 (by decide)
  exact ⟨h.2.1, by decide⟩

end consistenthash


namespace consistenthash

theorem Map.addPeer_spec (m : Map) (key : String) :
    ((List.range m.replicas.toNat).foldl (fun m i => m.addPoint key i) m).keys
        = m.keys ++ m.points key ∧
      ((List.range m.replicas.toNat).foldl (fun m i => m.addPoint key i) m).hash = m.hash ∧
      ((List.range m.replicas.toNat).foldl (fun m i => m.addPoint key i) m).md5hex
        = m.md5hex ∧
      ((List.range m.replicas.toNat).foldl (fun m i => m.addPoint key i) m).replicas
        = m.replicas ∧
      ∀ x, mapGet ((List.range m.replicas.toNat).foldl (fun m i => m.addPoint key i) m).hashMap x
        = if x ∈ m.points key then some key else mapGet m.hashMap x :=
  Map.foldl_addPoint key (List.range m.replicas.toNat) m

theorem Map.points_congr {m m' : Map} (h1 : m'.hash = m.hash) (h2 : m'.md5hex = m.md5hex)
    (h3 : m'.replicas = m.replicas) (p : String) : m'.points p = m.points p := by
  unfold Map.points Map.point
  rw [h1, h2, h3]

/-- What the loops of `AddNodes` do to the points and to the map, peer by peer. -/
theorem Map.addAll_spec : ∀ (ks : List String) (m : Map),
    (m.addAll ks).hash = m.hash ∧ (m.addAll ks).md5hex = m.md5hex ∧
      (m.addAll ks).replicas = m.replicas ∧
      (∀ x, x ∈ (m.addAll ks).keys ↔ x ∈ m.keys ∨ ∃ p ∈ ks, x ∈ m.points p) ∧
      (∀ x, (∀ p ∈ ks, x ∉ m.points p) →
        mapGet (m.addAll ks).hashMap x = mapGet m.hashMap x) ∧
      (∀ x, (∃ p ∈ ks, x ∈ m.points p) →
        ∃ q ∈ ks, x ∈ m.points q ∧ mapGet (m.addAll ks).hashMap x = some q) := by
  intro ks
  induction ks with
  | nil =>
    intro m
    refine ⟨rfl, rfl, rfl, ?_, ?_, ?_⟩
    · intro x; simp [Map.addAll]
    · intro x _; rfl
    · intro x ⟨p, hp, _⟩; cases hp
  | cons k ks ih =>
    intro m
    obtain ⟨a1, a2, a3, a4, a5⟩ := Map.addPeer_spec m k
    obtain ⟨b1, b2, b3, b4, b5, b6⟩ :=
      ih ((List.range m.replicas.toNat).foldl (fun m i => m.addPoint k i) m)
    have hpts : ∀ p, Map.points
        ((List.range m.replicas.toNat).foldl (fun m i => m.addPoint k i) m) p = m.points p :=
      fun p => Map.points_congr a2 a3 a4 p
    have hunf : m.addAll (k :: ks)
        = Map.addAll ((List.range m.replicas.toNat).foldl (fun m i => m.addPoint k i) m) ks :=
      rfl
    rw [hunf]
    refine ⟨b1.trans a2, b2.trans a3, b3.trans a4, ?_, ?_, ?_⟩
    · intro x
      rw [b4, a1]
      simp only [hpts, List.mem_append, List.mem_cons]
      constructor
      · rintro ((h | h) | ⟨p, hp, hx⟩)
        · exact Or.inl h
        · exact Or.inr ⟨k, Or.inl rfl, h⟩
        · exact Or.inr ⟨p, Or.inr hp, hx⟩
      · rintro (h | ⟨p, hp | hp, hx⟩)
        · exact Or.inl (Or.inl h)
        · subst hp; exact Or.inl (Or.inr hx)
        · exact Or.inr ⟨p, hp, hx⟩
    · intro x hx
      rw [b5 x (fun p hp => by rw [hpts]; exact hx p (List.mem_cons_of_mem _ hp)), a5,
        if_neg (hx k (List.mem_cons_self _ _))]
    · intro x ⟨p, hp, hxp⟩
      by_cases hlater : ∃ q ∈ ks, x ∈ m.points q
      · obtain ⟨q, hq, hxq⟩ := hlater
        obtain ⟨r, hr, hxr, hget⟩ := b6 x ⟨q, hq, by rw [hpts]; exact hxq⟩
        rw [hpts] at hxr
        exact ⟨r, List.mem_cons_of_mem _ hr, hxr, hget⟩
      · have hk : x ∈ m.points k := by
          rcases List.mem_cons.mp hp with h | h
          · subst h; exact hxp
          · exact absurd ⟨p, h, hxp⟩ hlater
        refine ⟨k, List.mem_cons_self _ _, hk, ?_⟩
        rw [b5 x (fun q hq hxq => hlater ⟨q, hq, by rw [hpts] at hxq; exact hxq⟩), a5,
          if_pos hk]

theorem Map.AddNodes_spec (m : Map) (ks : List String) :
    (m.AddNodes ks).hash = m.hash ∧ (m.AddNodes ks).md5hex = m.md5hex ∧
      (m.AddNodes ks).replicas = m.replicas ∧
      (m.AddNodes ks).hashMap = (m.addAll ks).hashMap ∧
      (m.AddNodes ks).keys.Sorted (fun a b => a ≤ b) ∧
      (∀ x, x ∈ (m.AddNodes ks).keys ↔ x ∈ m.keys ∨ ∃ p ∈ ks, x ∈ m.points p) := by
  obtain ⟨b1, b2, b3, b4, _, _⟩ := Map.addAll_spec ks m
  refine ⟨b1, b2, b3, rfl, sorted_sortInts _, ?_⟩
  intro x
  rw [← b4]
  exact (perm_sortInts _).mem_iff

end consistenthash


namespace consistenthash

theorem Map.Holds.AddNodes {m : Map} {S : List String} (h : m.Holds S) (ks : List String) :
    (m.AddNodes ks).Holds (S ++ ks) := by
  obtain ⟨_, hk, hm⟩ := h
  obtain ⟨a1, a2, a3, a4, a5, a6⟩ := Map.AddNodes_spec m ks
  obtain ⟨_, _, _, _, b5, b6⟩ := Map.addAll_spec ks m
  have hpts : ∀ p, (m.AddNodes ks).points p = m.points p := fun p =>
    Map.points_congr a1 a2 a3 p
  refine ⟨a5, ?_, ?_⟩
  · intro x
    rw [a6, hk]
    simp only [hpts, List.mem_append]
    constructor
    · rintro (⟨p, hp, hx⟩ | ⟨p, hp, hx⟩)
      · exact ⟨p, Or.inl hp, hx⟩
      · exact ⟨p, Or.inr hp, hx⟩
    · rintro ⟨p, hp | hp, hx⟩
      · exact Or.inl ⟨p, hp, hx⟩
      · exact Or.inr ⟨p, hp, hx⟩
  · intro x ⟨p, hp, hx⟩
    rw [hpts] at hx
    rw [a4]
    simp only [hpts]
    by_cases hnew : ∃ q ∈ ks, x ∈ m.points q
    · obtain ⟨q, hq, hxq, hget⟩ := b6 x hnew
      exact ⟨q, List.mem_append_right _ hq, hxq, hget⟩
    · have hpS : p ∈ S := by
        rcases List.mem_append.mp hp with h1 | h1
        · exact h1
        · exact absurd ⟨p, h1, hx⟩ hnew
      obtain ⟨q, hq, hxq, hget⟩ := hm x ⟨p, hpS, hx⟩
      refine ⟨q, List.mem_append_left _ hq, hxq, ?_⟩
      rw [b5 x (fun q hq hxq => hnew ⟨q, hq, hxq⟩)]
      exact hget

theorem Map.Holds.foldl_AddNodes : ∀ (calls : List (List String)) (m : Map) (S : List String),
    m.Holds S →
      (calls.foldl (fun m keys => m.AddNodes keys) m).Holds (S ++ calls.flatten) ∧
      (calls.foldl (fun m keys => m.AddNodes keys) m).hash = m.hash ∧
      (calls.foldl (fun m keys => m.AddNodes keys) m).md5hex = m.md5hex ∧
      (calls.foldl (fun m keys => m.AddNodes keys) m).replicas = m.replicas := by
  intro calls
  induction calls with
  | nil => intro m S h; simpa using h
  | cons ks calls ih =>
    intro m S h
    obtain ⟨a1, a2, a3, _⟩ := Map.AddNodes_spec m ks
    obtain ⟨b1, b2, b3, b4⟩ := ih (m.AddNodes ks) (S ++ ks) (h.AddNodes ks)
    simp only [List.foldl_cons, List.flatten_cons]
    refine ⟨?_, b2.trans a1, b3.trans a2, b4.trans a3⟩
    rw [← List.append_assoc]
    exact b1

theorem build_Holds (md5hex : String → String) (replicas : Int) (fn : Hash)
    (calls : List (List String)) :
    (build md5hex replicas fn calls).Holds calls.flatten ∧
      (build md5hex replicas fn calls).hash = fn ∧
      (build md5hex replicas fn calls).md5hex = md5hex ∧
      (build md5hex replicas fn calls).replicas = replicas := by
  have h0 : (New md5hex replicas fn).Holds [] := by
    refine ⟨List.sorted_nil, ?_, ?_⟩
    · intro x; simp [New]
    · intro x ⟨p, hp, _⟩; cases hp
  have := Map.Holds.foldl_AddNodes calls (New md5hex replicas fn) [] h0
  simpa [build] using this

/-- The point a lookup lands on, for a sorted non-empty array: the least point that
is `≥ h`, or the least point of all when every point is below `h`. -/
theorem pick_spec (l : List Int) (h : Int) (hs : l.Sorted (fun a b => a ≤ b)) (hne : l ≠ []) :
    ∃ v, l[lowerBound l h % l.length]? = some v ∧ v ∈ l ∧
      ((h ≤ v ∧ ∀ x ∈ l, h ≤ x → v ≤ x) ∨ ((∀ x ∈ l, x < h) ∧ ∀ x ∈ l, v ≤ x)) := by
  have hlen : 0 < l.length := List.length_pos.mpr hne
  have hmono : ∀ (a b : Nat) (ha : a < l.length) (hb : b < l.length), a ≤ b → l[a] ≤ l[b] := by
    intro a b ha hb hab
    rcases Nat.lt_or_ge a b with h1 | h1
    · exact List.pairwise_iff_getElem.mp hs a b ha hb h1
    · have : a = b := by omega
      subst this
      exact le_refl _
  by_cases hlt : lowerBound l h < l.length
  · refine ⟨l[lowerBound l h], ?_, List.getElem_mem _, Or.inl ⟨?_, ?_⟩⟩
    · rw [Nat.mod_eq_of_lt hlt, List.getElem?_eq_getElem hlt]
    · have := @List.findIdx_getElem _ (fun x => decide (h ≤ x)) l hlt
      simpa [lowerBound] using this
    · intro x hx hhx
      obtain ⟨n, hn, rfl⟩ := List.mem_iff_getElem.mp hx
      apply hmono _ _ hlt hn
      by_contra hcon
      have hnl : n < l.findIdx (fun x => decide (h ≤ x)) := by
        unfold lowerBound at hcon; omega
      have := List.not_of_lt_findIdx hnl
      simp at this
      omega
  · have heq : lowerBound l h = l.length :=
      le_antisymm (List.findIdx_le_length _) (by omega)
    have hall : ∀ x ∈ l, x < h := by
      intro x hx
      have := List.findIdx_eq_length.mp heq x hx
      simpa using this
    refine ⟨l[0], ?_, List.getElem_mem _, Or.inr ⟨hall, ?_⟩⟩
    · rw [heq, Nat.mod_self, List.getElem?_eq_getElem hlen]
    · intro x hx
      obtain ⟨n, hn, rfl⟩ := List.mem_iff_getElem.mp hx
      exact hmono 0 n hlen hn (Nat.zero_le _)

theorem Map.Get_of_nil (m : Map) (key : String) (h : m.keys = []) : m.Get key = some "" := by
  unfold Map.Get
  rw [h]
  rfl

/-- Two rings that hold the same peers, computed with the same hash, answer every key alike
when different peers share no point. -/
theorem Map.Holds.Get_eq {m m' : Map} {S S' : List String} (h : m.Holds S) (h' : m'.Holds S')
    (hS : ∀ p, p ∈ S ↔ p ∈ S') (hh : m'.hash = m.hash)
    (hp : ∀ p, m'.points p = m.points p) (hns : m.NoSharedPoint S) (key : String) :
    m.Get key = m'.Get key := by
  obtain ⟨hs, hk, hm⟩ := h
  obtain ⟨hs', hk', hm'⟩ := h'
  have hmem : ∀ x, x ∈ m.keys ↔ x ∈ m'.keys := by
    intro x
    rw [hk, hk']
    constructor
    · rintro ⟨p, hp1, hx⟩; exact ⟨p, (hS p).mp hp1, by rw [hp]; exact hx⟩
    · rintro ⟨p, hp1, hx⟩; exact ⟨p, (hS p).mpr hp1, by rw [← hp]; exact hx⟩
  by_cases hnil : m.keys = []
  · have hnil' : m'.keys = [] := by
      apply List.eq_nil_iff_forall_not_mem.mpr
      intro x hx
      have := (hmem x).mpr hx
      rw [hnil] at this
      cases this
    rw [Map.Get_of_nil m key hnil, Map.Get_of_nil m' key hnil']
  · have hnil' : m'.keys ≠ [] := by
      intro hc
      obtain ⟨x, hx⟩ := List.exists_mem_of_ne_nil _ hnil
      have := (hmem x).mp hx
      rw [hc] at this
      cases this
    rw [Map.Get_eq_peerAt m key hs hnil, Map.Get_eq_peerAt m' key hs' hnil', hh]
    obtain ⟨v, hv1, hv2, hv3⟩ := pick_spec m.keys (toInt (m.hash key)) hs hnil
    obtain ⟨w, hw1, hw2, hw3⟩ := pick_spec m'.keys (toInt (m.hash key)) hs' hnil'
    have hvw : v = w := by
      have hw2' := (hmem w).mpr hw2
      have hv2' := (hmem v).mp hv2
      rcases hv3 with ⟨a1, a2⟩ | ⟨a1, a2⟩
      · rcases hw3 with ⟨b1, b2⟩ | ⟨b1, b2⟩
        · exact le_antisymm (a2 w hw2' b1) (b2 v hv2' a1)
        · have := b1 v hv2'; omega
      · rcases hw3 with ⟨b1, b2⟩ | ⟨b1, b2⟩
        · have := a1 w hw2'; omega
        · exact le_antisymm (a2 w hw2') (b2 v hv2')
    subst hvw
    unfold Map.peerAt
    rw [hv1, hw1]
    dsimp only
    obtain ⟨p, hp1, hx⟩ := (hk v).mp hv2
    obtain ⟨q, hq, hxq, hget⟩ := hm v ⟨p, hp1, hx⟩
    obtain ⟨q', hq', hxq', hget'⟩ := hm' v ⟨p, (hS p).mp hp1, by rw [hp]; exact hx⟩
    rw [hp] at hxq'
    have : q = q' := hns q hq q' ((hS q').mpr hq') v hxq hxq'
    rw [hget, hget', this]

theorem Map.lastOwner_congr {m m' : Map} (h : ∀ p, m'.points p = m.points p)
    (peers : List String) (x : Int) : m'.lastOwner peers x = m.lastOwner peers x := by
  unfold Map.lastOwner
  congr 1
  funext p
  rw [h]

theorem Map.lastOwner_append (m : Map) (S ks : List String) (x : Int) :
    m.lastOwner (S ++ ks) x = (m.lastOwner ks x).or (m.lastOwner S x) := by
  unfold Map.lastOwner
  rw [List.reverse_append, List.find?_append]

theorem Map.lastOwner_cons (m : Map) (k : String) (ks : List String) (x : Int) :
    m.lastOwner (k :: ks) x
      = (m.lastOwner ks x).or (if x ∈ m.points k then some k else none) := by
  have h := Map.lastOwner_append m [k] ks x
  rw [List.singleton_append] at h
  rw [h]
  congr 1
  unfold Map.lastOwner
  by_cases hx : x ∈ m.points k
  · simp [hx]
  · simp [hx]

theorem Map.lastOwner_mem {m : Map} {peers : List String} {x : Int} {q : String}
    (h : m.lastOwner peers x = some q) : q ∈ peers ∧ x ∈ m.points q := by
  unfold Map.lastOwner at h
  have h1 := List.find?_some h
  have h2 := List.mem_of_find?_eq_some h
  exact ⟨List.mem_reverse.mp h2, of_decide_eq_true h1⟩

theorem Map.lastOwner_isSome {m : Map} {peers : List String} {x : Int}
    (h : ∃ p ∈ peers, x ∈ m.points p) : ∃ q, m.lastOwner peers x = some q := by
  obtain ⟨p, hp, hx⟩ := h
  have : (m.lastOwner peers x).isSome = true := by
    unfold Map.lastOwner
    rw [List.find?_isSome]
    exact ⟨p, List.mem_reverse.mpr hp, decide_eq_true hx⟩
  exact Option.isSome_iff_exists.mp this

/-- The loops of `AddNodes` append the points of the peers in order, and leave every
point mapped to the peer written last. -/
theorem Map.addAll_exact : ∀ (ks : List String) (m : Map),
    (m.addAll ks).keys = m.keys ++ ks.flatMap m.points ∧
      ∀ x, mapGet (m.addAll ks).hashMap x = (m.lastOwner ks x).or (mapGet m.hashMap x) := by
  intro ks
  induction ks with
  | nil =>
    intro m
    refine ⟨by simp [Map.addAll], ?_⟩
    intro x
    simp [Map.addAll, Map.lastOwner]
  | cons k ks ih =>
    intro m
    obtain ⟨h1, h2, h3, h4, h5⟩ := Map.addPeer_spec m k
    have hpts := Map.points_congr h2 h3 h4
    obtain ⟨g1, g2⟩ := ih ((List.range m.replicas.toNat).foldl (fun m i => m.addPoint k i) m)
    have hunf : m.addAll (k :: ks)
        = ((List.range m.replicas.toNat).foldl (fun m i => m.addPoint k i) m).addAll ks := rfl
    rw [hunf]
    constructor
    · rw [g1, h1, List.flatMap_cons, List.append_assoc]
      congr 2
      apply List.flatMap_congr
      intro p _
      exact hpts p
    · intro x
      rw [g2, h5, Map.lastOwner_congr hpts, Map.lastOwner_cons]
      cases m.lastOwner ks x with
      | some q => rfl
      | none =>
        by_cases hx : x ∈ m.points k
        · simp [hx]
        · simp [hx]

theorem Map.Built.after_AddNodes {m : Map} {S : List String} (h : m.Built S) (ks : List String) :
    (m.AddNodes ks).Built (S ++ ks) := by
  obtain ⟨_, hperm, hmap⟩ := h
  obtain ⟨h1, h2, h3, h4, h5, _⟩ := Map.AddNodes_spec m ks
  obtain ⟨g1, g2⟩ := Map.addAll_exact ks m
  have hpts := Map.points_congr h1 h2 h3
  have hkeys : (m.AddNodes ks).keys = sortInts (m.addAll ks).keys := rfl
  refine ⟨h5, ?_, ?_⟩
  · rw [hkeys, g1, List.flatMap_append]
    have e : ∀ (l : List String), l.flatMap (m.AddNodes ks).points = l.flatMap m.points := by
      intro l
      apply List.flatMap_congr
      intro p _
      exact hpts p
    rw [e, e]
    exact (perm_sortInts _).trans (List.Perm.append_right _ hperm)
  · intro x
    rw [h4, g2, hmap, Map.lastOwner_congr hpts, Map.lastOwner_append]

theorem Map.Built.after_calls : ∀ (calls : List (List String)) (m : Map) (S : List String),
    m.Built S → (calls.foldl (fun m keys => m.AddNodes keys) m).Built (S ++ calls.flatten) := by
  intro calls
  induction calls with
  | nil => intro m S h; simpa using h
  | cons ks calls ih =>
    intro m S h
    have := ih (m.AddNodes ks) (S ++ ks) (h.after_AddNodes ks)
    simpa [List.append_assoc] using this

/-- A ring made by `New` and `AddNodes` calls holds the peers in the order they were
added. -/
theorem build_Built (md5hex : String → String) (replicas : Int) (fn : Hash)
    (calls : List (List String)) :
    (build md5hex replicas fn calls).Built calls.flatten := by
  have h0 : (New md5hex replicas fn).Built [] := by
    refine ⟨List.sorted_nil, ?_, ?_⟩
    · simp [New]
    · intro x
      simp [New, mapGet, Map.lastOwner]
  have := Map.Built.after_calls calls (New md5hex replicas fn) [] h0
  simpa [build] using this

/-- The owner `Get` answers with is the peer added last among those that have the
point the key falls on. -/
theorem Map.Built.Get_lastOwner {m : Map} {peers : List String} (h : m.Built peers)
    (key : String) (x : Int)
    (hx : m.keys[lowerBound m.keys (toInt (m.hash key)) % m.keys.length]? = some x) :
    m.Get key = m.lastOwner peers x := by
  obtain ⟨hs, hperm, hmap⟩ := h
  have hne : m.keys ≠ [] := by
    intro hnil
    rw [hnil] at hx
    simp at hx
  rw [Map.Get_eq_peerAt m key hs hne]
  unfold Map.peerAt
  rw [hx]
  dsimp only
  rw [hmap]
  have hmem : x ∈ peers.flatMap m.points := hperm.subset (List.getElem?_mem hx)
  obtain ⟨q, hq⟩ := Map.lastOwner_isSome (List.mem_flatMap.mp hmem)
  rw [hq]
  rfl

/-- C11 (amended). Two rings made by `New` with the same replicas and the same hash
and populated by `AddNodes` calls with the same set of peer IDs, in any order
and in any grouping into calls, return the same peer for every key, provided no
point is shared by two different peers of the set.  In every case the map sends
each point to the peer added last among those that have it, and `Get(key)`
answers with that peer for the point the key falls on. -/
theorem build_Get_eq (md5hex : String → String) (replicas : Int) (fn : Hash)
    (calls₁ calls₂ : List (List String)) (key : String)
    (hsame : ∀ p, p ∈ calls₁.flatten ↔ p ∈ calls₂.flatten) :
    ((New md5hex replicas fn).NoSharedPoint calls₁.flatten →
      (build md5hex replicas fn calls₁).Get key = (build md5hex replicas fn calls₂).Get key) ∧
    (∀ x, mapGet (build md5hex replicas fn calls₁).hashMap x
      = (New md5hex replicas fn).lastOwner calls₁.flatten x) ∧
    (∀ x, (build md5hex replicas fn calls₁).keys[
          lowerBound (build md5hex replicas fn calls₁).keys (toInt (fn key))
            % (build md5hex replicas fn calls₁).keys.length]? = some x →
      (build md5hex replicas fn calls₁).Get key
        = (New md5hex replicas fn).lastOwner calls₁.flatten x) := by
  obtain ⟨a1, a2, a3, a4⟩ := build_Holds md5hex replicas fn calls₁
  obtain ⟨b1, b2, b3, b4⟩ := build_Holds md5hex replicas fn calls₂
  have hp1 : ∀ p, (build md5hex replicas fn calls₁).points p
      = (New md5hex replicas fn).points p := fun p => Map.points_congr a2 a3 a4 p
  have hp2 : ∀ p, (build md5hex replicas fn calls₂).points p
      = (New md5hex replicas fn).points p := fun p => Map.points_congr b2 b3 b4 p
  have hb := build_Built md5hex replicas fn calls₁
  refine ⟨?_, ?_, ?_⟩
  · intro hns
    apply Map.Holds.Get_eq a1 b1 hsame (b2.trans a2.symm) (fun p => by rw [hp1, hp2])
    intro p hp q hq x hx hxq
    rw [hp1] at hx hxq
    exact hns p hp q hq x hx hxq
  · intro x
    rw [hb.2.2 x, Map.lastOwner_congr hp1]
  · intro x hx
    have hx' : (build md5hex replicas fn calls₁).keys[
          lowerBound (build md5hex replicas fn calls₁).keys
            (toInt ((build md5hex replicas fn calls₁).hash key))
            % (build md5hex replicas fn calls₁).keys.length]? = some x := by
      rw [a2]
      exact hx
    rw [hb.Get_lastOwner key x hx', Map.lastOwner_congr hp1]

/-- On a sorted ring whose points are those of `A` and of `B` and whose map sends
every point of `A` to `A`, `RemovePeerByKey(k)` for a key owned by `B` completes
and leaves `A` as the owner of every key. -/
theorem Map.RemovePeerByKey_leaves (m : Map) (A B self k : String)
    (hs : m.keys.Sorted (fun a b => a ≤ b)) (hrep : 0 < m.replicas)
    (hkeys : m.keys.Perm (m.points A ++ m.points B))
    (hA : ∀ x ∈ m.points A, mapGet m.hashMap x = some A) (hk : m.Get k = some B) :
    ∃ s', nexuscache.Server.RemovePeerByKey { self := self, peers := m } k = some s' ∧
      ∀ key, s'.peers.Get key = some A := by
  obtain ⟨m', g1, g2, _, g4, _, _, _⟩ := Map.removePoints_perm (m.points A) (m.points B) m hs hkeys
  refine ⟨{ self := self, peers := m' }, ?_, ?_⟩
  · unfold nexuscache.Server.RemovePeerByKey
    dsimp only
    rw [hk]
    dsimp only [Option.bind]
    unfold Map.Remove
    rw [g1]
    rfl
  · intro key
    show m'.Get key = some A
    have hne : m'.keys ≠ [] := by
      intro hnil
      have hlen := g2.length_eq
      rw [hnil] at hlen
      simp [Map.points] at hlen
      omega
    rcases Map.Get_cases m' key with ⟨h5, _⟩ | ⟨x, hx, h5⟩
    · exact absurd h5 hne
    · rw [h5, g4, hA x (g2.subset hx)]
      rfl

/-- C10 (amended). For every reachable ring R and peer ID `p`, `AddNodes(p)` followed
by `Remove(p)` completes and restores the point array of R exactly: the points
of `p` were added to it and one occurrence of each is deleted again.  When no
point of `p` is a point of R mapped to another peer, `Get` afterwards returns
for every key the owner it returned on R, and never `p` when `p` is a non-empty
ID to which no point of R is mapped.  When R has at least one replica per peer,
its points are those of `A` and `B`, and its map sends every point of `A` to
`A`, then after `RemovePeerByKey(k)` for a key `k` owned by `B`, `Get` returns
`A` for every key; this is so on every ring built from `New` by adding `B` and
then `A`, with no proviso, and on every ring built by adding `A` and then `B`
provided `B` shares no point with `A`. -/
theorem Map.AddNodes_Remove (md5hex : String → String) (replicas : Int) (fn : Hash) (m : Map)
    (p : String) (hr : Reachable md5hex replicas fn m) :
    (∃ m', (m.AddNodes [p]).Remove p = some m' ∧ m'.keys = m.keys ∧
      (m.AddNodes [p]).keys.Perm (m.keys ++ m.points p) ∧
      ((∀ x ∈ m.points p, x ∈ m.keys → mapGet m.hashMap x = some p) →
        (∀ key, m'.Get key = m.Get key) ∧
        (p ≠ "" → (∀ x ∈ m.keys, mapGet m.hashMap x ≠ some p) →
          ∀ key, m'.Get key ≠ some p))) ∧
    (∀ (A B self k : String), 0 < m.replicas →
      m.keys.Perm (m.points A ++ m.points B) →
      (∀ x ∈ m.points A, mapGet m.hashMap x = some A) →
      m.Get k = some B →
      ∃ s', nexuscache.Server.RemovePeerByKey { self := self, peers := m } k = some s' ∧
        ∀ key, s'.peers.Get key = some A) ∧
    (∀ (calls : List (List String)) (A B self k : String), 0 < replicas →
      (build md5hex replicas fn calls).Get k = some B →
      (calls.flatten = [B, A] ∨
        (calls.flatten = [A, B] ∧
          ∀ x ∈ (New md5hex replicas fn).points B, x ∉ (New md5hex replicas fn).points A)) →
      ∃ s', nexuscache.Server.RemovePeerByKey
          { self := self, peers := build md5hex replicas fn calls } k = some s' ∧
        ∀ key, s'.peers.Get key = some A) := by
  refine ⟨?_, ?_, ?_⟩
  · obtain ⟨m', h1, h2, h3, h4⟩ := Map.AddNodes_Remove_keys m p hr.sorted
    refine ⟨m', h1, h2, ?_, ?_⟩
    · rw [(Map.AddNodes_one m p).1]
      exact perm_sortInts _
    · intro hdis
      have hget : ∀ key, m'.Get key = m.Get key := by
        intro key
        apply Map.Get_congr m m' key h2 h3
        intro x hx
        rw [h4]
        by_cases hmem : x ∈ m.points p
        · rw [if_pos hmem, hdis x hmem hx]
        · rw [if_neg hmem]
      refine ⟨hget, ?_⟩
      intro hp hno key heq
      rw [hget] at heq
      rcases Map.Get_cases m key with ⟨_, h5⟩ | ⟨x, hx, h5⟩
      · rw [h5] at heq
        exact hp (Option.some.inj heq).symm
      · rw [h5] at heq
        cases hmx : mapGet m.hashMap x with
        | none =>
          rw [hmx] at heq
          exact hp (Option.some.inj heq).symm
        | some q =>
          rw [hmx] at heq
          have : q = p := Option.some.inj heq
          exact hno x hx (by rw [hmx, this])
  · intro A B self k hrep hkeys hA hk
    exact Map.RemovePeerByKey_leaves m A B self k hr.sorted hrep hkeys hA hk
  · intro calls A B self k hrep hk horder
    obtain ⟨_, a2, a3, a4⟩ := build_Holds md5hex replicas fn calls
    have hpts : ∀ q, (build md5hex replicas fn calls).points q
        = (New md5hex replicas fn).points q := fun q => Map.points_congr a2 a3 a4 q
    obtain ⟨hs, hperm, hmap⟩ := build_Built md5hex replicas fn calls
    apply Map.RemovePeerByKey_leaves _ A B self k hs (by rw [a4]; exact hrep) _ _ hk
    · rcases horder with ho | ⟨ho, _⟩
      · rw [ho] at hperm
        simp only [List.flatMap_cons, List.flatMap_nil, List.append_nil] at hperm
        exact hperm.trans List.perm_append_comm
      · rw [ho] at hperm
        simp only [List.flatMap_cons, List.flatMap_nil, List.append_nil] at hperm
        exact hperm
    · intro x hx
      rw [hpts A] at hx
      rw [hmap, Map.lastOwner_congr hpts]
      unfold Map.lastOwner
      rcases horder with ho | ⟨ho, hns⟩
      · rw [ho]
        simp [hx]
      · rw [ho]
        have hxB : x ∉ (New md5hex replicas fn).points B := fun hb => hns x hb hx
        simp [hx, hxB]

end consistenthash


theorem mapGet_isSome_iff {α β : Type} [DecidableEq α] (m : List (α × β)) (k : α) :
    (mapGet m k).isSome ↔ k ∈ m.map Prod.fst := by
  induction m with
  | nil => simp [mapGet]
  | cons p m ih =>
    obtain ⟨a, b⟩ := p
    unfold mapGet
    by_cases h : a = k
    · simp [h]
    · rw [if_neg h, ih]
      simp only [List.map_cons, List.mem_cons]
      constructor
      · exact Or.inr
      · rintro (h1 | h1)
        · exact absurd h1.symm h
        · exact h1

theorem mapDelete_keys_nodup {α β : Type} [DecidableEq α] (m : List (α × β)) (k : α)
    (h : (m.map Prod.fst).Nodup) :
    ((mapDelete m k).map Prod.fst).Nodup ∧ k ∉ (mapDelete m k).map Prod.fst := by
  unfold mapDelete
  constructor
  · exact List.Nodup.sublist ((List.filter_sublist _).map Prod.fst) h
  · intro hk
    obtain ⟨p, hp, hpk⟩ := List.mem_map.mp hk
    have := (List.mem_filter.mp hp).2
    simp at this
    exact this hpk

theorem mapSet_keys_nodup {α β : Type} [DecidableEq α] (m : List (α × β)) (k : α) (v : β)
    (h : (m.map Prod.fst).Nodup) : ((mapSet m k v).map Prod.fst).Nodup := by
  obtain ⟨h1, h2⟩ := mapDelete_keys_nodup m k h
  unfold mapSet
  simp only [List.map_cons]
  exact List.nodup_cons.mpr ⟨h2, h1⟩

namespace consistenthash

theorem Map.foldl_addPoint_nodup (key : String) : ∀ (is : List Nat) (m : Map),
    (m.hashMap.map Prod.fst).Nodup →
      ((is.foldl (fun m i => m.addPoint key i) m).hashMap.map Prod.fst).Nodup := by
  intro is
  induction is with
  | nil => intro m h; exact h
  | cons i is ih =>
    intro m h
    simp only [List.foldl_cons]
    exact ih _ (mapSet_keys_nodup _ _ _ h)

theorem Map.addAll_nodup : ∀ (ks : List String) (m : Map),
    (m.hashMap.map Prod.fst).Nodup → ((m.addAll ks).hashMap.map Prod.fst).Nodup := by
  intro ks
  induction ks with
  | nil => intro m h; exact h
  | cons k ks ih =>
    intro m h
    exact ih _ (Map.foldl_addPoint_nodup k _ m h)

theorem Map.removePoints_fields : ∀ (ps : List Int) (m m' : Map),
    m.removePoints ps = some m' →
      m'.hashMap = m.hashMap ∧ m'.hash = m.hash ∧ m'.md5hex = m.md5hex ∧
        m'.replicas = m.replicas := by
  intro ps
  induction ps with
  | nil => intro m m' h; cases h; exact ⟨rfl, rfl, rfl, rfl⟩
  | cons p ps ih =>
    intro m m' h
    unfold Map.removePoints at h
    cases h1 : m.removePoint p with
    | none => rw [h1] at h; cases h
    | some m1 =>
      rw [h1] at h
      obtain ⟨_, _, a1, a2, a3, a4⟩ := Map.removePoint_keys h1
      obtain ⟨b1, b2, b3, b4⟩ := ih m1 m' h
      exact ⟨b1.trans a1, b2.trans a2, b3.trans a3, b4.trans a4⟩

/-- The point→peer map of a reachable ring has one entry for every point of every
peer ever passed to `AddNodes`, and no other entry. -/
theorem ReachableAdding.hashMap_keys {md5hex : String → String} {replicas : Int} {fn : Hash}
    {added : List String} {m : Map} (hr : ReachableAdding md5hex replicas fn added m) :
    m.hash = fn ∧ m.md5hex = md5hex ∧ m.replicas = replicas ∧
      (m.hashMap.map Prod.fst).Nodup ∧
      ∀ x, x ∈ m.hashMap.map Prod.fst ↔ ∃ p ∈ added, x ∈ m.points p := by
  induction hr with
  | new =>
    refine ⟨rfl, rfl, rfl, List.nodup_nil, ?_⟩
    intro x
    simp [New]
  | addNodes added m ks _ ih =>
    obtain ⟨i1, i2, i3, i4, i5⟩ := ih
    obtain ⟨a1, a2, a3, a4, _, _⟩ := Map.AddNodes_spec m ks
    obtain ⟨_, _, _, _, b5, b6⟩ := Map.addAll_spec ks m
    have hpts : ∀ p, (m.AddNodes ks).points p = m.points p := fun p =>
      Map.points_congr a1 a2 a3 p
    refine ⟨a1.trans i1, a2.trans i2, a3.trans i3, ?_, ?_⟩
    · rw [a4]; exact Map.addAll_nodup ks m i4
    · intro x
      rw [a4, ← mapGet_isSome_iff]
      simp only [hpts, List.mem_append]
      by_cases hnew : ∃ q ∈ ks, x ∈ m.points q
      · obtain ⟨q, hq, hxq, hget⟩ := b6 x hnew
        rw [hget]
        simp only [Option.isSome_some, true_iff]
        exact ⟨q, Or.inr hq, hxq⟩
      · rw [b5 x (fun q hq hxq => hnew ⟨q, hq, hxq⟩), mapGet_isSome_iff, i5]
        constructor
        · rintro ⟨p, hp, hx⟩; exact ⟨p, Or.inl hp, hx⟩
        · rintro ⟨p, hp | hp, hx⟩
          · exact ⟨p, hp, hx⟩
          · exact absurd ⟨p, hp, hx⟩ hnew
  | remove added m m' key _ hrem ih =>
    obtain ⟨i1, i2, i3, i4, i5⟩ := ih
    obtain ⟨a1, a2, a3, a4⟩ := Map.removePoints_fields _ m m' hrem
    have hpts : ∀ p, m'.points p = m.points p := fun p => Map.points_congr a2 a3 a4 p
    refine ⟨a2.trans i1, a3.trans i2, a4.trans i3, by rw [a1]; exact i4, ?_⟩
    intro x
    rw [a1, i5]
    simp only [hpts]

theorem Map.entries_eq (m : Map) (added : List String)
    (hnd : (m.hashMap.map Prod.fst).Nodup)
    (hk : ∀ x, x ∈ m.hashMap.map Prod.fst ↔ ∃ p ∈ added, x ∈ m.points p)
    (hd : m.DistinctPoints added) :
    m.entries = m.replicas.toNat * added.toFinset.card := by
  have h1 : m.entries = (m.hashMap.map Prod.fst).toFinset.card := by
    rw [List.toFinset_card_of_nodup hnd]
    simp [Map.entries]
  have h2 : (m.hashMap.map Prod.fst).toFinset
      = (added.toFinset ×ˢ Finset.range m.replicas.toNat).image
          (fun pi => m.point pi.2 pi.1) := by
    ext x
    simp only [List.mem_toFinset, Finset.mem_image, Finset.mem_product, Finset.mem_range,
      Prod.exists]
    rw [hk]
    unfold Map.points
    simp only [List.mem_map, List.mem_range]
    constructor
    · rintro ⟨p, hp, i, hi, hx⟩; exact ⟨p, i, ⟨hp, hi⟩, hx⟩
    · rintro ⟨p, i, ⟨hp, hi⟩, hx⟩; exact ⟨p, hp, i, hi, hx⟩
  have h3 : Set.InjOn (fun pi : String × Nat => m.point pi.2 pi.1)
      (added.toFinset ×ˢ Finset.range m.replicas.toNat : Finset (String × Nat)) := by
    intro a ha b hb hab
    simp only [Finset.coe_product, Set.mem_prod, Finset.mem_coe, List.mem_toFinset,
      Finset.mem_range] at ha hb
    obtain ⟨e1, e2⟩ := hd a.1 ha.1 b.1 hb.1 a.2 ha.2 b.2 hb.2 hab
    exact Prod.ext e1 e2
  rw [h1, h2, Finset.card_image_of_injOn h3, Finset.card_product, Finset.card_range, Nat.mul_comm]

/-- C12 (amended). On every ring reached from `New(replicas, H)` with `replicas ≥ 0` by
`AddNodes` and `Remove` calls, the point→peer map holds exactly the points of
the peers ever passed to `AddNodes` (`Remove` deletes nothing from it): when no
two virtual nodes of those peers share a point it has exactly
`replicas × |peers ever added|` entries. -/
theorem ReachableAdding.entries_count (md5hex : String → String) (replicas : Int) (fn : Hash)
    (added : List String) (m : Map) (hr : ReachableAdding md5hex replicas fn added m)
    (hrep : 0 ≤ replicas) (hd : m.DistinctPoints added) :
    (∀ x, (mapGet m.hashMap x).isSome ↔ ∃ p ∈ added, x ∈ m.points p) ∧
      (m.entries : Int) = replicas * (added.toFinset.card : Int) := by
  obtain ⟨_, _, i3, i4, i5⟩ := hr.hashMap_keys
  constructor
  · intro x
    rw [mapGet_isSome_iff, i5]
  · rw [Map.entries_eq m added i4 i5 hd, i3]
    push_cast
    rw [Int.toNat_of_nonneg hrep]

end consistenthash


namespace lru

variable {V : Type} [Value V]

theorem Time.Sub_of_fits {t u : Time} (h1 : minDuration ≤ t - u) (h2 : t - u ≤ maxDuration) :
    Time.Sub t u = t - u := by
  unfold Time.Sub
  rw [if_neg (not_lt.mpr h2), if_neg (not_lt.mpr h1)]

theorem Time.Sub_of_above {t u : Time} (h : maxDuration < t - u) : Time.Sub t u = maxDuration := by
  unfold Time.Sub
  rw [if_pos h]

theorem Time.Sub_of_below {t u : Time} (h : t - u < minDuration) : Time.Sub t u = minDuration := by
  unfold Time.Sub
  have h0 : minDuration < maxDuration := by decide
  rw [if_neg (not_lt.mpr (le_of_lt (lt_trans h h0))), if_pos h]

/-- C13 (amended). For the entry `kv` that a well-formed cache indexes under `k`, and
the three readings of the clock that `Get(k)` makes: when the expiry is before
the first reading, `Get(k)` reports a miss, takes `k` out of the index and
lowers the byte count by `len(k) + value.Len()`, and every later `Get(k)`
misses; otherwise `Get(k)` returns the stored value, moves the element of `k`
to the head of the list, and sets the stored expiry to the second reading plus
`expire.Sub(addTime)` and `addTime` to the third reading, leaving every other
entry, the index and the byte count as they were.  `expire.Sub(addTime)` is
`expire − addTime` when that fits a `time.Duration`, and otherwise the nearest
bound, `2^63 − 1` or `−2^63` nanoseconds.  When the clock does not advance
during the call and the difference fits, the stored expiry is
`now + (expire − addTime)` and `addTime` is `now`. -/
theorem Cache.Get_entry (c : Cache V) (k : String) (ele : Nat) (kv : entry V) (t : Readings)
    (hwf : c.WF) (hm : mapGet c.cache k = some ele) (hkv : c.elems[ele]? = some kv) :
    (kv.expire < t.test →
      ∃ c', c.Get k t = some (none, c') ∧
        c'.nbytes = c.nbytes - ((k.utf8ByteSize : Int) + (Value.Len kv.value : Int)) ∧
        mapGet c'.cache k = none ∧
        ∀ t2, c'.Get k t2 = some (none, c')) ∧
    (¬ kv.expire < t.test →
      ∃ c', c.Get k t = some (some kv.value, c') ∧
        c'.ll = ele :: c.ll.erase ele ∧
        c'.elems[ele]? = some { kv with expire := t.slide + Time.Sub kv.expire kv.addTime, addTime := t.stamp } ∧
        (∀ h, h ≠ ele → c'.elems[h]? = c.elems[h]?) ∧
        c'.cache = c.cache ∧ c'.nbytes = c.nbytes) ∧
    (-(2 ^ 63) ≤ kv.expire - kv.addTime → kv.expire - kv.addTime ≤ 2 ^ 63 - 1 →
      Time.Sub kv.expire kv.addTime = kv.expire - kv.addTime) ∧
    (2 ^ 63 - 1 < kv.expire - kv.addTime → Time.Sub kv.expire kv.addTime = 2 ^ 63 - 1) ∧
    (kv.expire - kv.addTime < -(2 ^ 63) → Time.Sub kv.expire kv.addTime = -(2 ^ 63)) ∧
    (∀ now, t = Readings.once now → ¬ kv.expire < now →
      -(2 ^ 63) ≤ kv.expire - kv.addTime → kv.expire - kv.addTime ≤ 2 ^ 63 - 1 →
      ∃ c', c.Get k t = some (some kv.value, c') ∧
        c'.elems[ele]? = some { kv with expire := now + (kv.expire - kv.addTime), addTime := now }) := by
  obtain ⟨hin, kv0, hkv0, hkey⟩ := hwf.index k ele hm
  rw [hkv] at hkv0
  cases hkv0
  have hlt : ele < c.elems.length := hwf.valid ele hin
  have hhit : ¬ kv.expire < t.test →
      c.Get k t = some (some kv.value, { c with elems := c.elems.set ele { kv with expire := t.slide + Time.Sub kv.expire kv.addTime, addTime := t.stamp }, ll := moveToFront c.ll ele }) := by
    intro hx
    unfold Cache.Get
    rw [hm]
    dsimp only
    rw [hkv]
    dsimp only
    rw [if_neg hx]
  refine ⟨?_, ?_, ?_, ?_, ?_, ?_⟩
  · intro hx
    refine ⟨{ c with cache := mapDelete c.cache kv.key, nbytes := c.nbytes - kv.size, evictions := c.callOnEvicted kv }, ?_, ?_, ?_, ?_⟩
    · unfold Cache.Get
      rw [hm]
      dsimp only
      rw [hkv]
      dsimp only
      rw [if_pos hx]
      unfold Cache.removeElement
      rw [hkv]
      rfl
    · show c.nbytes - kv.size = _
      unfold entry.size
      rw [hkey]
    · show mapGet (mapDelete c.cache kv.key) k = none
      rw [hkey, mapGet_mapDelete, if_pos rfl]
    · intro t2
      unfold Cache.Get
      have : mapGet (mapDelete c.cache kv.key) k = none := by
        rw [hkey, mapGet_mapDelete, if_pos rfl]
      dsimp only
      rw [this]
  · intro hx
    refine ⟨_, hhit hx, ?_, ?_, ?_, rfl, rfl⟩
    · exact moveToFront_of_mem hin
    · show (c.elems.set ele _)[ele]? = _
      rw [List.getElem?_set_self hlt]
    · intro h hne
      show (c.elems.set ele _)[h]? = _
      rw [List.getElem?_set_ne (fun e => hne e.symm)]
  · exact fun h1 h2 => Time.Sub_of_fits h1 h2
  · exact fun h => Time.Sub_of_above h
  · exact fun h => Time.Sub_of_below h
  · intro now ht hx h1 h2
    subst ht
    refine ⟨_, hhit hx, ?_⟩
    show (c.elems.set ele _)[ele]? = _
    rw [List.getElem?_set_self hlt, Time.Sub_of_fits h1 h2]
    rfl

end lru


theorem getElem?_set_of_some {α : Type} {l : List α} {i : Nat} {a : α} (h : l[i]? = some a)
    (b : α) (j : Nat) : (l.set i b)[j]? = if j = i then some b else l[j]? := by
  have hlt : i < l.length := (List.getElem?_eq_some_iff.mp h).1
  rw [List.getElem?_set]
  by_cases hij : i = j
  · subst hij; simp [hlt]
  · have : ¬ j = i := fun e => hij e.symm
    simp [hij, this]

theorem sum_map_set {α : Type} (f : α → Nat) : ∀ (l : List α) (i : Nat) (a b : α),
    l[i]? = some a → ((l.set i b).map f).sum + f a = (l.map f).sum + f b := by
  intro l
  induction l with
  | nil => intro i a b h; simp at h
  | cons x l ih =>
    intro i a b h
    cases i with
    | zero =>
      simp at h
      subst h
      simp only [List.set_cons_zero, List.map_cons, List.sum_cons]
      omega
    | succ i =>
      simp at h
      have := ih i a b h
      simp only [List.set_cons_succ, List.map_cons, List.sum_cons]
      omega

namespace singleflight

variable {R : Type}

theorem Pc.owns_of_holds {pc : Pc R} {c : Nat} (h : pc.holds = some c) : pc.owns = some c := by
  cases pc <;> simp_all [Pc.holds, Pc.owns]

theorem Pc.handle_of_owns {pc : Pc R} {c : Nat} (h : pc.owns = some c) : pc.handle = some c := by
  cases pc <;> simp_all [Pc.handle, Pc.owns]

theorem State.Inv.owns_valid {s : State R} (hinv : s.Inv) {i : Nat} {g : Goroutine R} {c : Nat}
    (hg : s.gs[i]? = some g) (h : g.pc.owns = some c) : c < s.calls.length :=
  hinv.valid i g c hg (hinv.joined i g c hg (Pc.handle_of_owns h))

theorem State.invocations_set {s : State R} {i : Nat} {g : Goroutine R}
    (hg : s.gs[i]? = some g) (g' : Goroutine R) :
    ((s.gs.set i g').map (fun g => g.runs)).sum + g.runs
      = (s.gs.map (fun g => g.runs)).sum + g'.runs :=
  sum_map_set (fun g => g.runs) s.gs i g g' hg

end singleflight


namespace singleflight

variable {R : Type}

theorem State.Inv.step_join {s : State R} (hinv : s.Inv) {i : Nat} {g : Goroutine R} {c : Nat}
    (hg : s.gs[i]? = some g) (hpc : g.pc = Pc.entry) (hm : mapGet s.m g.key = some c) :
    State.Inv { s with gs := s.gs.set i { g with pc := Pc.waiting c, joined := some c } } := by
  have hgs := getElem?_set_of_some hg { g with pc := Pc.waiting c, joined := some c }
  obtain ⟨j0, g0, hj0, hk0, hh0⟩ := hinv.held g.key c hm
  have hc : c < s.calls.length := hinv.owns_valid hj0 (Pc.owns_of_holds hh0)
  refine ⟨?_, ?_, ?_, ?_, ?_, ?_, ?_, ?_, ?_, ?_⟩
  · intro j gj c' hj hh
    rw [hgs] at hj
    split at hj
    · cases hj
      simpa [Pc.handle] using hh
    · exact hinv.joined j gj c' hj hh
  · intro j gj c' hj hh
    rw [hgs] at hj
    split at hj
    · cases hj
      have : c = c' := by simpa using hh
      subst this
      exact hc
    · exact hinv.valid j gj c' hj hh
  · intro j k gj gk c' hj hk h1 h2
    rw [hgs] at hj hk
    split at hj
    · cases hj; simp [Pc.owns] at h1
    · split at hk
      · cases hk; simp [Pc.owns] at h2
      · exact hinv.owner j k gj gk c' hj hk h1 h2
  · intro j gj c' hj hh
    rw [hgs] at hj
    split at hj
    · cases hj; simp [Pc.holds] at hh
    · exact hinv.registered j gj c' hj hh
  · intro k c' hk
    obtain ⟨j, gj, hj, hkey, hh⟩ := hinv.held k c' hk
    refine ⟨j, gj, ?_, hkey, hh⟩
    rw [hgs, if_neg]
    · exact hj
    · intro hji
      subst hji
      rw [hg] at hj
      cases hj
      rw [hpc] at hh
      simp [Pc.holds] at hh
  · intro j gj c' hj hh
    rw [hgs] at hj
    split at hj
    · cases hj; cases hh
    · exact hinv.calling j gj c' hj hh
  · intro j gj c' hj hh
    rw [hgs] at hj
    split at hj
    · cases hj; cases hh
    · exact hinv.filled j gj c' hj hh
  · intro j gj c' hj hh
    rw [hgs] at hj
    split at hj
    · cases hj; rcases hh with hh | hh <;> cases hh
    · exact hinv.finished j gj c' hj hh
  · intro j gj r hj hh
    rw [hgs] at hj
    split at hj
    · cases hj; cases hh
    · exact hinv.returned j gj r hj hh
  · have := State.invocations_set hg { g with pc := Pc.waiting c, joined := some c }
    have h2 := hinv.counted
    simp only [State.invocations, List.length_append, List.length_singleton] at this h2 ⊢
    omega

theorem State.Inv.step_register {s : State R} (hinv : s.Inv) {i : Nat} {g : Goroutine R}
    (hg : s.gs[i]? = some g) (hpc : g.pc = Pc.entry) (hm : mapGet s.m g.key = none) :
    State.Inv
      { m := mapSet s.m g.key s.calls.length
        calls := s.calls ++ [{ done := false, val := none }]
        gs := s.gs.set i { g with pc := Pc.calling s.calls.length,
                                  joined := some s.calls.length,
                                  runs := g.runs + 1 } } := by
  have hgs := getElem?_set_of_some hg
    { g with pc := Pc.calling s.calls.length, joined := some s.calls.length, runs := g.runs + 1 }
  have hold : ∀ (c' : Nat) (cl : call R), s.calls[c']? = some cl →
      (s.calls ++ [({ done := false, val := none } : call R)])[c']? = some cl := by
    intro c' cl h
    rw [List.getElem?_append_left (List.getElem?_eq_some_iff.mp h).1]
    exact h
  refine ⟨?_, ?_, ?_, ?_, ?_, ?_, ?_, ?_, ?_, ?_⟩
  · intro j gj c' hj hh
    rw [hgs] at hj
    split at hj
    · cases hj
      simpa [Pc.handle] using hh
    · exact hinv.joined j gj c' hj hh
  · intro j gj c' hj hh
    simp only [List.length_append, List.length_singleton]
    rw [hgs] at hj
    split at hj
    · cases hj
      have : s.calls.length = c' := by simpa using hh
      omega
    · have := hinv.valid j gj c' hj hh
      omega
  · intro j k gj gk c' hj hk h1 h2
    rw [hgs] at hj hk
    split at hj
    · rename_i hji
      split at hk
      · rename_i hki
        rw [hji, hki]
      · cases hj
        have e : s.calls.length = c' := by simpa [Pc.owns] using h1
        have := hinv.owns_valid hk h2
        omega
    · split at hk
      · cases hk
        have e : s.calls.length = c' := by simpa [Pc.owns] using h2
        have := hinv.owns_valid hj h1
        omega
      · exact hinv.owner j k gj gk c' hj hk h1 h2
  · intro j gj c' hj hh
    show mapGet (mapSet s.m g.key s.calls.length) gj.key = some c'
    rw [mapGet_mapSet]
    rw [hgs] at hj
    split at hj
    · cases hj
      have e : s.calls.length = c' := by simpa [Pc.holds] using hh
      simp [e]
    · have h1 := hinv.registered j gj c' hj hh
      rw [if_neg]
      · exact h1
      · intro hkey
        rw [hkey, hm] at h1
        cases h1
  · intro k c' hk
    have hk' : mapGet (mapSet s.m g.key s.calls.length) k = some c' := hk
    rw [mapGet_mapSet] at hk'
    split at hk'
    · rename_i hkk
      cases hk'
      refine ⟨i, { g with pc := Pc.calling s.calls.length, joined := some s.calls.length, runs := g.runs + 1 }, ?_, hkk.symm, ?_⟩
      · rw [hgs, if_pos rfl]
      · rfl
    · obtain ⟨j, gj, hj, hkey, hh⟩ := hinv.held k c' hk'
      refine ⟨j, gj, ?_, hkey, hh⟩
      rw [hgs, if_neg]
      · exact hj
      · intro hji
        subst hji
        rw [hg] at hj
        cases hj
        rw [hpc] at hh
        simp [Pc.holds] at hh
  · intro j gj c' hj hh
    rw [hgs] at hj
    split at hj
    · cases hj
      cases hh
      exact List.getElem?_concat_length _ _
    · exact hold _ _ (hinv.calling j gj c' hj hh)
  · intro j gj c' hj hh
    rw [hgs] at hj
    split at hj
    · cases hj; cases hh
    · exact hold _ _ (hinv.filled j gj c' hj hh)
  · intro j gj c' hj hh
    rw [hgs] at hj
    split at hj
    · cases hj; rcases hh with hh | hh <;> cases hh
    · exact hold _ _ (hinv.finished j gj c' hj hh)
  · intro j gj r hj hh
    rw [hgs] at hj
    split at hj
    · cases hj; cases hh
    · obtain ⟨c', h1, h2⟩ := hinv.returned j gj r hj hh
      exact ⟨c', h1, hold _ _ h2⟩
  · have := State.invocations_set hg
      { g with pc := Pc.calling s.calls.length, joined := some s.calls.length, runs := g.runs + 1 }
    have h2 := hinv.counted
    simp only [State.invocations, List.length_append, List.length_singleton] at this h2 ⊢
    omega

theorem State.Inv.step_wake {s : State R} (hinv : s.Inv) {i : Nat} {g : Goroutine R} {c : Nat}
    {cl : call R} (hg : s.gs[i]? = some g) (hpc : g.pc = Pc.waiting c)
    (hcl : s.calls[c]? = some cl) (hd : cl.done = true) :
    State.Inv { s with gs := s.gs.set i { g with pc := Pc.returned cl.val } } := by
  have hgs := getElem?_set_of_some hg { g with pc := Pc.returned cl.val }
  refine ⟨?_, ?_, ?_, ?_, ?_, ?_, ?_, ?_, ?_, ?_⟩
  · intro j gj c' hj hh
    rw [hgs] at hj
    split at hj
    · cases hj; simp [Pc.handle] at hh
    · exact hinv.joined j gj c' hj hh
  · intro j gj c' hj hh
    rw [hgs] at hj
    split at hj
    · rename_i hji
      cases hj
      exact hinv.valid i g c' hg hh
    · exact hinv.valid j gj c' hj hh
  · intro j k gj gk c' hj hk h1 h2
    rw [hgs] at hj hk
    split at hj
    · cases hj; simp [Pc.owns] at h1
    · split at hk
      · cases hk; simp [Pc.owns] at h2
      · exact hinv.owner j k gj gk c' hj hk h1 h2
  · intro j gj c' hj hh
    rw [hgs] at hj
    split at hj
    · cases hj; simp [Pc.holds] at hh
    · exact hinv.registered j gj c' hj hh
  · intro k c' hk
    obtain ⟨j, gj, hj, hkey, hh⟩ := hinv.held k c' hk
    refine ⟨j, gj, ?_, hkey, hh⟩
    rw [hgs, if_neg]
    · exact hj
    · intro hji
      subst hji
      rw [hg] at hj
      cases hj
      rw [hpc] at hh
      simp [Pc.holds] at hh
  · intro j gj c' hj hh
    rw [hgs] at hj
    split at hj
    · cases hj; cases hh
    · exact hinv.calling j gj c' hj hh
  · intro j gj c' hj hh
    rw [hgs] at hj
    split at hj
    · cases hj; cases hh
    · exact hinv.filled j gj c' hj hh
  · intro j gj c' hj hh
    rw [hgs] at hj
    split at hj
    · cases hj; rcases hh with hh | hh <;> cases hh
    · exact hinv.finished j gj c' hj hh
  · intro j gj r hj hh
    rw [hgs] at hj
    split at hj
    · cases hj
      cases hh
      refine ⟨c, hinv.joined i g c hg (by rw [hpc]; rfl), ?_⟩
      rw [hcl]
      cases cl
      simp_all
    · exact hinv.returned j gj r hj hh
  · have := State.invocations_set hg { g with pc := Pc.returned cl.val }
    have h2 := hinv.counted
    simp only [State.invocations, List.length_append, List.length_singleton] at this h2 ⊢
    omega

end singleflight


namespace singleflight

variable {R : Type}

theorem State.Inv.step_fill {s : State R} (hinv : s.Inv) {i : Nat} {g : Goroutine R} {c : Nat}
    {cl : call R} (hg : s.gs[i]? = some g) (hpc : g.pc = Pc.calling c)
    (hcl : s.calls[c]? = some cl) :
    State.Inv { s with calls := s.calls.set c { cl with val := some g.fn }
                       gs := s.gs.set i { g with pc := Pc.filled c } } := by
  have hgs := getElem?_set_of_some hg { g with pc := Pc.filled c }
  have hcs := getElem?_set_of_some hcl { cl with val := some g.fn }
  have hcl0 : cl = { done := false, val := none } := by
    have := hinv.calling i g c hg hpc
    rw [hcl] at this
    exact Option.some.inj this
  have hown : g.pc.owns = some c := by rw [hpc]; rfl
  have hother : ∀ (j : Nat) (gj : Goroutine R) (c' : Nat), ¬ j = i → s.gs[j]? = some gj →
      gj.pc.owns = some c' → ¬ c' = c := by
    intro j gj c' hji hj ho hcc
    subst hcc
    exact hji (hinv.owner j i gj g c' hj hg ho hown)
  refine ⟨?_, ?_, ?_, ?_, ?_, ?_, ?_, ?_, ?_, ?_⟩
  · intro j gj c' hj hh
    rw [hgs] at hj
    split at hj
    · cases hj
      have e : c = c' := by simpa [Pc.handle] using hh
      subst e
      exact hinv.joined i g c hg (Pc.handle_of_owns hown)
    · exact hinv.joined j gj c' hj hh
  · intro j gj c' hj hh
    simp only [List.length_set]
    rw [hgs] at hj
    split at hj
    · cases hj; exact hinv.valid i g c' hg hh
    · exact hinv.valid j gj c' hj hh
  · intro j k gj gk c' hj hk h1 h2
    rw [hgs] at hj hk
    split at hj
    · rename_i hji
      split at hk
      · rename_i hki; rw [hji, hki]
      · cases hj
        have e : c = c' := by simpa [Pc.owns] using h1
        subst e
        rw [hji]
        exact hinv.owner i k g gk c hg hk hown h2
    · split at hk
      · rename_i hki
        cases hk
        have e : c = c' := by simpa [Pc.owns] using h2
        subst e
        rw [hki]
        exact hinv.owner j i gj g c hj hg h1 hown
      · exact hinv.owner j k gj gk c' hj hk h1 h2
  · intro j gj c' hj hh
    rw [hgs] at hj
    split at hj
    · cases hj
      have e : c = c' := by simpa [Pc.holds] using hh
      subst e
      exact hinv.registered i g c hg (by rw [hpc]; rfl)
    · exact hinv.registered j gj c' hj hh
  · intro k c' hk
    obtain ⟨j, gj, hj, hkey, hh⟩ := hinv.held k c' hk
    by_cases hji : j = i
    · subst hji
      rw [hg] at hj
      cases hj
      refine ⟨j, { g with pc := Pc.filled c }, ?_, hkey, ?_⟩
      · rw [hgs, if_pos rfl]
      · rw [hpc] at hh
        exact hh
    · exact ⟨j, gj, by rw [hgs, if_neg hji]; exact hj, hkey, hh⟩
  · intro j gj c' hj hh
    rw [hgs] at hj
    split at hj
    · cases hj; cases hh
    · rename_i hji
      rw [hcs, if_neg (hother j gj c' hji hj (by rw [hh]; rfl))]
      exact hinv.calling j gj c' hj hh
  · intro j gj c' hj hh
    rw [hgs] at hj
    split at hj
    · cases hj
      cases hh
      rw [hcs, if_pos rfl, hcl0]
    · rename_i hji
      rw [hcs, if_neg (hother j gj c' hji hj (by rw [hh]; rfl))]
      exact hinv.filled j gj c' hj hh
  · intro j gj c' hj hh
    rw [hgs] at hj
    split at hj
    · cases hj; rcases hh with hh | hh <;> cases hh
    · rename_i hji
      rw [hcs, if_neg (hother j gj c' hji hj (by rcases hh with hh | hh <;> rw [hh] <;> rfl))]
      exact hinv.finished j gj c' hj hh
  · intro j gj r hj hh
    rw [hgs] at hj
    split at hj
    · cases hj; cases hh
    · obtain ⟨c', h1, h2⟩ := hinv.returned j gj r hj hh
      refine ⟨c', h1, ?_⟩
      rw [hcs, if_neg]
      · exact h2
      · intro hcc
        subst hcc
        rw [hcl, hcl0] at h2
        cases h2
  · have := State.invocations_set hg { g with pc := Pc.filled c }
    have h2 := hinv.counted
    simp only [State.invocations, List.length_set] at this h2 ⊢
    omega

theorem State.Inv.step_release {s : State R} (hinv : s.Inv) {i : Nat} {g : Goroutine R}
    {c : Nat} {cl : call R} (hg : s.gs[i]? = some g) (hpc : g.pc = Pc.filled c)
    (hcl : s.calls[c]? = some cl) :
    State.Inv { s with calls := s.calls.set c { cl with done := true }
                       gs := s.gs.set i { g with pc := Pc.released c } } := by
  have hgs := getElem?_set_of_some hg { g with pc := Pc.released c }
  have hcs := getElem?_set_of_some hcl { cl with done := true }
  have hcl0 : cl = { done := false, val := some g.fn } := by
    have := hinv.filled i g c hg hpc
    rw [hcl] at this
    exact Option.some.inj this
  have hown : g.pc.owns = some c := by rw [hpc]; rfl
  have hother : ∀ (j : Nat) (gj : Goroutine R) (c' : Nat), ¬ j = i → s.gs[j]? = some gj →
      gj.pc.owns = some c' → ¬ c' = c := by
    intro j gj c' hji hj ho hcc
    subst hcc
    exact hji (hinv.owner j i gj g c' hj hg ho hown)
  refine ⟨?_, ?_, ?_, ?_, ?_, ?_, ?_, ?_, ?_, ?_⟩
  · intro j gj c' hj hh
    rw [hgs] at hj
    split at hj
    · cases hj
      have e : c = c' := by simpa [Pc.handle] using hh
      subst e
      exact hinv.joined i g c hg (Pc.handle_of_owns hown)
    · exact hinv.joined j gj c' hj hh
  · intro j gj c' hj hh
    simp only [List.length_set]
    rw [hgs] at hj
    split at hj
    · cases hj; exact hinv.valid i g c' hg hh
    · exact hinv.valid j gj c' hj hh
  · intro j k gj gk c' hj hk h1 h2
    rw [hgs] at hj hk
    split at hj
    · rename_i hji
      split at hk
      · rename_i hki; rw [hji, hki]
      · cases hj
        have e : c = c' := by simpa [Pc.owns] using h1
        subst e
        rw [hji]
        exact hinv.owner i k g gk c hg hk hown h2
    · split at hk
      · rename_i hki
        cases hk
        have e : c = c' := by simpa [Pc.owns] using h2
        subst e
        rw [hki]
        exact hinv.owner j i gj g c hj hg h1 hown
      · exact hinv.owner j k gj gk c' hj hk h1 h2
  · intro j gj c' hj hh
    rw [hgs] at hj
    split at hj
    · cases hj
      have e : c = c' := by simpa [Pc.holds] using hh
      subst e
      exact hinv.registered i g c hg (by rw [hpc]; rfl)
    · exact hinv.registered j gj c' hj hh
  · intro k c' hk
    obtain ⟨j, gj, hj, hkey, hh⟩ := hinv.held k c' hk
    by_cases hji : j = i
    · subst hji
      rw [hg] at hj
      cases hj
      refine ⟨j, { g with pc := Pc.released c }, ?_, hkey, ?_⟩
      · rw [hgs, if_pos rfl]
      · rw [hpc] at hh
        exact hh
    · exact ⟨j, gj, by rw [hgs, if_neg hji]; exact hj, hkey, hh⟩
  · intro j gj c' hj hh
    rw [hgs] at hj
    split at hj
    · cases hj; cases hh
    · rename_i hji
      rw [hcs, if_neg (hother j gj c' hji hj (by rw [hh]; rfl))]
      exact hinv.calling j gj c' hj hh
  · intro j gj c' hj hh
    rw [hgs] at hj
    split at hj
    · cases hj; cases hh
    · rename_i hji
      rw [hcs, if_neg (hother j gj c' hji hj (by rw [hh]; rfl))]
      exact hinv.filled j gj c' hj hh
  · intro j gj c' hj hh
    rw [hgs] at hj
    split at hj
    · cases hj
      have e : c = c' := by
        rcases hh with hh | hh
        · cases hh; rfl
        · cases hh
      subst e
      rw [hcs, if_pos rfl, hcl0]
    · rename_i hji
      rw [hcs, if_neg (hother j gj c' hji hj (by rcases hh with hh | hh <;> rw [hh] <;> rfl))]
      exact hinv.finished j gj c' hj hh
  · intro j gj r hj hh
    rw [hgs] at hj
    split at hj
    · cases hj; cases hh
    · obtain ⟨c', h1, h2⟩ := hinv.returned j gj r hj hh
      refine ⟨c', h1, ?_⟩
      rw [hcs, if_neg]
      · exact h2
      · intro hcc
        subst hcc
        rw [hcl, hcl0] at h2
        cases h2
  · have := State.invocations_set hg { g with pc := Pc.released c }
    have h2 := hinv.counted
    simp only [State.invocations, List.length_set] at this h2 ⊢
    omega

end singleflight


namespace singleflight

variable {R : Type}

theorem State.Inv.step_delete {s : State R} (hinv : s.Inv) {i : Nat} {g : Goroutine R}
    {c : Nat} (hg : s.gs[i]? = some g) (hpc : g.pc = Pc.released c) :
    State.Inv { s with m := mapDelete s.m g.key
                       gs := s.gs.set i { g with pc := Pc.deleted c } } := by
  have hgs := getElem?_set_of_some hg { g with pc := Pc.deleted c }
  have hown : g.pc.owns = some c := by rw [hpc]; rfl
  have hreg : mapGet s.m g.key = some c := hinv.registered i g c hg (by rw [hpc]; rfl)
  refine ⟨?_, ?_, ?_, ?_, ?_, ?_, ?_, ?_, ?_, ?_⟩
  · intro j gj c' hj hh
    rw [hgs] at hj
    split at hj
    · cases hj
      have e : c = c' := by simpa [Pc.handle] using hh
      subst e
      exact hinv.joined i g c hg (Pc.handle_of_owns hown)
    · exact hinv.joined j gj c' hj hh
  · intro j gj c' hj hh
    rw [hgs] at hj
    split at hj
    · cases hj; exact hinv.valid i g c' hg hh
    · exact hinv.valid j gj c' hj hh
  · intro j k gj gk c' hj hk h1 h2
    rw [hgs] at hj hk
    split at hj
    · rename_i hji
      split at hk
      · rename_i hki; rw [hji, hki]
      · cases hj
        have e : c = c' := by simpa [Pc.owns] using h1
        subst e
        rw [hji]
        exact hinv.owner i k g gk c hg hk hown h2
    · split at hk
      · rename_i hki
        cases hk
        have e : c = c' := by simpa [Pc.owns] using h2
        subst e
        rw [hki]
        exact hinv.owner j i gj g c hj hg h1 hown
      · exact hinv.owner j k gj gk c' hj hk h1 h2
  · intro j gj c' hj hh
    show mapGet (mapDelete s.m g.key) gj.key = some c'
    rw [hgs] at hj
    split at hj
    · cases hj; simp [Pc.holds] at hh
    · rename_i hji
      have h1 := hinv.registered j gj c' hj hh
      rw [mapGet_mapDelete, if_neg]
      · exact h1
      · intro hkey
        rw [hkey, hreg] at h1
        have e : c = c' := Option.some.inj h1
        subst e
        exact hji (hinv.owner j i gj g c hj hg (Pc.owns_of_holds hh) hown)
  · intro k c' hk
    have hk' : mapGet (mapDelete s.m g.key) k = some c' := hk
    rw [mapGet_mapDelete] at hk'
    split at hk'
    · cases hk'
    · rename_i hkk
      obtain ⟨j, gj, hj, hkey, hh⟩ := hinv.held k c' hk'
      refine ⟨j, gj, ?_, hkey, hh⟩
      rw [hgs, if_neg]
      · exact hj
      · intro hji
        subst hji
        rw [hg] at hj
        cases hj
        exact hkk hkey.symm
  · intro j gj c' hj hh
    rw [hgs] at hj
    split at hj
    · cases hj; cases hh
    · exact hinv.calling j gj c' hj hh
  · intro j gj c' hj hh
    rw [hgs] at hj
    split at hj
    · cases hj; cases hh
    · exact hinv.filled j gj c' hj hh
  · intro j gj c' hj hh
    rw [hgs] at hj
    split at hj
    · cases hj
      have e : c = c' := by
        rcases hh with hh | hh
        · cases hh
        · cases hh; rfl
      subst e
      exact hinv.finished i g c hg (Or.inl hpc)
    · exact hinv.finished j gj c' hj hh
  · intro j gj r hj hh
    rw [hgs] at hj
    split at hj
    · cases hj; cases hh
    · exact hinv.returned j gj r hj hh
  · have := State.invocations_set hg { g with pc := Pc.deleted c }
    have h2 := hinv.counted
    simp only [State.invocations] at this h2 ⊢
    omega

theorem State.Inv.step_return {s : State R} (hinv : s.Inv) {i : Nat} {g : Goroutine R}
    {c : Nat} {cl : call R} (hg : s.gs[i]? = some g) (hpc : g.pc = Pc.deleted c)
    (hcl : s.calls[c]? = some cl) :
    State.Inv { s with gs := s.gs.set i { g with pc := Pc.returned cl.val } } := by
  have hgs := getElem?_set_of_some hg { g with pc := Pc.returned cl.val }
  have hcl0 : cl = { done := true, val := some g.fn } := by
    have := hinv.finished i g c hg (Or.inr hpc)
    rw [hcl] at this
    exact Option.some.inj this
  refine ⟨?_, ?_, ?_, ?_, ?_, ?_, ?_, ?_, ?_, ?_⟩
  · intro j gj c' hj hh
    rw [hgs] at hj
    split at hj
    · cases hj; simp [Pc.handle] at hh
    · exact hinv.joined j gj c' hj hh
  · intro j gj c' hj hh
    rw [hgs] at hj
    split at hj
    · cases hj; exact hinv.valid i g c' hg hh
    · exact hinv.valid j gj c' hj hh
  · intro j k gj gk c' hj hk h1 h2
    rw [hgs] at hj hk
    split at hj
    · cases hj; simp [Pc.owns] at h1
    · split at hk
      · cases hk; simp [Pc.owns] at h2
      · exact hinv.owner j k gj gk c' hj hk h1 h2
  · intro j gj c' hj hh
    rw [hgs] at hj
    split at hj
    · cases hj; simp [Pc.holds] at hh
    · exact hinv.registered j gj c' hj hh
  · intro k c' hk
    obtain ⟨j, gj, hj, hkey, hh⟩ := hinv.held k c' hk
    refine ⟨j, gj, ?_, hkey, hh⟩
    rw [hgs, if_neg]
    · exact hj
    · intro hji
      subst hji
      rw [hg] at hj
      cases hj
      rw [hpc] at hh
      simp [Pc.holds] at hh
  · intro j gj c' hj hh
    rw [hgs] at hj
    split at hj
    · cases hj; cases hh
    · exact hinv.calling j gj c' hj hh
  · intro j gj c' hj hh
    rw [hgs] at hj
    split at hj
    · cases hj; cases hh
    · exact hinv.filled j gj c' hj hh
  · intro j gj c' hj hh
    rw [hgs] at hj
    split at hj
    · cases hj; rcases hh with hh | hh <;> cases hh
    · exact hinv.finished j gj c' hj hh
  · intro j gj r hj hh
    rw [hgs] at hj
    split at hj
    · cases hj
      cases hh
      refine ⟨c, hinv.joined i g c hg (by rw [hpc]; rfl), ?_⟩
      rw [hcl, hcl0]
    · exact hinv.returned j gj r hj hh
  · have := State.invocations_set hg { g with pc := Pc.returned cl.val }
    have h2 := hinv.counted
    simp only [State.invocations] at this h2 ⊢
    omega

/-- Every step keeps the invariant. -/
theorem State.Inv.step_keeps {s s' : State R} (hinv : s.Inv) {i : Nat} (h : s.step i = some s') :
    s'.Inv := by
  unfold State.step at h
  cases hg : s.gs[i]? with
  | none => rw [hg] at h; cases h
  | some g =>
    rw [hg] at h
    dsimp only at h
    cases hpc : g.pc with
    | entry =>
      rw [hpc] at h
      dsimp only at h
      cases hm : mapGet s.m g.key with
      | none =>
        rw [hm] at h
        cases h
        exact hinv.step_register hg hpc hm
      | some c =>
        rw [hm] at h
        cases h
        exact hinv.step_join hg hpc hm
    | waiting c =>
      rw [hpc] at h
      dsimp only at h
      cases hcl : s.calls[c]? with
      | none => rw [hcl] at h; cases h
      | some cl =>
        rw [hcl] at h
        dsimp only at h
        by_cases hd : cl.done = true
        · rw [if_pos hd] at h
          cases h
          exact hinv.step_wake hg hpc hcl hd
        · rw [if_neg hd] at h
          cases h
    | calling c =>
      rw [hpc] at h
      dsimp only at h
      cases hcl : s.calls[c]? with
      | none => rw [hcl] at h; cases h
      | some cl =>
        rw [hcl] at h
        cases h
        exact hinv.step_fill hg hpc hcl
    | filled c =>
      rw [hpc] at h
      dsimp only at h
      cases hcl : s.calls[c]? with
      | none => rw [hcl] at h; cases h
      | some cl =>
        rw [hcl] at h
        cases h
        exact hinv.step_release hg hpc hcl
    | released c =>
      rw [hpc] at h
      cases h
      exact hinv.step_delete hg hpc
    | deleted c =>
      rw [hpc] at h
      dsimp only at h
      cases hcl : s.calls[c]? with
      | none => rw [hcl] at h; cases h
      | some cl =>
        rw [hcl] at h
        cases h
        exact hinv.step_return hg hpc hcl
    | returned r =>
      rw [hpc] at h
      cases h

/-- Every schedule keeps the invariant. -/
theorem State.Inv.run_keeps : ∀ (sched : List Nat) {s s' : State R}, s.Inv → s.run sched = some s' →
    s'.Inv := by
  intro sched
  induction sched with
  | nil => intro s s' hinv h; cases h; exact hinv
  | cons i is ih =>
    intro s s' hinv h
    unfold State.run at h
    cases hs : s.step i with
    | none => rw [hs] at h; cases h
    | some s1 =>
      rw [hs] at h
      exact ih (hinv.step_keeps hs) h

theorem State.init_invocations (calls : List (String × R)) :
    (State.init calls).invocations = (State.init calls).calls.length := by
  show ((State.init calls).gs.map (fun g => g.runs)).sum = 0
  unfold State.init
  simp only [List.map_map]
  induction calls with
  | nil => rfl
  | cons p ps ih => simpa using ih

theorem State.init_Inv (calls : List (String × R)) : (State.init calls).Inv := by
  have hpc : ∀ (i : Nat) (g : Goroutine R), (State.init calls).gs[i]? = some g →
      g.pc = Pc.entry := by
    intro i g hg
    have hmem := List.getElem?_mem hg
    unfold State.init at hmem
    obtain ⟨p, _, hp⟩ := List.mem_map.mp hmem
    rw [← hp]
  have hj : ∀ (i : Nat) (g : Goroutine R), (State.init calls).gs[i]? = some g →
      g.joined = none := by
    intro i g hg
    have hmem := List.getElem?_mem hg
    unfold State.init at hmem
    obtain ⟨p, _, hp⟩ := List.mem_map.mp hmem
    rw [← hp]
  refine ⟨?_, ?_, ?_, ?_, ?_, ?_, ?_, ?_, ?_, ?_⟩
  · intro i g c hg hh; rw [hpc i g hg] at hh; cases hh
  · intro i g c hg hh; rw [hj i g hg] at hh; cases hh
  · intro i j gi gj c hi _ hh _; rw [hpc i gi hi] at hh; cases hh
  · intro i g c hg hh; rw [hpc i g hg] at hh; cases hh
  · intro k c hk; cases hk
  · intro i g c hg hh; rw [hpc i g hg] at hh; cases hh
  · intro i g c hg hh; rw [hpc i g hg] at hh; cases hh
  · intro i g c hg hh; rw [hpc i g hg] at hh; rcases hh with hh | hh <;> cases hh
  · intro i g r hg hh; rw [hpc i g hg] at hh; cases hh
  · exact State.init_invocations calls

end singleflight


namespace singleflight

variable {R : Type}

theorem State.eq_step_register (s : State R) (i : Nat) (g : Goroutine R)
    (hg : s.gs[i]? = some g) (hpc : g.pc = Pc.entry) (hm : mapGet s.m g.key = none) :
    s.step i = some
      { m := mapSet s.m g.key s.calls.length
        calls := s.calls ++ [{ done := false, val := none }]
        gs := s.gs.set i { g with pc := Pc.calling s.calls.length,
                                  joined := some s.calls.length,
                                  runs := g.runs + 1 } } := by
  unfold State.step
  rw [hg]
  dsimp only
  rw [hpc]
  dsimp only
  rw [hm]

theorem State.eq_step_join (s : State R) (i : Nat) (g : Goroutine R) {c : Nat}
    (hg : s.gs[i]? = some g) (hpc : g.pc = Pc.entry) (hm : mapGet s.m g.key = some c) :
    s.step i = some { s with gs := s.gs.set i { g with pc := Pc.waiting c, joined := some c } } := by
  unfold State.step
  rw [hg]
  dsimp only
  rw [hpc]
  dsimp only
  rw [hm]

theorem State.eq_step_wake (s : State R) (i : Nat) (g : Goroutine R) {c : Nat} {r : Option R}
    (hg : s.gs[i]? = some g) (hpc : g.pc = Pc.waiting c)
    (hcl : s.calls[c]? = some { done := true, val := r }) :
    s.step i = some { s with gs := s.gs.set i { g with pc := Pc.returned r } } := by
  unfold State.step
  rw [hg]
  dsimp only
  rw [hpc]
  dsimp only
  rw [hcl]
  rfl

theorem State.eq_step_fill (s : State R) (i : Nat) (g : Goroutine R) {c : Nat} {cl : call R}
    (hg : s.gs[i]? = some g) (hpc : g.pc = Pc.calling c) (hcl : s.calls[c]? = some cl) :
    s.step i = some { s with calls := s.calls.set c { cl with val := some g.fn }
                             gs := s.gs.set i { g with pc := Pc.filled c } } := by
  unfold State.step
  rw [hg]
  dsimp only
  rw [hpc]
  dsimp only
  rw [hcl]

theorem State.eq_step_release (s : State R) (i : Nat) (g : Goroutine R) {c : Nat} {cl : call R}
    (hg : s.gs[i]? = some g) (hpc : g.pc = Pc.filled c) (hcl : s.calls[c]? = some cl) :
    s.step i = some { s with calls := s.calls.set c { cl with done := true }
                             gs := s.gs.set i { g with pc := Pc.released c } } := by
  unfold State.step
  rw [hg]
  dsimp only
  rw [hpc]
  dsimp only
  rw [hcl]

theorem State.eq_step_delete (s : State R) (i : Nat) (g : Goroutine R) {c : Nat}
    (hg : s.gs[i]? = some g) (hpc : g.pc = Pc.released c) :
    s.step i = some { s with m := mapDelete s.m g.key
                             gs := s.gs.set i { g with pc := Pc.deleted c } } := by
  unfold State.step
  rw [hg]
  dsimp only
  rw [hpc]

theorem State.eq_step_return (s : State R) (i : Nat) (g : Goroutine R) {c : Nat} {cl : call R}
    (hg : s.gs[i]? = some g) (hpc : g.pc = Pc.deleted c) (hcl : s.calls[c]? = some cl) :
    s.step i = some { s with gs := s.gs.set i { g with pc := Pc.returned cl.val } } := by
  unfold State.step
  rw [hg]
  dsimp only
  rw [hpc]
  dsimp only
  rw [hcl]

theorem State.run_cons (s : State R) (i : Nat) (is : List Nat) {s1 : State R}
    (h : s.step i = some s1) : s.run (i :: is) = s1.run is := by
  show (s.step i).bind (fun s' => s'.run is) = s1.run is
  rw [h]
  rfl

/-- A goroutine that enters `DoOnce` while its key is not registered and runs alone
registers a call, invokes `fn` once, releases, deregisters and returns what `fn`
returned; the registry ends without the key and otherwise as it was. -/
theorem State.run_alone (s : State R) (i : Nat) (g : Goroutine R)
    (hg : s.gs[i]? = some g) (hpc : g.pc = Pc.entry) (hm : mapGet s.m g.key = none) :
    ∃ s', s.run [i, i, i, i, i] = some s' ∧
      s'.gs[i]? = some { g with pc := Pc.returned (some g.fn), joined := some s.calls.length, runs := g.runs + 1 } ∧
      (∀ j, j ≠ i → s'.gs[j]? = s.gs[j]?) ∧
      mapGet s'.m g.key = none ∧ (∀ k, k ≠ g.key → mapGet s'.m k = mapGet s.m k) := by
  have hlt : i < s.gs.length := (List.getElem?_eq_some_iff.mp hg).1
  simp [State.run, State.step, hg, hpc, hm, hlt, List.getElem?_set_self, mapGet_mapDelete,
    mapGet_mapSet]
  constructor
  · intro j hj
    rw [List.getElem?_set_ne (fun h => hj h.symm)]
  · intro k hk
    simp [hk]

/-- C18. In a state where no call for the key is registered, a goroutine running
`DoOnce(key, fn)` alone invokes `fn` exactly once and returns exactly what `fn`
returned; on return the registry has no entry for the key and its entries for
other keys are unchanged.  A later `DoOnce` on the same key by another
goroutine therefore invokes its own `fn` again and returns that result. -/
theorem State.DoOnce_alone (s : State R) (i j : Nat) (g g2 : Goroutine R)
    (hg : s.gs[i]? = some g) (hpc : g.pc = Pc.entry) (hm : mapGet s.m g.key = none)
    (hij : j ≠ i) (hg2 : s.gs[j]? = some g2) (hpc2 : g2.pc = Pc.entry)
    (hkey : g2.key = g.key) :
    ∃ s' s'', s.run [i, i, i, i, i] = some s' ∧
      (s'.gs[i]?).map (fun g => (g.pc, g.runs))
        = some (Pc.returned (some g.fn), g.runs + 1) ∧
      mapGet s'.m g.key = none ∧
      (∀ k, k ≠ g.key → mapGet s'.m k = mapGet s.m k) ∧
      s'.run [j, j, j, j, j] = some s'' ∧
      (s''.gs[j]?).map (fun g => (g.pc, g.runs))
        = some (Pc.returned (some g2.fn), g2.runs + 1) ∧
      (s''.gs[i]?).map (fun g => (g.pc, g.runs))
        = some (Pc.returned (some g.fn), g.runs + 1) := by
  obtain ⟨s', h1, h2, h3, h4, h5⟩ := State.run_alone s i g hg hpc hm
  have hg2' : s'.gs[j]? = some g2 := by rw [h3 j hij]; exact hg2
  obtain ⟨s'', k1, k2, k3, _, _⟩ := State.run_alone s' j g2 hg2' hpc2 (by rw [hkey]; exact h4)
  refine ⟨s', s'', h1, by rw [h2]; rfl, h4, h5, k1, by rw [k2]; rfl, ?_⟩
  rw [k3 i (fun h => hij h.symm), h2]
  rfl

/-- C20 (amended). In every state reached under every schedule: the registry holds
a call only while its executor stands between registration and deregistration;
after `c.wg.Done()` and until the executor deletes the key, the registry still
holds the finished call, and a goroutine entering `DoOnce` for that key then
joins it and returns its pair without invoking `fn`; once the executor has
deleted the key the registry no longer holds its call, and a goroutine entering
`DoOnce` for a key that is not registered starts a fresh execution. -/
theorem State.deregistered_after_release (calls : List (String × R)) (sched : List Nat)
    (s : State R) (hrun : (State.init calls).run sched = some s) :
    (∀ (k : String) (c : Nat), mapGet s.m k = some c →
      ∃ (i : Nat) (g : Goroutine R), s.gs[i]? = some g ∧ g.key = k ∧
        (g.pc = Pc.calling c ∨ g.pc = Pc.filled c ∨ g.pc = Pc.released c)) ∧
    (∀ (i : Nat) (g : Goroutine R) (c : Nat), s.gs[i]? = some g → g.pc = Pc.released c →
      mapGet s.m g.key = some c ∧ s.calls[c]? = some { done := true, val := some g.fn }) ∧
    (∀ (i j : Nat) (gi gj : Goroutine R) (c : Nat), s.gs[i]? = some gi →
      gi.pc = Pc.released c → s.gs[j]? = some gj → gj.pc = Pc.entry → gj.key = gi.key →
      ∃ s2, s.run [j, j] = some s2 ∧
        s2.gs[j]? = some { gj with pc := Pc.returned (some gi.fn), joined := some c }) ∧
    (∀ (i : Nat) (g : Goroutine R) (c : Nat), s.gs[i]? = some g → g.pc = Pc.deleted c →
      mapGet s.m g.key ≠ some c) ∧
    (∀ (j : Nat) (gj : Goroutine R), s.gs[j]? = some gj → gj.pc = Pc.entry →
      mapGet s.m gj.key = none →
      ∃ s1, s.step j = some s1 ∧
        s1.gs[j]? = some { gj with pc := Pc.calling s.calls.length, joined := some s.calls.length, runs := gj.runs + 1 }) := by
  have hinv : s.Inv := State.Inv.run_keeps sched (State.init_Inv calls) hrun
  refine ⟨?_, ?_, ?_, ?_, ?_⟩
  · intro k c hk
    obtain ⟨i, g, hg, hkey, hh⟩ := hinv.held k c hk
    refine ⟨i, g, hg, hkey, ?_⟩
    cases hpc : g.pc <;> rw [hpc] at hh <;> simp [Pc.holds] at hh <;> simp [hh]
  · intro i g c hg hpc
    exact ⟨hinv.registered i g c hg (by rw [hpc]; rfl), hinv.finished i g c hg (Or.inl hpc)⟩
  · intro i j gi gj c hi hpi hj hpj hkey
    have hreg : mapGet s.m gj.key = some c := by
      rw [hkey]; exact hinv.registered i gi c hi (by rw [hpi]; rfl)
    have hfin := hinv.finished i gi c hi (Or.inl hpi)
    have hlt : j < s.gs.length := (List.getElem?_eq_some_iff.mp hj).1
    have e1 := State.eq_step_join s j gj hj hpj hreg
    rw [State.run_cons s j _ e1]
    have e2 : State.step { s with gs := s.gs.set j { gj with pc := Pc.waiting c, joined := some c } } j = some { s with gs := (s.gs.set j { gj with pc := Pc.waiting c, joined := some c }).set j { gj with pc := Pc.returned (some gi.fn), joined := some c } } :=
      State.eq_step_wake _ j { gj with pc := Pc.waiting c, joined := some c } (List.getElem?_set_self hlt) rfl hfin
    rw [State.run_cons _ j _ e2]
    refine ⟨_, rfl, ?_⟩
    simp [hlt]
  · intro i g c hg hpc hk
    obtain ⟨j, gj, hj, _, hh⟩ := hinv.held g.key c hk
    have e := hinv.owner i j g gj c hg hj (by rw [hpc]; rfl) (Pc.owns_of_holds hh)
    subst e
    rw [hg] at hj
    cases hj
    rw [hpc] at hh
    simp [Pc.holds] at hh
  · intro j gj hj hpj hm
    have hlt : j < s.gs.length := (List.getElem?_eq_some_iff.mp hj).1
    refine ⟨_, State.eq_step_register s j gj hj hpj hm, ?_⟩
    simp [hlt]

end singleflight


namespace consistenthash

/-- C10 (counterexample). On `flatRing` holding peer "A", every point of the new peer
"B" falls on a point of "A"; after `AddNodes("B")` and `Remove("B")` the point
array is back, but `Get("x")`, which returned "A", returns "B".  And on the
ring of "A" and then "B", after `RemovePeerByKey("x")` for the key "x" owned by
"B", `Get("q")` returns "B", not "A". -/
theorem Map.AddNodes_Remove_collision :
    (flatRing.AddNodes ["A"]).keys = [7] ∧
    (flatRing.AddNodes ["A"]).hashMap = [(7, "A")] ∧
    (flatRing.AddNodes ["A"]).Get "x" = some "A" ∧
    (((flatRing.AddNodes ["A"]).AddNodes ["B"]).Remove "B").map
        (fun m => (m.keys, m.Get "x")) = some ([7], some "B") ∧
    (build id 1 (fun _ => 7) [["A"], ["B"]]).Get "x" = some "B" ∧
    (nexuscache.Server.RemovePeerByKey
        { self := "10.0.0.1:8888", peers := build id 1 (fun _ => 7) [["A"], ["B"]] } "x").map
        (fun s => (s.peers.keys, s.peers.Get "q")) = some ([7], some "B") := by
  refine ⟨?_, ?_, ?_, ?_, ?_, ?_⟩
  · decide
  · decide
  · decide
  · decide
  · decide
  · decide

/-- C10 (witness). On `lengthRing` holding peer "A" (points 2, 2, 2), adding and
removing "BB" (points 3, 3, 3) restores the points and the owner of "q"; and on
the ring of "BB" and then "A", removing the owner "BB" of the key "xyz" leaves
"A" as the owner of "q". -/
theorem Map.AddNodes_Remove_witness :
    (∃ m', ((lengthRing.AddNodes ["A"]).AddNodes ["BB"]).Remove "BB" = some m' ∧
      m'.keys = (lengthRing.AddNodes ["A"]).keys ∧
      m'.Get "q" = (lengthRing.AddNodes ["A"]).Get "q") ∧
    ∃ s', nexuscache.Server.RemovePeerByKey
        { self := "10.0.0.1:8888", peers := build id 3 String.length [["BB"], ["A"]] } "xyz"
          = some s' ∧ s'.peers.Get "q" = some "A" := by
  obtain ⟨⟨m', h1, h2, _, h4⟩, _, h5⟩ := Map.AddNodes_Remove id 3 String.length
    (lengthRing.AddNodes ["A"]) "BB" (Reachable.addNodes _ _ Reachable.new)
  obtain ⟨s', h6, h7⟩ := h5 [["BB"], ["A"]] "A" "BB" "10.0.0.1:8888" "xyz" (by decide)
    (by decide) (Or.inl rfl)
  exact ⟨⟨m', h1, h2, (h4 (by decide)).1 "q"⟩, s', h6, h7 "q"⟩

/-- C11 (counterexample). On a ring whose hash sends every input to 7, the peers "A"
and "B" share their point: added in the order A, B the key "x" belongs to "B",
added in the order B, A it belongs to "A". -/
theorem build_order_collision :
    (build id 1 (fun _ => 7) [["A", "B"]]).Get "x" = some "B" ∧
    (build id 1 (fun _ => 7) [["B", "A"]]).Get "x" = some "A" := by
  decide

/-- C11 (witness). Over `wordHash` the peers "A" and "B" share no point; adding them
in one call or in two calls in the opposite order gives the same owner of "x",
and the map sends the point 12353 of "A" to "A". -/
theorem build_Get_eq_witness :
    (build id 2 wordHash [["A", "B"]]).Get "x" = (build id 2 wordHash [["B"], ["A"]]).Get "x" ∧
    mapGet (build id 2 wordHash [["A", "B"]]).hashMap 12353 = some "A" :=
  ⟨(build_Get_eq id 2 wordHash [["A", "B"]] [["B"], ["A"]] "x"
      (by intro p; simp [or_comm])).1 (by unfold Map.NoSharedPoint; decide),
   ((build_Get_eq id 2 wordHash [["A", "B"]] [["B"], ["A"]] "x"
      (by intro p; simp [or_comm])).2.1 12353).trans (by decide)⟩

/-- C12 (counterexample). After `AddNodes("A")` and `Remove("A")` on a ring with two
replicas no peer and no point is left on the ring, yet the point→peer map still
has two entries; and on a ring whose hash sends every input to 7 the map has
one entry for the two peers "A" and "B". -/
theorem Map.entries_after_Remove :
    ((wordRing.AddNodes ["A"]).Remove "A").map (fun m => (m.keys, m.entries)) = some ([], 2) ∧
    (flatRing.AddNodes ["A", "B"]).entries = 1 := by
  decide

/-- C12 (witness). Over `wordHash` the ring holding "A" and "B" with two replicas has
four map entries. -/
theorem ReachableAdding.entries_count_witness :
    ((wordRing.AddNodes ["A", "B"]).entries : Int) = 2 * (["A", "B"].toFinset.card : Int) :=
  (ReachableAdding.entries_count id 2 wordHash ([] ++ ["A", "B"]) (wordRing.AddNodes ["A", "B"])
    (ReachableAdding.addNodes [] _ ["A", "B"] ReachableAdding.new) (by decide)
    (by unfold Map.DistinctPoints; decide)).2

end consistenthash

namespace lru

open nexuscache (ByteView smallView oneEntry)

theorem oneEntry_WF : (oneEntry smallView).WF := by
  have h : (New 10 false : Cache ByteView).Add "k" smallView 9000 0 0
      = some (oneEntry smallView) := by decide
  exact (Cache.WF.New 10 false (by decide)).Add h

/-- C13 (counterexample). An entry added at instant 0 with an expiry of `10^19`
nanoseconds, more than a `time.Duration` can hold, and read at instant 100: the
stored expiry becomes `100 + (2^63 − 1)`, not `100 + 10^19`.  And on the cache
holding "k" stored at instant 0 with expiry 9000, a `Get("k")` that reads the
clock at instants 100, 101 and 102 stores the expiry 9101 and `addTime` 102. -/
theorem Cache.Get_slide_saturates :
    ((New 10 false : Cache ByteView).run
        [.Add "k" smallView 10000000000000000000 0 0, .Get "k" (.once 100)]).map
        (fun c => (c.elems[0]?).map (fun kv => (kv.expire, kv.addTime)))
      = some (some (100 + 9223372036854775807, 100)) ∧
    ((oneEntry smallView).Get "k" { test := 100, slide := 101, stamp := 102 }).map
        (fun r => (r.1, (r.2.elems[0]?).map (fun kv => (kv.expire, kv.addTime))))
      = some (some smallView, some (9101, 102)) := by
  refine ⟨?_, ?_⟩
  · decide
  · decide

/-- C13 (witness). On the cache holding "k" stored at instant 0 with expiry 9000,
`Get("k")` reading the clock at instants 100, 101 and 102 is a hit, the stored
expiry becomes 9101 and `addTime` 102. -/
theorem Cache.Get_entry_witness :
    ∃ c', (oneEntry smallView).Get "k" { test := 100, slide := 101, stamp := 102 }
        = some (some smallView, c') ∧
      c'.ll = [0] ∧
      c'.elems[0]? = some { key := "k", value := smallView, expire := 9101, addTime := 102 } := by
  obtain ⟨c', h1, h2, h3, _⟩ := (Cache.Get_entry (oneEntry smallView) "k" 0
    { key := "k", value := smallView, expire := 9000, addTime := 0 }
    { test := 100, slide := 101, stamp := 102 } oneEntry_WF
    (by decide) (by decide)).2.1 (by decide)
  exact ⟨c', h1, h2, h3⟩

/-- C14 (the code at the failing input). On a cache of ten bytes, after `staleTailOps`
the list holds "b" and, at its tail, the stale element of "a"; `Add` of a
one-byte "a" then raises the byte count to 11, the eviction takes the tail and
deletes "a" from the index: the key just added is evicted (the callback is
called with "a" once more) and misses, while "b", which was added before it
and never read, stays. -/
theorem Cache.evicts_key_just_added :
    ((New 10 true : Cache ByteView).run staleTailOps).map
        (fun c => (c.ll, c.cache, c.nbytes, c.evictions.map Prod.fst))
      = some ([1, 0], [("b", 1)], 9, ["a"]) ∧
    ((New 10 true : Cache ByteView).run
        (staleTailOps ++ [.Add "a" { b := [2], e := 9000 } 9000 6 0])).map
        (fun c => (c.ll, c.cache, c.evictions.map Prod.fst))
      = some ([2, 1], [("b", 1)], ["a", "a"]) ∧
    ((New 10 true : Cache ByteView).run
        (staleTailOps ++ [.Add "a" { b := [2], e := 9000 } 9000 6 0])).map
        (fun c => ((c.fresh "a" 7).isSome, (c.fresh "b" 7).isSome))
      = some (false, true) := by
  decide

/-- C15 (the code at the failing input). After `Add("a")` and `Remove("a")` on a new
cache the index is empty and `Get("a")` misses, but the element is still in the
list: `Len()` is 1 before and after the `Remove`. -/
theorem Cache.Len_after_Remove :
    ((New 10 false : Cache ByteView).run [.Add "a" smallView 9000 0 0]).map
        (fun c => (c.Len, c.cache)) = some (1, [("a", 0)]) ∧
    ((New 10 false : Cache ByteView).run [.Add "a" smallView 9000 0 0, .Remove "a"]).map
        (fun c => (c.Len, c.cache, c.ll, c.fresh "a" 1)) = some (1, [], [0], none) := by
  decide

/-- C16 (counterexample). With `maxBytes = 20` the four entries of `1 + 5` bytes take
24 bytes: the fourth `Add` evicts "a", so `Get("a")` is a miss, and after the
`Add` of "e" only "c", "d" and "e" are present. -/
theorem Cache.scenario_twenty_bytes :
    ((New 20 false : Cache ByteView).run scenarioAdds).bind
        (fun c => (c.Get "a" (.once 4)).map (fun r => r.1)) = some none ∧
    ((New 20 false : Cache ByteView).run (scenarioAdds ++ scenarioRest)).map
        (fun c => (c.cache.map Prod.fst, c.nbytes)) = some (["e", "d", "c"], 18) := by
  decide

/-- C16 (amended). On a new cache with `maxBytes = 24`, after `Add` of "a", "b", "c",
"d" in that order, each with a five-byte value and an expiry in the future,
`Get("a")` is a hit; after a further `Add` of "e" with a five-byte value, "b"
has been evicted and "a", "c", "d" and "e" are all present. -/
theorem Cache.scenario_twenty_four_bytes :
    ((New 24 false : Cache ByteView).run scenarioAdds).bind
        (fun c => (c.Get "a" (.once 4)).map (fun r => r.1)) = some (some (fiveBytes 1)) ∧
    ((New 24 false : Cache ByteView).run (scenarioAdds ++ scenarioRest)).map
        (fun c => (c.ll, c.nbytes, ["a", "b", "c", "d", "e"].map (fun k => c.fresh k 6)))
      = some ([4, 0, 3, 2], 24,
          [some (fiveBytes 1), none, some (fiveBytes 3), some (fiveBytes 4),
           some (fiveBytes 5)]) := by
  decide

/-- C17 (the code at the failing input). With `ExpireRandom = 0` the call
`rand.Int63n(0)` at the start of `Add` panics: `Add` of a key that is not in
the cache does not complete. -/
theorem Cache.Add_zero_jitter :
    zeroJitterCache.Add "k" smallView 9000 0 0 = none := by
  decide

end lru

namespace singleflight

/-- C18 (witness). Of the three goroutines of `threeCalls`, the first and then the
second run `DoOnce("k", fn)` alone: each invokes its own `fn` once and returns
its result. -/
theorem State.DoOnce_alone_witness :
    ∃ s' s'', threeCalls.run [0, 0, 0, 0, 0] = some s' ∧
      mapGet s'.m "k" = none ∧
      s'.run [1, 1, 1, 1, 1] = some s'' ∧
      (s''.gs[1]?).map (fun g => (g.pc, g.runs)) = some (Pc.returned (some "r1"), 1) ∧
      (s''.gs[0]?).map (fun g => (g.pc, g.runs)) = some (Pc.returned (some "r0"), 1) := by
  obtain ⟨s', s'', h1, _, h3, _, h5, h6, h7⟩ := State.DoOnce_alone threeCalls 0 1
    { key := "k", fn := "r0", pc := Pc.entry, joined := none, runs := 0 }
    { key := "k", fn := "r1", pc := Pc.entry, joined := none, runs := 0 }
    rfl rfl rfl (by decide) rfl rfl rfl
  exact ⟨s', s'', h1, h3, h5, h6, h7⟩

/-- C20 (counterexample). After the first goroutine of `threeCalls` has called
`c.wg.Done()` the waiter (the second goroutine) returns while the registry still
holds "k"; the third goroutine, entering `DoOnce("k", fn)` then, joins the
finished call and returns "r0" without invoking its `fn`. -/
theorem State.joins_finished_call :
    threeCalls.run [0, 1, 0, 0, 1] = some windowState ∧
    mapGet windowState.m "k" = some 0 ∧
    (windowState.run [2, 2]).map (fun s => (s.gs[2]?).map (fun g => (g.pc, g.runs)))
      = some (some (Pc.returned (some "r0"), 0)) := by
  decide

/-- C20 (witness). In `windowState` the third goroutine, entering `DoOnce("k", fn)`
while the first stands between `wg.Done()` and the deletion, returns "r0" after
two steps. -/
theorem State.deregistered_after_release_witness :
    ∃ s2, windowState.run [2, 2] = some s2 ∧
      s2.gs[2]? = some { key := "k", fn := "r2", pc := Pc.returned (some "r0"), joined := some 0, runs := 0 } :=
  (State.deregistered_after_release [("k", "r0"), ("k", "r1"), ("k", "r2")] [0, 1, 0, 0, 1]
    windowState (by decide)).2.2.1 0 2
    { key := "k", fn := "r0", pc := Pc.released 0, joined := some 0, runs := 1 }
    { key := "k", fn := "r2", pc := Pc.entry, joined := none, runs := 0 } 0 rfl rfl rfl rfl rfl

end singleflight

namespace singleflight

variable {R : Type}

/-- A step of one goroutine leaves the record of every other goroutine as it was. -/
theorem State.step_other {s s' : State R} {i j : Nat} (h : s.step i = some s') (hne : j ≠ i) :
    s'.gs[j]? = s.gs[j]? := by
  have hset : ∀ (g : Goroutine R), (s.gs.set i g)[j]? = s.gs[j]? := fun g =>
    List.getElem?_set_ne (fun e => hne e.symm)
  unfold State.step at h
  split at h
  · cases h
  · rename_i g hg
    split at h
    · split at h
      · cases h; exact hset _
      · cases h; exact hset _
    · split at h
      · split at h
        · cases h; exact hset _
        · cases h
      · cases h
    · split at h
      · cases h; exact hset _
      · cases h
    · split at h
      · cases h; exact hset _
      · cases h
    · cases h; exact hset _
    · split at h
      · cases h; exact hset _
      · cases h
    · cases h

/-- A goroutine in `c.wg.Wait()` has no step to take while `c.wg.Done()` has not been called. -/
theorem State.step_blocked (s : State R) (i : Nat) (g : Goroutine R) {c : Nat} {v : Option R}
    (hg : s.gs[i]? = some g) (hpc : g.pc = Pc.waiting c)
    (hcl : s.calls[c]? = some { done := false, val := v }) : s.step i = none := by
  unfold State.step
  rw [hg]
  dsimp only
  rw [hpc]
  dsimp only
  rw [hcl]
  rfl

/-- Without a panicking `fn` the steps are those of `State.step`. -/
theorem PanicState.step_eq_step (s : State R) (i : Nat) :
    PanicState.step (fun _ => false) { st := s, gone := [] } i
      = (s.step i).map (fun s' => { st := s', gone := [] }) := by
  unfold PanicState.step
  cases hg : s.gs[i]? with
  | none => simp [State.step, hg]
  | some g => simp [hg]

end singleflight

namespace singleflight

variable {R : Type}

theorem Pc.isCalling_iff (pc : Pc R) : pc.isCalling = true ↔ ∃ c, pc = Pc.calling c := by
  cases pc <;> simp [Pc.isCalling]

/-- The two kinds of step: the goroutine leaves by the panic of its `fn`, or it
takes the step of `State.step`. -/
theorem PanicState.step_cases {panics : Nat → Bool} {p p' : PanicState R} {i : Nat}
    (h : p.step panics i = some p') :
    i ∉ p.gone ∧
    ((∃ (g : Goroutine R) (c : Nat), p.st.gs[i]? = some g ∧ g.pc = Pc.calling c ∧
        panics i = true ∧ p' = { p with gone := i :: p.gone }) ∨
     (∃ s', p.st.step i = some s' ∧ p' = { p with st := s' })) := by
  unfold PanicState.step at h
  by_cases hi : i ∈ p.gone
  · rw [if_pos hi] at h
    cases h
  · rw [if_neg hi] at h
    refine ⟨hi, ?_⟩
    cases hg : p.st.gs[i]? with
    | none => rw [hg] at h; cases h
    | some g =>
      rw [hg] at h
      dsimp only at h
      by_cases hc : (g.pc.isCalling && panics i) = true
      · rw [if_pos hc] at h
        rw [Bool.and_eq_true] at hc
        obtain ⟨c, hpc⟩ := (Pc.isCalling_iff g.pc).mp hc.1
        left
        exact ⟨g, c, rfl, hpc, hc.2, (Option.some.inj h).symm⟩
      · rw [if_neg hc] at h
        right
        cases hs : p.st.step i with
        | none => rw [hs] at h; cases h
        | some s' =>
          rw [hs] at h
          exact ⟨s', rfl, (Option.some.inj h).symm⟩

theorem PanicState.Inv.after_step {panics : Nat → Bool} {p p' : PanicState R} {i : Nat}
    (hinv : p.Inv) (h : p.step panics i = some p') : p'.Inv := by
  obtain ⟨hi, hcase⟩ := PanicState.step_cases h
  rcases hcase with ⟨g, c, hg, hpc, _, rfl⟩ | ⟨s', hs, rfl⟩
  · refine ⟨hinv.st, ?_⟩
    intro j hj
    rcases List.mem_cons.mp hj with rfl | hj
    · exact ⟨g, c, hg, hpc⟩
    · exact hinv.gone j hj
  · refine ⟨hinv.st.step_keeps hs, ?_⟩
    intro j hj
    have hne : j ≠ i := fun e => hi (e ▸ hj)
    obtain ⟨g, c, hg, hpc⟩ := hinv.gone j hj
    refine ⟨g, c, ?_, hpc⟩
    show s'.gs[j]? = some g
    rw [State.step_other hs hne]
    exact hg

theorem PanicState.Inv.after_run (panics : Nat → Bool) :
    ∀ (sched : List Nat) {p p' : PanicState R}, p.Inv → p.run panics sched = some p' → p'.Inv := by
  intro sched
  induction sched with
  | nil => intro p p' hinv h; cases h; exact hinv
  | cons i is ih =>
    intro p p' hinv h
    unfold PanicState.run at h
    cases hs : p.step panics i with
    | none => rw [hs] at h; cases h
    | some p1 =>
      rw [hs] at h
      exact ih (hinv.after_step hs) h

theorem PanicState.Inv.of_init (calls : List (String × R)) : (PanicState.init calls).Inv :=
  ⟨State.init_Inv calls, fun _ hi => by cases hi⟩

/-- A goroutine that left by a panic stays as it is under the steps of the others. -/
theorem PanicState.gone_after_step {panics : Nat → Bool} {p p' : PanicState R} {i k : Nat}
    (hi : i ∈ p.gone) (h : p.step panics k = some p') :
    i ∈ p'.gone ∧ p'.st.gs[i]? = p.st.gs[i]? := by
  obtain ⟨hk, hcase⟩ := PanicState.step_cases h
  rcases hcase with ⟨g, c, _, _, _, rfl⟩ | ⟨s', hs, rfl⟩
  · exact ⟨List.mem_cons_of_mem _ hi, rfl⟩
  · exact ⟨hi, State.step_other hs (fun e => hk (e ▸ hi))⟩

/-- In a reached state the call of a goroutine that left by a panic is still
registered under its key and `c.wg.Done()` has not been called on it. -/
theorem PanicState.Inv.dead_call {p : PanicState R} (hinv : p.Inv) {i : Nat} {g : Goroutine R}
    {c : Nat} (hg : p.st.gs[i]? = some g) (hpc : g.pc = Pc.calling c) :
    mapGet p.st.m g.key = some c ∧ p.st.calls[c]? = some { done := false, val := none } :=
  ⟨hinv.st.registered i g c hg (by rw [hpc]; rfl), hinv.st.calling i g c hg hpc⟩

/-- A goroutine waiting for the call of a goroutine that left by a panic has no step to take. -/
theorem PanicState.Inv.waiter_blocked {panics : Nat → Bool} {p : PanicState R} (hinv : p.Inv)
    {i j : Nat} {g gj : Goroutine R} {c : Nat} (hg : p.st.gs[i]? = some g)
    (hpc : g.pc = Pc.calling c) (hj : p.st.gs[j]? = some gj) (hpj : gj.pc = Pc.waiting c) :
    p.step panics j = none := by
  unfold PanicState.step
  by_cases hmem : j ∈ p.gone
  · rw [if_pos hmem]
  · rw [if_neg hmem, hj]
    dsimp only
    have hnc : gj.pc.isCalling = false := by rw [hpj]; rfl
    rw [hnc, Bool.false_and]
    rw [if_neg (by decide)]
    rw [State.step_blocked p.st j gj hj hpj (hinv.dead_call hg hpc).2]
    rfl

/-- What a later schedule keeps: the goroutine that left by a panic stays where it
is, and so does every goroutine that waits for its call. -/
theorem PanicState.dead_call_run (panics : Nat → Bool) :
    ∀ (sched : List Nat) {p p' : PanicState R} {i : Nat} {g : Goroutine R} {c : Nat},
      p.Inv → i ∈ p.gone → p.st.gs[i]? = some g → g.pc = Pc.calling c →
      p.run panics sched = some p' →
      p'.Inv ∧ i ∈ p'.gone ∧ p'.st.gs[i]? = some g ∧
      ∀ (j : Nat) (gj : Goroutine R), p.st.gs[j]? = some gj → gj.pc = Pc.waiting c →
        p'.st.gs[j]? = some gj := by
  intro sched
  induction sched with
  | nil =>
    intro p p' i g c hinv hi hg _ h
    cases h
    exact ⟨hinv, hi, hg, fun _ _ hj _ => hj⟩
  | cons k ks ih =>
    intro p p' i g c hinv hi hg hpc h
    unfold PanicState.run at h
    cases hs : p.step panics k with
    | none => rw [hs] at h; cases h
    | some p1 =>
      rw [hs] at h
      obtain ⟨hi1, hgi1⟩ := PanicState.gone_after_step hi hs
      have hg1 : p1.st.gs[i]? = some g := by rw [hgi1]; exact hg
      obtain ⟨hinv', hi', hg', hw⟩ := ih (hinv.after_step hs) hi1 hg1 hpc h
      refine ⟨hinv', hi', hg', ?_⟩
      intro j gj hj hpj
      apply hw j gj _ hpj
      have hne : j ≠ k := by
        intro e
        subst e
        rw [hinv.waiter_blocked hg hpc hj hpj] at hs
        cases hs
      obtain ⟨_, hcase⟩ := PanicState.step_cases hs
      rcases hcase with ⟨_, _, _, _, _, rfl⟩ | ⟨s', hs', rfl⟩
      · exact hj
      · show s'.gs[j]? = some gj
        rw [State.step_other hs' hne]
        exact hj

end singleflight

namespace singleflight

variable {R : Type}

/-- A goroutine entering `DoOnce` for the key of a call whose executor left by a
panic joins that call. -/
theorem PanicState.Inv.join_dead_call {panics : Nat → Bool} {p : PanicState R} (hinv : p.Inv)
    {i j : Nat} {g gj : Goroutine R} {c : Nat} (hg : p.st.gs[i]? = some g)
    (hpc : g.pc = Pc.calling c) (hj : p.st.gs[j]? = some gj) (hpj : gj.pc = Pc.entry)
    (hkey : gj.key = g.key) :
    p.step panics j = some { p with st := { p.st with gs := p.st.gs.set j { gj with pc := Pc.waiting c, joined := some c } } } := by
  have hreg : mapGet p.st.m gj.key = some c := by
    rw [hkey]
    exact (hinv.dead_call hg hpc).1
  have hmem : j ∉ p.gone := by
    intro hmem
    obtain ⟨g', c', hg', hpc'⟩ := hinv.gone j hmem
    rw [hj] at hg'
    cases hg'
    rw [hpj] at hpc'
    cases hpc'
  unfold PanicState.step
  rw [if_neg hmem, hj]
  dsimp only
  have hnc : gj.pc.isCalling = false := by rw [hpj]; rfl
  rw [hnc, Bool.false_and, if_neg (by decide), State.eq_step_join p.st j gj hj hpj hreg]
  rfl

/-- C21 (amended). When `fn` of a goroutine has panicked during `DoOnce(key, fn)`,
then in every later state of a program that goes on: the registry still holds
the call under `key` and `c.wg.Done()` has not been called on it; every
goroutine that was waiting for the call is still waiting and has no step to
take; and a goroutine entering `DoOnce(key, fn2)` joins the call and waits as
well, its `fn2` not invoked. -/
theorem PanicState.registration_stays (panics : Nat → Bool) (calls : List (String × R))
    (sched later : List Nat) (p p' : PanicState R) (i : Nat) (g : Goroutine R)
    (hrun : (PanicState.init calls).run panics sched = some p)
    (hgone : i ∈ p.gone) (hg : p.st.gs[i]? = some g)
    (hlater : p.run panics later = some p') :
    ∃ c, g.pc = Pc.calling c ∧
      mapGet p'.st.m g.key = some c ∧
      p'.st.calls[c]? = some { done := false, val := none } ∧
      (∀ (j : Nat) (gj : Goroutine R), p.st.gs[j]? = some gj → gj.pc = Pc.waiting c →
        p'.st.gs[j]? = some gj) ∧
      (∀ (j : Nat) (gj : Goroutine R), p'.st.gs[j]? = some gj → gj.pc = Pc.waiting c →
        p'.step panics j = none) ∧
      (∀ (j : Nat) (gj : Goroutine R), p'.st.gs[j]? = some gj → gj.pc = Pc.entry →
        gj.key = g.key →
        p'.step panics j = some { p' with st := { p'.st with gs := p'.st.gs.set j { gj with pc := Pc.waiting c, joined := some c } } }) := by
  have hinv : p.Inv := PanicState.Inv.after_run panics sched (PanicState.Inv.of_init calls) hrun
  obtain ⟨g0, c, hg0, hpc⟩ := hinv.gone i hgone
  rw [hg] at hg0
  cases hg0
  obtain ⟨hinv', _, hg', hw⟩ := PanicState.dead_call_run panics later hinv hgone hg hpc hlater
  refine ⟨c, hpc, (hinv'.dead_call hg' hpc).1, (hinv'.dead_call hg' hpc).2, hw, ?_, ?_⟩
  · intro j gj hj hpj
    exact hinv'.waiter_blocked hg' hpc hj hpj
  · intro j gj hj hpj hkey
    exact hinv'.join_dead_call hg' hpc hj hpj hkey

end singleflight

namespace singleflight

/-- C21 (counterexample). Of three goroutines calling `DoOnce("k", fn)`, the first
registers the call, the second joins it, and `fn` of the first panics.  The
registry then still holds "k", the waiting second goroutine has no step to
take, and the third, entering `DoOnce("k", fn)` afterwards, joins the dead call
without invoking its `fn` and has no step to take either. -/
theorem PanicState.waiters_hang :
    (PanicState.init [("k", "r0"), ("k", "r1"), ("k", "r2")]).run firstPanics [0, 1, 0]
      = some deadCall ∧
    mapGet deadCall.st.m "k" = some 0 ∧
    deadCall.step firstPanics 1 = none ∧
    deadCall.run firstPanics [2] = some deadCallJoined ∧
    deadCallJoined.step firstPanics 2 = none ∧
    deadCallJoined.step firstPanics 1 = none := by
  refine ⟨?_, ?_, ?_, ?_, ?_, ?_⟩
  · decide
  · decide
  · decide
  · decide
  · decide
  · decide

/-- C21 (witness). After the panic of the first goroutine of `deadCall` and the entry
of the third, the registry still holds the call of "k", not released. -/
theorem PanicState.registration_stays_witness :
    ∃ c, mapGet deadCallJoined.st.m "k" = some c ∧
      deadCallJoined.st.calls[c]? = some { done := false, val := none } :=
  match PanicState.registration_stays firstPanics [("k", "r0"), ("k", "r1"), ("k", "r2")]
      [0, 1, 0] [2] deadCall deadCallJoined 0
      { key := "k", fn := "r0", pc := Pc.calling 0, joined := some 0, runs := 1 }
      (by decide) (by decide) rfl (by decide) with
  | ⟨c, _, h1, h2, _⟩ => ⟨c, h1, h2⟩

end singleflight

namespace lru

open nexuscache (ByteView tenByteView)

/-- C22 (the code at the failing input). On a cache of ten bytes, after `removeOps`
the list and the index are both empty and the byte count is -2; after
`staleOps` the list and the index both hold "c" alone and the byte count is 7
for its 9 bytes.  `Add` of "k" with a ten-byte value (eleven bytes with the
key) then stops evicting at a byte count of 9: "k" stays in the list and in the
index, and `Get("k")` would hit. -/
theorem Cache.oversized_entry_stays :
    ((New 10 true : Cache ByteView).run removeOps).map
        (fun c => (c.ll, c.cache, c.nbytes)) = some ([], [], -2) ∧
    ((New 10 true : Cache ByteView).run (removeOps ++ [oversizedAdd])).map
        (fun c => (c.ll, c.cache, c.nbytes)) = some ([1], [("k", 1)], 9) ∧
    ((New 10 true : Cache ByteView).run (removeOps ++ [oversizedAdd])).map
        (fun c => c.fresh "k" 7) = some (some tenByteView) ∧
    ((New 10 true : Cache ByteView).run staleOps).map
        (fun c => (c.ll, c.cache, c.nbytes)) = some ([2], [("c", 2)], 7) ∧
    ((New 10 true : Cache ByteView).run (staleOps ++ [oversizedAdd])).map
        (fun c => (c.ll, c.cache, c.nbytes)) = some ([3], [("k", 3)], 9) ∧
    ((New 10 true : Cache ByteView).run (staleOps ++ [oversizedAdd])).map
        (fun c => c.fresh "k" 7) = some (some tenByteView) := by
  refine ⟨?_, ?_, ?_, ?_, ?_, ?_⟩
  · decide
  · decide
  · decide
  · decide
  · decide
  · decide

end lru

namespace nexuscache

/-- C23 (the code at the failing input). On a Group without a registered picker
`Set("Tom", v, false)` does not complete: the function passed to `DoOnce` calls
`PickPeer` on the nil `g.peers`.  `Load("Tom")` on the same Group takes the
local path: it calls the backend getter and returns its value. -/
theorem Group.Set_without_peers :
    (bareGroup.Set "Tom" smallView false 0 0).isNone = true ∧
    (bareGroup.Load "Tom" 0 1 0).map (fun r => (r.1, r.2.calls))
      = some ((some { b := [54, 51, 48], e := DefaultExpireTime }, none),
              [.DoOnce "Tom", .GetterGet "Tom"]) := by
  decide

end nexuscache

namespace consistenthash

/-- C24 (the code at the failing input). `RemovePeerByKey` on a server with an empty
ring does not complete: `Get` answers the empty string and `Remove("")` slices
the empty array from index 1.  On the ring that holds "A" alone (points 2, 2,
2), `Remove("BB")` (points 3, 3, 3, none on the ring) does not complete either,
and `Remove("")` (points 1, 1, 1, none on the ring) completes and deletes the
three points of "A". -/
theorem Map.Remove_absent_peer :
    (nexuscache.emptyServer.RemovePeerByKey "k").isNone = true ∧
    (lengthRing.AddNodes ["A"]).keys = [2, 2, 2] ∧
    lengthRing.points "BB" = [3, 3, 3] ∧
    ((lengthRing.AddNodes ["A"]).Remove "BB").isNone = true ∧
    lengthRing.points "" = [1, 1, 1] ∧
    ((lengthRing.AddNodes ["A"]).Remove "").map (fun m => m.keys) = some [] := by
  decide

end consistenthash

namespace lru

variable {V : Type} [Value V]

theorem Cache.listBytes_cons {c : Cache V} {h : Nat} {rest : List Nat} (hll : c.ll = h :: rest) :
    c.sizeAt h ≤ c.listBytes := by
  unfold Cache.listBytes
  rw [hll, List.map_cons, List.sum_cons]
  have : 0 ≤ (rest.map c.sizeAt).sum := List.sum_nonneg (by
    intro x hx
    obtain ⟨y, _, rfl⟩ := List.mem_map.mp hx
    exact c.sizeAt_nonneg y)
  omega

/-- `RemoveOldest` on a non-empty list: the last element leaves the list, the index
and the byte count. -/
theorem Cache.RemoveOldest_last {c : Cache V} {init : List Nat} {ele : Nat} {kv : entry V}
    (hll : c.ll = init ++ [ele]) (hkv : c.elems[ele]? = some kv) :
    c.RemoveOldest = some { c with
      ll := init
      cache := mapDelete c.cache kv.key
      nbytes := c.nbytes - kv.size
      evictions := c.callOnEvicted kv } := by
  unfold Cache.RemoveOldest
  rw [hll, List.getLast?_concat]
  dsimp only
  rw [hkv]
  dsimp only
  rw [List.dropLast_concat]

/-- The eviction loop on a cache whose byte count is the bytes of its list and whose
front element alone exceeds the capacity: it exits with an empty list and a
byte count of 0, having evicted every element from the tail on. -/
theorem Cache.WF.evict_all : ∀ (fuel : Nat) (c : Cache V), c.WF → c.nbytes = c.listBytes →
    0 < c.maxBytes → (∀ h, c.ll.head? = some h → c.maxBytes < c.sizeAt h) →
    c.ll.length ≤ fuel →
    ∃ c', Cache.evict fuel c = some c' ∧ c'.WF ∧ c'.ll = [] ∧ c'.nbytes = 0 ∧
      c'.evictions = if c.OnEvicted then c.evictions ++ c.fromTail else c.evictions := by
  intro fuel
  induction fuel with
  | zero =>
    intro c hwf hb hmax _ hlen
    have hnil : c.ll = [] := List.length_eq_zero.mp (Nat.le_zero.mp hlen)
    have h0 : c.nbytes = 0 := by rw [hb]; unfold Cache.listBytes; rw [hnil]; rfl
    refine ⟨c, ?_, hwf, hnil, h0, ?_⟩
    · unfold Cache.evict
      rw [if_neg]
      intro hc
      omega
    · unfold Cache.fromTail
      rw [hnil]
      simp
  | succ fuel ih =>
    intro c hwf hb hmax hhead hlen
    rcases List.eq_nil_or_concat c.ll with hnil | ⟨init, ele, hll0⟩
    · have h0 : c.nbytes = 0 := by rw [hb]; unfold Cache.listBytes; rw [hnil]; rfl
      refine ⟨c, ?_, hwf, hnil, h0, ?_⟩
      · unfold Cache.evict
        rw [if_neg]
        intro hc
        omega
      · unfold Cache.fromTail
        rw [hnil]
        simp
    · have hll : c.ll = init ++ [ele] := by rw [hll0, List.concat_eq_append]
      have hmem : ele ∈ c.ll := by rw [hll]; simp
      obtain ⟨kv, hkv⟩ := hwf.get_valid hmem
      have hro := Cache.RemoveOldest_last hll hkv
      have hwf2 := hwf.RemoveOldest hro
      -- the front element keeps the byte count above the capacity
      have hover : c.maxBytes < c.nbytes := by
        cases hl : c.ll with
        | nil => rw [hl] at hll; simp at hll
        | cons h0 rest =>
          have h1 := hhead h0 (by rw [hl]; rfl)
          have h2 := Cache.listBytes_cons hl
          omega
      have hsum : c.listBytes = (init.map c.sizeAt).sum + kv.size := by
        unfold Cache.listBytes
        rw [hll, List.map_append, List.sum_append]
        simp [Cache.sizeAt_of_get hkv]
      obtain ⟨c', hev, hwf', hnil', h0', hevs⟩ :=
        ih _ hwf2 (by
            show c.nbytes - kv.size = (init.map c.sizeAt).sum
            omega) hmax (by
            intro h hh
            have hh' : init.head? = some h := hh
            have : c.ll.head? = some h := by
              rw [hll]
              cases init with
              | nil => cases hh'
              | cons a as => exact hh'
            exact hhead h this) (by
            show init.length ≤ fuel
            have : c.ll.length = init.length + 1 := by rw [hll]; simp
            omega)
      refine ⟨c', ?_, hwf', hnil', h0', ?_⟩
      · unfold Cache.evict
        rw [if_pos ⟨by omega, hover⟩, hro]
        exact hev
      · rw [hevs]
        show (if c.OnEvicted then c.callOnEvicted kv ++ _ else c.callOnEvicted kv) = _
        have hft : c.fromTail = (kv.key, kv.value) :: (init.reverse.filterMap
            (fun h => (c.elems[h]?).map (fun kv => (kv.key, kv.value)))) := by
          unfold Cache.fromTail
          rw [hll, List.reverse_append, List.reverse_singleton, List.singleton_append,
            List.filterMap_cons, hkv]
          rfl
        rw [hft]
        unfold Cache.callOnEvicted Cache.fromTail
        by_cases ho : c.OnEvicted = true
        · simp [ho]
        · simp [ho]

end lru

namespace lru

variable {V : Type} [Value V]

/-- The insertion of `Add` keeps an exact byte count exact and leaves the entry of
`key`, with the new value, at the front of the list. -/
theorem Cache.WF.put_exact {c c1 : Cache V} (hwf : c.WF) (hb : c.nbytes = c.listBytes)
    {key : String} {value : V} {expire : Time} {rd : Duration} {now : Time}
    (h : c.put key value expire rd now = some c1) :
    c1.nbytes = c1.listBytes ∧ c1.maxBytes = c.maxBytes ∧ c1.OnEvicted = c.OnEvicted ∧
    c1.evictions = c.evictions ∧
    ∃ (e : Nat) (rest : List Nat) (kv : entry V), c1.ll = e :: rest ∧ c1.elems[e]? = some kv ∧
      kv.key = key ∧ kv.value = value := by
  unfold Cache.put at h
  cases hm : mapGet c.cache key with
  | some ele =>
    rw [hm] at h
    dsimp only at h
    obtain ⟨hin, kv, hkv, hkey⟩ := hwf.index key ele hm
    rw [hkv] at h
    dsimp only at h
    cases h
    have hlt : ele < c.elems.length := hwf.valid ele hin
    refine ⟨?_, rfl, rfl, rfl, ele, c.ll.erase ele,
      { kv with value := value, expire := expire + rd }, moveToFront_of_mem hin, ?_, hkey, rfl⟩
    · have hu := Cache.listBytes_update hwf.nodup hin hkv (rfl :
        (({ c with
          ll := moveToFront c.ll ele
          nbytes := c.nbytes + ((Value.Len value : Int) - (Value.Len kv.value : Int))
          elems := c.elems.set ele { kv with value := value, expire := expire + rd } } :
            Cache V)).ll = moveToFront c.ll ele) (rfl :
        (({ c with
          ll := moveToFront c.ll ele
          nbytes := c.nbytes + ((Value.Len value : Int) - (Value.Len kv.value : Int))
          elems := c.elems.set ele { kv with value := value, expire := expire + rd } } :
            Cache V)).elems = c.elems.set ele { kv with value := value, expire := expire + rd })
      rw [hu]
      show c.nbytes + ((Value.Len value : Int) - (Value.Len kv.value : Int)) = _
      unfold entry.size
      dsimp only
      omega
    · show (c.elems.set ele _)[ele]? = _
      rw [List.getElem?_set_self hlt]
  | none =>
    rw [hm] at h
    dsimp only at h
    cases h
    refine ⟨?_, rfl, rfl, rfl, c.elems.length, c.ll,
      { key := key, value := value, expire := expire + rd, addTime := now }, rfl, ?_, rfl, rfl⟩
    · show c.nbytes + ((key.utf8ByteSize : Int) + (Value.Len value : Int)) = _
      unfold Cache.listBytes
      dsimp only
      rw [List.map_cons, List.sum_cons]
      have hhead : Cache.sizeAt ({ c with
          elems := c.elems ++ [{ key := key, value := value, expire := expire + rd,
                                 addTime := now }]
          ll := c.elems.length :: c.ll
          cache := mapSet c.cache key c.elems.length
          nbytes := c.nbytes + ((key.utf8ByteSize : Int) + (Value.Len value : Int)) } : Cache V)
          c.elems.length = (key.utf8ByteSize : Int) + (Value.Len value : Int) := by
        unfold Cache.sizeAt
        simp [entry.size]
      have hrest : (c.ll.map (Cache.sizeAt ({ c with
          elems := c.elems ++ [{ key := key, value := value, expire := expire + rd,
                                 addTime := now }]
          ll := c.elems.length :: c.ll
          cache := mapSet c.cache key c.elems.length
          nbytes := c.nbytes + ((key.utf8ByteSize : Int) + (Value.Len value : Int)) } :
            Cache V))) = c.ll.map c.sizeAt := by
        apply List.map_congr_left
        intro x hx
        unfold Cache.sizeAt
        dsimp only
        rw [List.getElem?_append_left (hwf.valid x hx)]
      rw [hhead, hrest, hb]
      unfold Cache.listBytes
      omega
    · show (c.elems ++ [_])[c.elems.length]? = _
      simp

theorem mapGet_eq_nil {α β : Type} [DecidableEq α] (m : List (α × β))
    (h : ∀ k, mapGet m k = none) : m = [] := by
  cases m with
  | nil => rfl
  | cons p m =>
    obtain ⟨a, b⟩ := p
    have := h a
    simp [mapGet] at this

/-- `Add` of an entry that alone exceeds the capacity, on a cache whose byte count is
the bytes of its list: the call completes and leaves the list and the index
empty and the byte count at 0; the callback has been called for every element
of the list as it stood after the insertion, from the tail on, the new entry
last; and every following `Get` misses. -/
theorem Cache.WF.Add_oversized {c : Cache V} (hwf : c.WF) (hb : c.nbytes = c.listBytes)
    (hmax : 0 < c.maxBytes) (key : String) (value : V) (expire now : Time) (rnd : Nat)
    (hbig : c.maxBytes < (key.utf8ByteSize : Int) + (Value.Len value : Int)) :
    ∃ c1 c', c.put key value expire ((rnd : Int) % c.ExpireRandom) now = some c1 ∧
      c.Add key value expire now rnd = some c' ∧
      c'.ll = [] ∧ c'.cache = [] ∧ c'.nbytes = 0 ∧
      (c'.evictions = if c.OnEvicted then c.evictions ++ c1.fromTail else c.evictions) ∧
      (∃ older, c1.fromTail = older ++ [(key, value)]) ∧
      ∀ k now2, c'.Get k now2 = some (none, c') := by
  obtain ⟨c1, hput⟩ := hwf.put_some key value expire ((rnd : Int) % c.ExpireRandom) now
  have hwf1 := hwf.put hput
  obtain ⟨hb1, hmax1, hoe, hev1, e, rest, kv, hll, hkv, hkey, hval⟩ := hwf.put_exact hb hput
  obtain ⟨c', hev, hwf', hnil, h0, hevs⟩ := Cache.WF.evict_all c1.ll.length c1 hwf1 hb1
    (by rw [hmax1]; exact hmax) (by
      intro h hh
      rw [hll] at hh
      cases hh
      rw [hmax1, Cache.sizeAt_of_get hkv]
      unfold entry.size
      rw [hkey, hval]
      exact hbig) (Nat.le_refl _)
  have hcache : c'.cache = [] := by
    apply mapGet_eq_nil
    intro k
    cases hk : mapGet c'.cache k with
    | none => rfl
    | some h =>
      have := (hwf'.index k h hk).1
      rw [hnil] at this
      cases this
  refine ⟨c1, c', hput, ?_, hnil, hcache, h0, ?_, ?_, ?_⟩
  · unfold Cache.Add
    rw [if_neg (not_le.mpr hwf.rnd_pos)]
    dsimp only
    rw [hput]
    exact hev
  · rw [hevs, hoe, hev1]
  · refine ⟨rest.reverse.filterMap (fun h => (c1.elems[h]?).map (fun kv => (kv.key, kv.value))), ?_⟩
    unfold Cache.fromTail
    rw [hll, List.reverse_cons, List.filterMap_append]
    simp [hkv, hkey, hval]
  · intro k now2
    unfold Cache.Get
    rw [hcache]
    rfl

end lru

namespace nexuscache

open lru (Time Duration)

/-- On a Group without a registered picker `Set` of a non-empty key into mainCache
never completes, whatever the key, the value and the state of the caches. -/
theorem Group.Set_nil_peers (g : Group) (key : String) (value : ByteView) (now : Time)
    (rnd : Nat) (hp : g.peers = none) (hk : key ≠ "") :
    g.Set key value false now rnd = none := by
  unfold Group.Set
  rw [if_neg hk]
  simp only [Bool.false_eq_true, if_false]
  unfold Group.DoOnce
  split
  · rfl
  · simp [Group.setFn, Group.note, hp]

end nexuscache

namespace consistenthash

/-- `Remove` on an empty point array never completes when the ring has at least one
replica per peer, whatever the hash and the peer ID. -/
theorem Map.Remove_of_nil (m : Map) (key : String) (hnil : m.keys = []) (hrep : 0 < m.replicas) :
    m.Remove key = none := by
  unfold Map.Remove Map.points
  obtain ⟨n, hn⟩ : ∃ n, m.replicas.toNat = n + 1 := ⟨m.replicas.toNat - 1, by omega⟩
  rw [hn, List.range_succ_eq_map, List.map_cons]
  unfold Map.removePoints Map.removePoint SearchInts
  rw [hnil]
  simp [search]

/-- `RemovePeerByKey` on a server whose ring is empty never completes when the ring
has at least one replica per peer: `Get` answers the empty string and `Remove`
is called with it. -/
theorem Map.RemovePeerByKey_of_nil (s : nexuscache.Server) (key : String)
    (hnil : s.peers.keys = []) (hrep : 0 < s.peers.replicas) :
    s.RemovePeerByKey key = none := by
  unfold nexuscache.Server.RemovePeerByKey Map.Get
  rw [hnil]
  simp [Map.Remove_of_nil s.peers "" hnil hrep]

end consistenthash
